import Mathlib

/-!
# LFU cache (`lfu/lfu.go`): shallow embedding

The Go program keeps `*entry` pointers both in the map `cache` and in the slice
`queue`, and `container/heap` reorders the slice through `Less`/`Swap`.  The
embedding keeps that sharing explicit:

* the entry objects live in a list `objs`; a `*entry` is a position in it
  (objects are never freed, a fresh object is appended);
* the slice `queue []*entry` is the list `ptrs` of such positions;
* the map `cache map[string]*entry` is an association list from keys to positions;
* Go `interface{}` values are `Option V` with `none` the nil interface;
* Go `int` is `Int`; the byte counts (`usedBytes`, `en.Len()`, the results of
  `cache.CalcLen`) are computed with the wrap-around of a 64-bit `int`, written
  `wrap`; a weight grows by one per call and a slice position is bounded by the
  number of calls, so neither is wrapped;
* an operation that panics in Go (index out of range, nil dereference) returns
  `none`; the loops of `container/heap` carry a fuel bound and return `none`
  when it is used up;
* `cache.CalcLen` lives outside `lfu.go`; it is given by the parameter `size`,
  a total function read as a Go `int` (`CalcLen`); a call on a value for which
  the real estimator would not return is not modelled;
* the callback `onEvicated` is recorded as "nil or not" together with the list
  `evicted` of the calls made to it so far.
-/

set_option autoImplicit false

namespace LFU

/-- Go `type entry struct { key string; value interface{}; weight int; index int }`. -/
structure entry (V : Type) where
  key : String
  value : Option V
  weight : Int
  index : Int
deriving DecidableEq

/-- The value of a Go `int` (64 bits, two's complement) after an arithmetic
operation whose exact result is `x`: the integer of `[-2^63, 2^63)` congruent to
`x` modulo `2^64`. -/
def wrap (x : Int) : Int :=
  (x + 9223372036854775808) % 18446744073709551616 - 9223372036854775808

/-- The integer `x` is a value of a Go `int`: it lies in `[-2^63, 2^63)`. -/
def fitsInt (x : Int) : Prop := -9223372036854775808 ≤ x ∧ x ≤ 9223372036854775807

instance (x : Int) : Decidable (fitsInt x) := by unfold fitsInt; infer_instance

/-- Go `cache.CalcLen(value)`, which `lfu.go` calls and which is defined outside
it ("a pure function `size(value)` → integer byte count, supplied externally").
The function is the parameter `size`; its result is a Go `int`. -/
def CalcLen {V : Type} (size : Option V → Int) (value : Option V) : Int :=
  wrap (size value)

/-- Go `func (e *entry) Len() int { return cache.CalcLen(e.value) + 4 + 4 }`. -/
def entry.Len {V : Type} (size : Option V → Int) (e : entry V) : Int :=
  wrap (wrap (CalcLen size e.value + 4) + 4)

/-- The accounted size `en.Len()` of an entry holding `value`. -/
def accounted {V : Type} (size : Option V → Int) (value : Option V) : Int :=
  wrap (wrap (CalcLen size value + 4) + 4)

/-- Go `type queue []*entry`, together with the entry objects its pointers designate. -/
structure queue (V : Type) where
  objs : List (entry V)
  ptrs : List Nat
deriving DecidableEq

/-- Go `type lfu struct { maxBytes; onEvicated; usedBytes; queue; cache }`.
`onEvicated` is `true` when the callback is not nil, and `evicted` lists the
calls `onEvicated(key, value)` made so far, oldest first. -/
structure lfu (V : Type) where
  maxBytes : Int
  onEvicated : Bool
  usedBytes : Int
  queue : queue V
  cache : List (String × Nat)
  evicted : List (String × Option V)
deriving DecidableEq

/-! ## The map `cache` -/

/-- Go `e, ok := m[key]`. -/
def mapGet (m : List (String × Nat)) (key : String) : Option Nat :=
  match m with
  | [] => none
  | kp :: t => if kp.1 = key then some kp.2 else mapGet t key

/-- Go `delete(m, key)`. -/
def mapDelete (m : List (String × Nat)) (key : String) : List (String × Nat) :=
  m.filter (fun kp => decide (kp.1 ≠ key))

/-- Go `m[key] = p`. -/
def mapSet (m : List (String × Nat)) (key : String) (p : Nat) : List (String × Nat) :=
  (key, p) :: mapDelete m key

/-! ## The methods of `queue` -/

/-- Go `len(q)` (method `queue.Len`). -/
def queue.Len {V : Type} (q : queue V) : Nat := q.ptrs.length

/-- The object `*q[i]`; `none` when `i` is out of range or the pointer dangles. -/
def queue.deref {V : Type} (q : queue V) (i : Nat) : Option (entry V) :=
  match q.ptrs[i]? with
  | none => none
  | some p => q.objs[p]?

/-- Go `func (q queue) Less(i, j int) bool { return q[i].weight < q[j].weight }`. -/
def queue.Less {V : Type} (q : queue V) (i j : Nat) : Option Bool :=
  match q.deref i, q.deref j with
  | some a, some b => some (decide (a.weight < b.weight))
  | _, _ => none

/-- The assignment `q[pos].index = v`. -/
def queue.setIndex {V : Type} (q : queue V) (pos : Nat) (v : Int) : Option (queue V) :=
  match q.ptrs[pos]? with
  | none => none
  | some p =>
    match q.objs[p]? with
    | none => none
    | some e => some { q with objs := q.objs.set p { e with index := v } }

/-- Go `func (q queue) Swap(i, j int)`:
`q[i], q[j] = q[j], q[i]; q[i].index = i; q[j].index = j`. -/
def queue.Swap {V : Type} (q : queue V) (i j : Nat) : Option (queue V) :=
  match q.ptrs[i]?, q.ptrs[j]? with
  | some a, some b =>
    match ({ q with ptrs := (q.ptrs.set i b).set j a } : queue V).setIndex i i with
    | none => none
    | some q1 => q1.setIndex j j
  | _, _ => none

/-- Go `func (q *queue) Push(x interface{})`:
`n := len(*q); en := x.(*entry); en.index = n; *q = append(*q, en)`. -/
def queue.Push {V : Type} (q : queue V) (x : Nat) : Option (queue V) :=
  match q.objs[x]? with
  | none => none
  | some en =>
    some { objs := q.objs.set x { en with index := (q.ptrs.length : Int) }, ptrs := q.ptrs ++ [x] }

/-- Go `func (q *queue) Pop() interface{}`:
`old := *q; n := len(old); en := old[n-1]; old[n-1] = nil; en.index = -1;
*q = old[:n-1]; return en`.  On an empty slice `old[n-1]` is out of range. -/
def queue.Pop {V : Type} (q : queue V) : Option (queue V × Nat) :=
  if q.ptrs.length = 0 then none
  else
    match q.ptrs[q.ptrs.length - 1]? with
    | none => none
    | some x =>
      match q.objs[x]? with
      | none => none
      | some en =>
        some ({ objs := q.objs.set x { en with index := -1 },
                ptrs := q.ptrs.take (q.ptrs.length - 1) }, x)

/-! ## `container/heap` (Go standard library), on a `queue` -/

/-- Go `heap.up`:
`for { i := (j - 1) / 2; if i == j || !h.Less(j, i) { break }; h.Swap(i, j); j = i }`.
Go's division truncates toward zero, so `j = 0` gives `i = 0`, as here. -/
def upLoop {V : Type} : Nat → queue V → Nat → Option (queue V)
  | 0, _, _ => none
  | fuel + 1, h, j =>
    if (j - 1) / 2 = j then some h
    else
      match h.Less j ((j - 1) / 2) with
      | none => none
      | some false => some h
      | some true =>
        match h.Swap ((j - 1) / 2) j with
        | none => none
        | some h1 => upLoop fuel h1 ((j - 1) / 2)

/-- Go `heap.up(h, j)`; `j` strictly decreases, so `j + 1` rounds are enough. -/
def up {V : Type} (h : queue V) (j : Nat) : Option (queue V) := upLoop (j + 1) h j

/-- The loop of Go `heap.down`, returning the final `i`:
`for { j1 := 2*i + 1; if j1 >= n || j1 < 0 { break }; j := j1;
if j2 := j1 + 1; j2 < n && h.Less(j2, j1) { j = j2 };
if !h.Less(j, i) { break }; h.Swap(i, j); i = j }`. -/
def downLoop {V : Type} : Nat → queue V → Nat → Nat → Option (queue V × Nat)
  | 0, _, _, _ => none
  | fuel + 1, h, i, n =>
    if 2 * i + 1 ≥ n then some (h, i)
    else
      match (if 2 * i + 2 < n then h.Less (2 * i + 2) (2 * i + 1) else some false) with
      | none => none
      | some c =>
        match h.Less (if c then 2 * i + 2 else 2 * i + 1) i with
        | none => none
        | some false => some (h, i)
        | some true =>
          match h.Swap i (if c then 2 * i + 2 else 2 * i + 1) with
          | none => none
          | some h1 => downLoop fuel h1 (if c then 2 * i + 2 else 2 * i + 1) n

/-- Go `heap.down(h, i0, n) bool`, which returns `i > i0`; `i` strictly increases
and stays below `n`, so `n + 1` rounds are enough. -/
def down {V : Type} (h : queue V) (i0 n : Nat) : Option (queue V × Bool) :=
  match downLoop (n + 1) h i0 n with
  | none => none
  | some (h1, i) => some (h1, decide (i > i0))

/-- Go `heap.Push(h, x)`: `h.Push(x); up(h, h.Len()-1)`. -/
def heapPush {V : Type} (h : queue V) (x : Nat) : Option (queue V) :=
  match h.Push x with
  | none => none
  | some h1 => up h1 (h1.Len - 1)

/-- Go `heap.Pop(h)`: `n := h.Len() - 1; h.Swap(0, n); down(h, 0, n); return h.Pop()`.
On an empty heap `n = -1` and `Swap(0, -1)` is out of range. -/
def heapPop {V : Type} (h : queue V) : Option (queue V × Nat) :=
  if h.Len = 0 then none
  else
    match h.Swap 0 (h.Len - 1) with
    | none => none
    | some h1 =>
      match down h1 0 (h.Len - 1) with
      | none => none
      | some (h2, _) => h2.Pop

/-- The body `if !down(h, i, n) { up(h, i) }` shared by `heap.Fix` and `heap.Remove`. -/
def downOrUp {V : Type} (h : queue V) (i n : Nat) : Option (queue V) :=
  match down h i n with
  | none => none
  | some (h1, true) => some h1
  | some (h1, false) => up h1 i

/-- Go `heap.Fix(h, i)`: `if !down(h, i, h.Len()) { up(h, i) }`.
With `i = -1` both loops break at once; any other negative `i` makes `up` call
`Less` out of range. -/
def heapFix {V : Type} (h : queue V) (i : Int) : Option (queue V) :=
  if i < 0 then (if i = -1 then some h else none)
  else downOrUp h i.toNat h.Len

/-- Go `heap.Remove(h, i)`:
`n := h.Len() - 1; if n != i { h.Swap(i, n); if !down(h, i, n) { up(h, i) } }; return h.Pop()`.
A negative `i` is out of range in `Swap` (or, on an empty heap, in `Pop`). -/
def heapRemove {V : Type} (h : queue V) (i : Int) : Option (queue V × Nat) :=
  if i < 0 then none
  else if h.Len = 0 then none
  else if h.Len - 1 ≠ i.toNat then
    match h.Swap i.toNat (h.Len - 1) with
    | none => none
    | some h1 =>
      match downOrUp h1 i.toNat (h.Len - 1) with
      | none => none
      | some h2 => h2.Pop
  else h.Pop

/-! ## The cache operations -/

/-- Go `New(maxBytes, onEvicated)`; `onEvicated` tells whether the callback is non-nil. -/
def New {V : Type} (maxBytes : Int) (onEvicated : Bool) : lfu V :=
  { maxBytes := maxBytes, onEvicated := onEvicated, usedBytes := 0,
    queue := { objs := [], ptrs := [] }, cache := [], evicted := [] }

/-- Go `func (q *queue) update(en *entry, value interface{}, weight int)`:
`en.value = value; en.weight = weight; heap.Fix(q, en.index)`. -/
def queue.update {V : Type} (q : queue V) (en : Nat) (value : Option V) (weight : Int) :
    Option (queue V) :=
  match q.objs[en]? with
  | none => none
  | some e =>
    heapFix { q with objs := q.objs.set en { e with value := value, weight := weight } } e.index

/-- Go `func (l *lfu) removeElement(x interface{})`; `x` is nil or a `*entry`. -/
def lfu.removeElement {V : Type} (size : Option V → Int) (l : lfu V) (x : Option Nat) :
    Option (lfu V) :=
  match x with
  | none => some l
  | some p =>
    match l.queue.objs[p]? with
    | none => none
    | some en =>
      some { l with
        cache := mapDelete l.cache en.key
        usedBytes := wrap (l.usedBytes - en.Len size)
        evicted := if l.onEvicated then l.evicted ++ [(en.key, en.value)] else l.evicted }

/-- Go `func (l *lfu) Get(key string) interface{}`; the result is the new state
and the returned value (`none` is Go's nil). -/
def lfu.Get {V : Type} (l : lfu V) (key : String) : Option (lfu V × Option V) :=
  match mapGet l.cache key with
  | none => some (l, none)
  | some e =>
    match l.queue.objs[e]? with
    | none => none
    | some en =>
      match l.queue.update e en.value (en.weight + 1) with
      | none => none
      | some q =>
        match q.objs[e]? with
        | none => none
        | some en1 => some ({ l with queue := q }, en1.value)

/-- Go `func (l *lfu) Set(key string, value interface{})`. -/
def lfu.Set {V : Type} (size : Option V → Int) (l : lfu V) (key : String) (value : Option V) :
    Option (lfu V) :=
  match mapGet l.cache key with
  | some e =>
    match l.queue.objs[e]? with
    | none => none
    | some en =>
      match l.queue.update e value (en.weight + 1) with
      | none => none
      | some q =>
        some { l with
          usedBytes := wrap (wrap (l.usedBytes - CalcLen size en.value) + CalcLen size value)
          queue := q }
  | none =>
    match heapPush { l.queue with objs := l.queue.objs ++ [⟨key, value, 0, 0⟩] }
        l.queue.objs.length with
    | none => none
    | some q1 =>
      match q1.objs[l.queue.objs.length]? with
      | none => none
      | some en =>
        if l.maxBytes > 0 ∧ wrap (l.usedBytes + en.Len size) > l.maxBytes then
          match heapPop q1 with
          | none => none
          | some (q2, x) =>
            lfu.removeElement size
              { l with queue := q2, cache := mapSet l.cache key l.queue.objs.length,
                       usedBytes := wrap (l.usedBytes + en.Len size) } (some x)
        else
          some { l with queue := q1, cache := mapSet l.cache key l.queue.objs.length,
                        usedBytes := wrap (l.usedBytes + en.Len size) }

/-- Go `func (l *lfu) Del(key string)`. -/
def lfu.Del {V : Type} (size : Option V → Int) (l : lfu V) (key : String) : Option (lfu V) :=
  match mapGet l.cache key with
  | none => some l
  | some e =>
    match l.queue.objs[e]? with
    | none => none
    | some en =>
      match heapRemove l.queue en.index with
      | none => none
      | some (q, _) => lfu.removeElement size { l with queue := q } (some e)

/-- Go `func (l *lfu) DelOldest()`. -/
def lfu.DelOldest {V : Type} (size : Option V → Int) (l : lfu V) : Option (lfu V) :=
  if l.queue.Len = 0 then some l
  else
    match heapPop l.queue with
    | none => none
    | some (q, x) => lfu.removeElement size { l with queue := q } (some x)

/-- Go `func (l *lfu) Len() int { return l.queue.Len() }`. -/
def lfu.Len {V : Type} (l : lfu V) : Nat := l.queue.Len

/-! ## Predicates used to state the properties -/

/-- The part of an entry the heap never touches: key, value and weight. -/
def entry.data {V : Type} (e : entry V) : String × Option V × Int := (e.key, e.value, e.weight)

/-- The weight stored at position `k` of the slice (`0` outside it). -/
def queue.W {V : Type} (q : queue V) (k : Nat) : Int :=
  match q.deref k with
  | some e => e.weight
  | none => 0

/-- The transposition of the positions `i` and `j`. -/
def sw (i j k : Nat) : Nat := if k = i then j else if k = j then i else k

/-- Well-formed queue: no pointer occurs twice in the slice, and the object at
position `i` of the slice exists and has `index = i`. -/
structure Valid {V : Type} (q : queue V) : Prop where
  nodup : q.ptrs.Nodup
  index : ∀ (i p : Nat), q.ptrs[i]? = some p →
    ∃ e : entry V, q.objs[p]? = some e ∧ e.index = (i : Int)

/-- The objects of `q1` and `q2` agree except for their `index` fields. -/
def Same {V : Type} (q1 q2 : queue V) : Prop :=
  ∀ p : Nat, (q2.objs[p]?).map entry.data = (q1.objs[p]?).map entry.data

/-- What a heap routine working on the positions `lo ≤ k < hi` does to a queue:
it keeps it well formed, changes no key, value or weight, permutes the slice and
leaves the positions outside the range alone. -/
structure Step {V : Type} (q1 q2 : queue V) (lo hi : Nat) : Prop where
  valid : Valid q2
  same : Same q1 q2
  perm : q2.ptrs.Perm q1.ptrs
  out : ∀ k : Nat, k < lo ∨ hi ≤ k → q2.ptrs[k]? = q1.ptrs[k]?

/-- Min-heap order of the first `n` positions under the weights `w`: a parent
(position `(k - 1) / 2`) weighs at most its child (position `k`). -/
def HeapOrd (w : Nat → Int) (n : Nat) : Prop :=
  ∀ k, 0 < k → k < n → w ((k - 1) / 2) ≤ w k

/-- Heap order of the first `n` positions except around `i`: every parent-child
pair not containing `i` is in order, and the parent of `i` weighs at most the
children of `i`. -/
structure ExcAt (w : Nat → Int) (n i : Nat) : Prop where
  edge : ∀ k, 0 < k → k < n → k ≠ i → (k - 1) / 2 ≠ i → w ((k - 1) / 2) ≤ w k
  grand : ∀ k, 0 < k → k < n → (k - 1) / 2 = i → 0 < i → w ((i - 1) / 2) ≤ w k

/-- Heap order of the first `n` positions except between `j` and its parent,
the parent of `j` weighing at most the children of `j`. -/
structure UpAt (w : Nat → Int) (n j : Nat) : Prop where
  edge : ∀ k, 0 < k → k < n → k ≠ j → w ((k - 1) / 2) ≤ w k
  grand : ∀ k, 0 < k → k < n → (k - 1) / 2 = j → 0 < j → w ((j - 1) / 2) ≤ w k

/-- Min-heap order of the whole slice of a queue. -/
def IsHeap {V : Type} (q : queue V) : Prop := HeapOrd q.W q.ptrs.length

/-! ## Runs of the public interface and the invariant -/

/-- One call of the public interface. -/
inductive Op (V : Type) where
  | get (key : String)
  | set (key : String) (value : Option V)
  | del (key : String)
  | delOldest
deriving DecidableEq

/-- The state after one call; `none` when the call does not return. -/
def step {V : Type} (size : Option V → Int) (l : lfu V) : Op V → Option (lfu V)
  | .get key => (l.Get key).map Prod.fst
  | .set key value => l.Set size key value
  | .del key => l.Del size key
  | .delOldest => l.DelOldest size

/-- The state after a sequence of calls, first call first. -/
def run {V : Type} (size : Option V → Int) (l : lfu V) : List (Op V) → Option (lfu V)
  | [] => some l
  | op :: ops =>
    match step size l op with
    | none => none
    | some l1 => run size l1 ops

/-- The states a cache created by `New` can be in after any sequence of calls. -/
def Reachable {V : Type} (size : Option V → Int) (l : lfu V) : Prop :=
  ∃ (maxBytes : Int) (onEvicated : Bool) (ops : List (Op V)),
    run size (New maxBytes onEvicated) ops = some l

/-- The entry the table maps `key` to, if any. -/
def lfu.find {V : Type} (l : lfu V) (key : String) : Option (entry V) :=
  match mapGet l.cache key with
  | none => none
  | some p => l.queue.objs[p]?

/-- What a caller can observe of `key`: its value and weight when present. -/
def lfu.view {V : Type} (l : lfu V) (key : String) : Option (Option V × Int) :=
  (l.find key).map (fun e => (e.value, e.weight))

/-- The live entries, in the order of the slice. -/
def queue.entries {V : Type} (q : queue V) : List (entry V) :=
  q.ptrs.filterMap (fun p => q.objs[p]?)

/-- The accounted size `en.Len()` of the object at pointer `p`. -/
def queue.acct {V : Type} (size : Option V → Int) (q : queue V) (p : Nat) : Int :=
  match q.objs[p]? with
  | some e => e.Len size
  | none => 0

/-- The invariant of the cache between two calls. -/
structure Inv {V : Type} (size : Option V → Int) (l : lfu V) : Prop where
  valid : Valid l.queue
  heap : IsHeap l.queue
  keys : (l.cache.map Prod.fst).Nodup
  ptrs : (l.cache.map Prod.snd).Perm l.queue.ptrs
  key : ∀ (k : String) (p : Nat), (k, p) ∈ l.cache →
    ∃ e : entry V, l.queue.objs[p]? = some e ∧ e.key = k
  used : l.usedBytes = wrap ((l.queue.ptrs.map (l.queue.acct size)).sum)

/-- The state `l2` is `l` with the entry `en` removed through `removeElement`. -/
structure Removed {V : Type} (size : Option V → Int) (l l2 : lfu V) (en : entry V) : Prop where
  inv : Inv size l2
  was : l.find en.key = some en
  maxBytes : l2.maxBytes = l.maxBytes
  onEvicated : l2.onEvicated = l.onEvicated
  usedBytes : l2.usedBytes = wrap (l.usedBytes - en.Len size)
  evicted : l2.evicted =
    if l.onEvicated then l.evicted ++ [(en.key, en.value)] else l.evicted
  len : l2.Len + 1 = l.Len
  cache : l2.cache = mapDelete l.cache en.key
  gone : l2.view en.key = none
  others : ∀ k, k ≠ en.key → l2.view k = l.view k

/-- The state `l2` is `l` after `queue.update` gave the present key `key`, found as
`e`, the value `value` and one more unit of weight. -/
structure Touched {V : Type} (size : Option V → Int) (l l2 : lfu V) (key : String)
    (value : Option V) (e : entry V) : Prop where
  inv : Inv size l2
  was : l.find key = some e
  maxBytes : l2.maxBytes = l.maxBytes
  onEvicated : l2.onEvicated = l.onEvicated
  evicted : l2.evicted = l.evicted
  len : l2.Len = l.Len
  cache : l2.cache = l.cache
  now : l2.view key = some (value, e.weight + 1)
  others : ∀ k, k ≠ key → l2.view k = l.view k

/-- The state `l2` is `l` after the insertion of the absent key `key` with `value`
(the lines of `Set` before the capacity check). -/
structure Inserted {V : Type} (size : Option V → Int) (l l2 : lfu V) (key : String)
    (value : Option V) : Prop where
  inv : Inv size l2
  maxBytes : l2.maxBytes = l.maxBytes
  onEvicated : l2.onEvicated = l.onEvicated
  usedBytes : l2.usedBytes = wrap (l.usedBytes + accounted size value)
  evicted : l2.evicted = l.evicted
  len : l2.Len = l.Len + 1
  cache : l2.cache = mapSet l.cache key l.queue.objs.length
  now : l2.view key = some (value, 0)
  others : ∀ k, k ≠ key → l2.view k = l.view k
  root : ∀ (y : Nat) (e : entry V), l.queue.ptrs[0]? = some y → l.queue.objs[y]? = some e →
    e.weight ≤ 0 → ∃ e1 : entry V, l2.queue.ptrs[0]? = some y ∧ l2.queue.objs[y]? = some e1 ∧
      e1.key = e.key ∧ e1.value = e.value ∧ e1.weight = e.weight

/-! ## Histories of calls -/

/-- Whether the call `op` on the state `l` is a `Set` of a key that is not in the
table (`1`) or not (`0`). -/
def inserting {V : Type} (l : lfu V) : Op V → Nat
  | .set key _ => if mapGet l.cache key = none then 1 else 0
  | _ => 0

/-- The number of `Set` calls of a run from `l` that insert a key not then present. -/
def inserts {V : Type} (size : Option V → Int) : lfu V → List (Op V) → Nat
  | _, [] => 0
  | l, op :: ops =>
    inserting l op +
      match step size l op with
      | none => 0
      | some l1 => inserts size l1 ops

/-- The cache `l` with its callback taken away (`onEvicated` nil, nothing recorded). -/
def lfu.silent {V : Type} (l : lfu V) : lfu V :=
  { l with onEvicated := false, evicted := [] }

/-- Whether the callback log `log` holds, after its first `n` records, a record
with the key `key`. -/
def reported {V : Type} (key : String) (n : Nat) (log : List (String × Option V)) : Bool :=
  (log.drop n).any (fun kv => decide (kv.1 = key))

/-- What the call `op`, which led from the state `l` to the state `l1`, does to the
history of `key`: a `Set(key, v)` starts it anew with `v` and records whether
that very call reported `key` to the callback; any other call records whether
it reported `key` to the callback. -/
def historyStep {V : Type} (key : String) (l l1 : lfu V) (op : Op V)
    (h : Option (Option V × Bool × Bool)) : Option (Option V × Bool × Bool) :=
  match op with
  | .set k v =>
    if k = key then some (v, reported key l.evicted.length l1.evicted, false)
    else h.map (fun r => (r.1, r.2.1, r.2.2 || reported key l.evicted.length l1.evicted))
  | _ => h.map (fun r => (r.1, r.2.1, r.2.2 || reported key l.evicted.length l1.evicted))

/-- The history of `key` along a run from `l`, a cache with a callback: `none`
when there has been no `Set(key, ·)`, else the value `v` passed to the most
recent `Set(key, ·)`, whether that call itself reported `key` to the callback,
and whether a later call did. -/
def history {V : Type} (size : Option V → Int) (key : String) :
    lfu V → List (Op V) → Option (Option V × Bool × Bool) → Option (Option V × Bool × Bool)
  | _, [], h => h
  | l, op :: ops, h =>
    match step size l op with
    | none => h
    | some l1 => history size key l1 ops (historyStep key l l1 op h)

/-- The result `r` of `Get(key)` against the history `h` of `key`, as claimed:
`r` is nil or the value of the most recent `Set`, and it is nil exactly when
there was no `Set` or a call made after the most recent one reported the key to
the callback. -/
def GetAgrees {V : Type} (r : Option V) (h : Option (Option V × Bool × Bool)) : Prop :=
  (r = none ∨ ∃ v d a, h = some (v, d, a) ∧ r = v) ∧
  (r = none ↔ (h = none ∨ ∃ v d, h = some (v, d, true)))

/-- The same with the cases the code adds: the most recent `Set` reported the key
itself, or its value was nil. -/
def GetAgreesAmended {V : Type} (r : Option V) (h : Option (Option V × Bool × Bool)) : Prop :=
  (r = none ∨ ∃ v d a, h = some (v, d, a) ∧ r = v) ∧
  (r = none ↔
    (h = none ∨ ∃ v d a, h = some (v, d, a) ∧ (d = true ∨ a = true ∨ v = none)))

/-- How the view of `k` after the call `op` (state `l1`) relates to the one before
(state `l`): `k` is absent, or it has the value just set, or the value it had. -/
def ViewAfter {V : Type} (l l1 : lfu V) (op : Op V) (k : String) : Prop :=
  l1.view k = none ∨
    match op with
    | .set k2 v =>
      if k2 = k then (l1.view k).map Prod.fst = some v
      else (l1.view k).map Prod.fst = (l.view k).map Prod.fst
    | _ => (l1.view k).map Prod.fst = (l.view k).map Prod.fst

/-- The effect of the call `op` leading from `l` to `l1`, with `rem` the entries
(key and value) it removed through `removeElement`. -/
structure Effect {V : Type} (size : Option V → Int) (l l1 : lfu V) (op : Op V)
    (rem : List (String × Option V)) : Prop where
  inv : Inv size l1
  onEvicated : l1.onEvicated = l.onEvicated
  maxBytes : l1.maxBytes = l.maxBytes
  evicted : l1.evicted = if l.onEvicated then l.evicted ++ rem else l.evicted
  len : l1.Len + rem.length = l.Len + inserting l op
  removed : rem = [] ∨ ∃ key value, rem = [(key, value)] ∧ l1.view key = none ∧
    ((∃ w, l.view key = some (value, w)) ∨ (op = .set key value ∧ mapGet l.cache key = none))
  view : ∀ k, ViewAfter l l1 op k
  quiet :
    match op with
    | .get _ => rem = []
    | .set k _ => mapGet l.cache k ≠ none → rem = []
    | .del k => mapGet l.cache k = none → rem = []
    | .delOldest => l.Len = 0 → rem = []

/-- The state `l` fits the history `h` of `key`: the key is absent when it was
never set or has been reported to the callback since, and holds the value last
set otherwise. -/
def HistoryFits {V : Type} (l : lfu V) (key : String) (h : Option (Option V × Bool × Bool)) :
    Prop :=
  match h with
  | none => l.view key = none
  | some (v, d, a) =>
    if d = true ∨ a = true then l.view key = none else (l.view key).map Prod.fst = some v

/-- The entry at the root of the heap has the key `key`, the value `value` and
the weight 0. -/
def RootIs {V : Type} (l : lfu V) (key : String) (value : Option V) : Prop :=
  ∃ (y : Nat) (e : entry V), l.queue.ptrs[0]? = some y ∧ l.queue.objs[y]? = some e ∧
    e.key = key ∧ e.value = value ∧ e.weight = 0

/-- The state during the reads of `A`: `A` holds `va` with weight `n`, `B` holds
`vb` with weight 0, no other key is present and nothing has been evicted. -/
structure TwoKeys {V : Type} (l : lfu V) (A B : String) (va vb : Option V) (n : Int) : Prop where
  log : l.evicted = []
  viewA : l.view A = some (va, n)
  viewB : l.view B = some (vb, 0)
  only : ∀ k, k ≠ A → k ≠ B → l.view k = none

/-- The state during the later inserts: `B` (weight 0) is at the root, `A` holds
`va` with weight `n`, the other keys are among `S` and nothing has been evicted. -/
structure RootKept {V : Type} (l : lfu V) (A B : String) (va vb : Option V) (n : Int)
    (S : List String) : Prop where
  log : l.evicted = []
  viewA : l.view A = some (va, n)
  root : RootIs l B vb
  only : ∀ k, l.view k ≠ none → k = A ∨ k = B ∨ k ∈ S

/-- What a caller observes of `k` after the call `op` on the state `l`, provided the
call has not removed `k`: a `Get(k)` adds one to the weight, a `Set(k, v)` stores
`v` with weight 0 when `k` was absent and with one more unit of weight when it was
present, and any other call leaves `k` as it was. -/
def viewNext {V : Type} (l : lfu V) (op : Op V) (k : String) : Option (Option V × Int) :=
  match op with
  | .get k2 => if k2 = k then (l.view k).map (fun vw => (vw.1, vw.2 + 1)) else l.view k
  | .set k2 v =>
    if k2 = k then
      some (v, match l.view k with
        | none => 0
        | some vw => vw.2 + 1)
    else l.view k
  | .del _ => l.view k
  | .delOldest => l.view k

/-- What the call `op` on the state `l` does to the number `c` of accesses of `key`
since its most recent insertion: a `Get(key)` that finds the key and a
`Set(key, ·)` of the already present key add one, a `Set(key, ·)` of the absent
key starts again from 0. -/
def accessStep {V : Type} (key : String) (l : lfu V) (op : Op V) (c : Nat) : Nat :=
  match op with
  | .get k => if k = key ∧ mapGet l.cache key ≠ none then c + 1 else c
  | .set k _ => if k = key then (if mapGet l.cache key = none then 0 else c + 1) else c
  | .del _ => c
  | .delOldest => c

/-- The number of accesses of `key` since its most recent insertion along a run
from `l`, starting from the count `c`. -/
def accesses {V : Type} (size : Option V → Int) (key : String) :
    lfu V → List (Op V) → Nat → Nat
  | _, [], c => c
  | l, op :: ops, c =>
    match step size l op with
    | none => c
    | some l1 => accesses size key l1 ops (accessStep key l op c)

/-! ## Concrete runs used to instantiate the theorems -/

/-- A size estimator giving 8 bytes to every value (an `int` on a 64-bit machine). -/
def size8 : Option Int → Int := fun _ => 8

/-- The unbounded cache after `Set("k1", 1); Set("k2", 2); Get("k1")`. -/
def ex1 : lfu Int :=
  { maxBytes := 0, onEvicated := false, usedBytes := 32,
    queue := { objs := [⟨"k1", some 1, 1, 1⟩, ⟨"k2", some 2, 0, 0⟩], ptrs := [1, 0] },
    cache := [("k2", 1), ("k1", 0)], evicted := [] }

/-- The calls leading to `ex1`. -/
def ex1Ops : List (Op Int) := [.set "k1" (some 1), .set "k2" (some 2), .get "k1"]

/-- The cache `New(16, onEvicated)` after `Set("k1", 1)`: full, one entry of weight 0. -/
def ex2 : lfu Int :=
  { maxBytes := 16, onEvicated := true, usedBytes := 16,
    queue := { objs := [⟨"k1", some 1, 0, 0⟩], ptrs := [0] },
    cache := [("k1", 0)], evicted := [] }

/-- The calls leading to `ex2`. -/
def ex2Ops : List (Op Int) := [.set "k1" (some 1)]

/-- The cache `New(16, onEvicated)` after `Set("k1", 1); Get("k1")`: full, its one
entry has weight 1. -/
def ex3 : lfu Int :=
  { maxBytes := 16, onEvicated := true, usedBytes := 16,
    queue := { objs := [⟨"k1", some 1, 1, 0⟩], ptrs := [0] },
    cache := [("k1", 0)], evicted := [] }

/-- The calls leading to `ex3`. -/
def ex3Ops : List (Op Int) := [.set "k1" (some 1), .get "k1"]

/-- The calls of `TestOnEvicated` with arbitrary keys and values:
`Set(k1, v1); Set(k2, v2); Get(k1); Set(k3, v3); Get(k1); Set(k4, v4)`. -/
def scenario {V : Type} (k1 k2 k3 k4 : String) (v1 v2 v3 v4 : Option V) : List (Op V) :=
  [.set k1 v1, .set k2 v2, .get k1, .set k3 v3, .get k1, .set k4 v4]

/-- The calls of `TestOnEvicated`. -/
def testOps : List (Op Int) :=
  [.set "k1" (some 1), .set "k2" (some 2), .get "k1", .set "k3" (some 3), .get "k1",
    .set "k4" (some 4)]

/-- The size estimator of values that report their own length (a `cache.Value`
whose `Len()` returns the number held); 0 for nil. -/
def sizeOwn : Option Int → Int
  | none => 0
  | some n => n

/-- A size estimator whose values run from 16 to `2^62 + 15`: none is below 16. -/
def sizeFrom16 : Option Int → Int
  | none => 16
  | some n => 16 + n % 4611686018427387904

/-- The cache `New(16, onEvicated)` after `Set("k1", 1)` under `sizeOwn`: 9 bytes used. -/
def ex4 : lfu Int :=
  { maxBytes := 16, onEvicated := true, usedBytes := 9,
    queue := { objs := [⟨"k1", some 1, 0, 0⟩], ptrs := [0] },
    cache := [("k1", 0)], evicted := [] }

/-- The largest Go `int`, `2^63 - 1`. -/
def maxInt : Int := 9223372036854775807

/-- The number `2^62`. -/
def big : Int := 4611686018427387904

/-- The calls `Set("a", x)` with `x` of length `2^62`. -/
def ex5Ops : List (Op Int) := [.set "a" (some big)]

/-- The cache `New(2^63 - 1, onEvicated)` after `ex5Ops` under `sizeOwn`. -/
def ex5 : lfu Int :=
  { maxBytes := maxInt, onEvicated := true, usedBytes := 4611686018427387912,
    queue := { objs := [⟨"a", some big, 0, 0⟩], ptrs := [0] },
    cache := [("a", 0)], evicted := [] }

/-- The calls `Set("a", x); Get("a")` with `x` of length `2^62`. -/
def ex6Ops : List (Op Int) := [.set "a" (some big), .get "a"]

/-- The cache `New(2^63 - 1, onEvicated)` after `ex6Ops` under `sizeOwn`. -/
def ex6 : lfu Int :=
  { maxBytes := maxInt, onEvicated := true, usedBytes := 4611686018427387912,
    queue := { objs := [⟨"a", some big, 1, 0⟩], ptrs := [0] },
    cache := [("a", 0)], evicted := [] }

/-- The calls `Set("a", x); Set("b", x)` with `x` of length `2^62`. -/
def ex7Ops : List (Op Int) := [.set "a" (some big), .set "b" (some big)]

/-- The cache `New(2^63 - 1, onEvicated)` after `ex7Ops` under `sizeOwn`: two
entries, and `usedBytes` has wrapped to `-2^63 + 16`. -/
def ex7 : lfu Int :=
  { maxBytes := maxInt, onEvicated := true, usedBytes := -9223372036854775792,
    queue := { objs := [⟨"a", some big, 0, 0⟩, ⟨"b", some big, 0, 1⟩], ptrs := [0, 1] },
    cache := [("b", 1), ("a", 0)], evicted := [] }

end LFU

namespace LFU

/-! ## Arithmetic of a 64-bit `int` -/

theorem wrap_lo (a : Int) : -9223372036854775808 ≤ wrap a := by unfold wrap; omega

theorem wrap_hi (a : Int) : wrap a ≤ 9223372036854775807 := by unfold wrap; omega

theorem wrap_of_fits {a : Int} (h1 : -9223372036854775808 ≤ a) (h2 : a ≤ 9223372036854775807) :
    wrap a = a := by
  unfold wrap; omega

theorem wrap_fits (a : Int) : fitsInt (wrap a) := ⟨wrap_lo a, wrap_hi a⟩

theorem wrap_of_fitsInt {a : Int} (h : fitsInt a) : wrap a = a := wrap_of_fits h.1 h.2

theorem wrap_wrap (a : Int) : wrap (wrap a) = wrap a := by unfold wrap; omega

theorem wrap_add_left (a b : Int) : wrap (wrap a + b) = wrap (a + b) := by unfold wrap; omega

theorem wrap_add_right (a b : Int) : wrap (a + wrap b) = wrap (a + b) := by unfold wrap; omega

theorem wrap_sub_left (a b : Int) : wrap (wrap a - b) = wrap (a - b) := by unfold wrap; omega

theorem wrap_sub_right (a b : Int) : wrap (a - wrap b) = wrap (a - b) := by unfold wrap; omega

theorem accounted_eq {V : Type} (size : Option V → Int) (v : Option V) :
    accounted size v = wrap (CalcLen size v + 8) := by
  unfold accounted wrap; omega

theorem entry_Len_eq {V : Type} (size : Option V → Int) (e : entry V) :
    e.Len size = accounted size e.value := rfl

/-! ## Lists: exchanging two positions -/

theorem sw_sw (i j k : Nat) : sw i j (sw i j k) = k := by
  unfold sw; split_ifs <;> omega

theorem sw_lt {i j k n : Nat} (hi : i < n) (hj : j < n) : sw i j k < n ↔ k < n := by
  unfold sw; split_ifs <;> omega

theorem getElem?_swap {α : Type} (l : List α) {i j : Nat} {a b : α}
    (ha : l[i]? = some a) (hb : l[j]? = some b) (k : Nat) :
    ((l.set i b).set j a)[k]? = l[sw i j k]? := by
  have hi : i < l.length := (List.getElem?_eq_some.1 ha).1
  have hj : j < l.length := (List.getElem?_eq_some.1 hb).1
  unfold sw
  by_cases hkj : k = j
  · subst hkj
    rw [List.getElem?_set_self (by simpa using hj)]
    by_cases hki : k = i
    · subst hki
      have hab : a = b := by rw [ha] at hb; exact Option.some.inj hb
      simp [ha, hab]
    · simp [hki, ha]
  · rw [List.getElem?_set_ne (Ne.symm hkj)]
    by_cases hki : k = i
    · subst hki; rw [List.getElem?_set_self hi]; simp [hb]
    · rw [List.getElem?_set_ne (Ne.symm hki)]; simp [hki, hkj]

theorem length_of_getElem?_sw {α : Type} {l l' : List α} {i j : Nat}
    (hi : i < l.length) (hj : j < l.length) (h : ∀ k, l'[k]? = l[sw i j k]?) :
    l'.length = l.length := by
  apply le_antisymm
  · by_contra hc
    have h1 := h l.length
    have : sw i j l.length = l.length := by unfold sw; split_ifs <;> omega
    rw [this, List.getElem?_eq_none (le_refl _)] at h1
    rw [List.getElem?_eq_none_iff] at h1
    omega
  · by_contra hc
    have h1 := h l'.length
    have h2 : sw i j l'.length < l.length := by
      unfold sw; split_ifs <;> omega
    rw [List.getElem?_eq_none (le_refl _)] at h1
    have := List.getElem?_eq_none_iff.1 h1.symm
    omega

theorem mem_of_getElem?_sw {α : Type} {l l' : List α} {i j : Nat}
    (h : ∀ k, l'[k]? = l[sw i j k]?) (x : α) : x ∈ l' ↔ x ∈ l := by
  simp only [List.mem_iff_getElem?]
  constructor
  · rintro ⟨n, hn⟩; exact ⟨sw i j n, by rw [← h]; exact hn⟩
  · rintro ⟨n, hn⟩; exact ⟨sw i j n, by rw [h, sw_sw]; exact hn⟩

theorem nodup_of_getElem?_sw {α : Type} {l l' : List α} {i j : Nat}
    (hi : i < l.length) (hj : j < l.length)
    (h : ∀ k, l'[k]? = l[sw i j k]?) (hn : l.Nodup) : l'.Nodup := by
  have hlen := length_of_getElem?_sw hi hj h
  rw [List.nodup_iff_getElem?_ne_getElem?] at hn ⊢
  intro a b hab hb
  rw [h a, h b]
  rw [hlen] at hb
  have ha' : sw i j a < l.length := (sw_lt hi hj).2 (by omega)
  have hb' : sw i j b < l.length := (sw_lt hi hj).2 hb
  have hne : sw i j a ≠ sw i j b := by
    intro he
    have := congrArg (sw i j) he
    rw [sw_sw, sw_sw] at this
    omega
  rcases Nat.lt_or_gt_of_ne hne with hlt | hgt
  · exact hn _ _ hlt hb'
  · exact fun e => hn _ _ hgt ha' e.symm

theorem perm_of_getElem?_sw {α : Type} {l l' : List α} {i j : Nat}
    (hi : i < l.length) (hj : j < l.length)
    (h : ∀ k, l'[k]? = l[sw i j k]?) (hn : l.Nodup) : l'.Perm l :=
  (List.perm_ext_iff_of_nodup (nodup_of_getElem?_sw hi hj h hn) hn).2 (mem_of_getElem?_sw h)

theorem getElem?_inj_of_nodup {α : Type} {l : List α} (hn : l.Nodup) {a b : Nat} {x : α}
    (ha : l[a]? = some x) (hb : l[b]? = some x) : a = b := by
  rw [List.nodup_iff_getElem?_ne_getElem?] at hn
  have hbl : b < l.length := (List.getElem?_eq_some.1 hb).1
  have hal : a < l.length := (List.getElem?_eq_some.1 ha).1
  by_contra hne
  rcases Nat.lt_or_gt_of_ne hne with hlt | hgt
  · exact hn a b hlt hbl (by rw [ha, hb])
  · exact hn b a hgt hal (by rw [ha, hb])

end LFU

namespace LFU

/-! ## The queue methods on a well-formed queue -/

theorem Valid.ptr {V : Type} {q : queue V} (hv : Valid q) {i : Nat} (hi : i < q.ptrs.length) :
    ∃ p e, q.ptrs[i]? = some p ∧ q.objs[p]? = some e ∧ e.index = (i : Int) := by
  obtain ⟨e, he, hidx⟩ := hv.index i q.ptrs[i] (List.getElem?_eq_getElem hi)
  exact ⟨q.ptrs[i], e, List.getElem?_eq_getElem hi, he, hidx⟩

theorem deref_eq {V : Type} {q : queue V} {i p : Nat} (hp : q.ptrs[i]? = some p) :
    q.deref i = q.objs[p]? := by
  simp [queue.deref, hp]

theorem W_of_ptr {V : Type} {q : queue V} {i p : Nat} {e : entry V}
    (hp : q.ptrs[i]? = some p) (he : q.objs[p]? = some e) : q.W i = e.weight := by
  simp [queue.W, queue.deref, hp, he]

theorem Same.refl {V : Type} (q : queue V) : Same q q := fun _ => rfl

theorem Same.trans {V : Type} {q1 q2 q3 : queue V} (h12 : Same q1 q2) (h23 : Same q2 q3) :
    Same q1 q3 := fun p => (h23 p).trans (h12 p)

theorem Same.symm {V : Type} {q1 q2 : queue V} (h : Same q1 q2) : Same q2 q1 :=
  fun p => (h p).symm

theorem Same.some {V : Type} {q1 q2 : queue V} (h : Same q1 q2) {p : Nat} {e : entry V}
    (he : q1.objs[p]? = some e) :
    ∃ e2, q2.objs[p]? = some e2 ∧ e2.key = e.key ∧ e2.value = e.value ∧ e2.weight = e.weight := by
  have := h p
  rw [he] at this
  cases h2 : q2.objs[p]? with
  | none => rw [h2] at this; simp at this
  | some e2 =>
    rw [h2] at this
    simp only [Option.map_some', Option.some.injEq, entry.data, Prod.mk.injEq] at this
    exact ⟨e2, rfl, this.1, this.2.1, this.2.2⟩

theorem W_congr {V : Type} {q1 q2 : queue V} (hs : Same q1 q2) {k1 k2 : Nat}
    (hk : q2.ptrs[k2]? = q1.ptrs[k1]?) : q2.W k2 = q1.W k1 := by
  unfold queue.W queue.deref
  rw [hk]
  cases h1 : q1.ptrs[k1]? with
  | none => rfl
  | some p =>
    simp only
    have := hs p
    cases ha : q1.objs[p]? with
    | none =>
      rw [ha] at this
      cases hb : q2.objs[p]? with
      | none => rfl
      | some e => rw [hb] at this; simp at this
    | some e =>
      obtain ⟨e2, he2, _, _, hw⟩ := hs.some ha
      simp [he2, hw]

theorem Less_eq {V : Type} {q : queue V} (hv : Valid q) {i j : Nat}
    (hi : i < q.ptrs.length) (hj : j < q.ptrs.length) :
    q.Less i j = some (decide (q.W i < q.W j)) := by
  obtain ⟨a, ea, ha, hea, _⟩ := hv.ptr hi
  obtain ⟨b, eb, hb, heb, _⟩ := hv.ptr hj
  simp [queue.Less, queue.W, deref_eq ha, deref_eq hb, hea, heb]

theorem Swap_spec {V : Type} {q : queue V} (hv : Valid q) {i j : Nat}
    (hi : i < q.ptrs.length) (hj : j < q.ptrs.length) :
    ∃ q2, q.Swap i j = some q2 ∧ Valid q2 ∧ Same q q2 ∧
      ∀ k, q2.ptrs[k]? = q.ptrs[sw i j k]? := by
  obtain ⟨a, ea, ha, hea, hia⟩ := hv.ptr hi
  obtain ⟨b, eb, hb, heb, hib⟩ := hv.ptr hj
  have hsw := getElem?_swap q.ptrs ha hb
  have hsi : sw i j i = j := by simp [sw]
  have hsj : sw i j j = i := by unfold sw; split_ifs <;> omega
  have h1 : ((q.ptrs.set i b).set j a)[i]? = some b := by rw [hsw, hsi, hb]
  have h2 : ((q.ptrs.set i b).set j a)[j]? = some a := by rw [hsw, hsj, ha]
  have hbl : b < q.objs.length := (List.getElem?_eq_some.1 heb).1
  have hal : a < q.objs.length := (List.getElem?_eq_some.1 hea).1
  obtain ⟨e1, he1, hd1⟩ : ∃ e1, (q.objs.set b { eb with index := (i : Int) })[a]? = some e1 ∧
      e1.data = ea.data := by
    by_cases hab : b = a
    · subst hab
      refine ⟨_, List.getElem?_set_self hbl, ?_⟩
      rw [heb] at hea; cases hea; rfl
    · exact ⟨ea, by rw [List.getElem?_set_ne hab]; exact hea, rfl⟩
  refine ⟨⟨(q.objs.set b { eb with index := (i : Int) }).set a { e1 with index := (j : Int) },
    (q.ptrs.set i b).set j a⟩, ?_, ⟨?_, ?_⟩, ?_, hsw⟩
  · simp only [queue.Swap, ha, hb, queue.setIndex, h1, heb, h2, he1]
  · exact nodup_of_getElem?_sw hi hj hsw hv.nodup
  · intro k p hk
    simp only at hk ⊢
    rw [hsw] at hk
    by_cases hpa : p = a
    · subst hpa
      have : sw i j k = i := getElem?_inj_of_nodup hv.nodup hk ha
      have hkj : k = j := by rw [← sw_sw i j k, this, hsi]
      refine ⟨_, List.getElem?_set_self (by simpa using hal), ?_⟩
      simp [hkj]
    · rw [List.getElem?_set_ne (Ne.symm hpa)]
      by_cases hpb : p = b
      · subst hpb
        have : sw i j k = j := getElem?_inj_of_nodup hv.nodup hk hb
        have hki : k = i := by rw [← sw_sw i j k, this, hsj]
        refine ⟨_, List.getElem?_set_self hbl, ?_⟩
        simp [hki]
      · rw [List.getElem?_set_ne (Ne.symm hpb)]
        obtain ⟨e, he, hie⟩ := hv.index _ _ hk
        refine ⟨e, he, ?_⟩
        have hne1 : sw i j k ≠ i := fun h => hpa (by rw [h, ha] at hk; exact (Option.some.inj hk).symm)
        have hne2 : sw i j k ≠ j := fun h => hpb (by rw [h, hb] at hk; exact (Option.some.inj hk).symm)
        have : sw i j k = k := by
          unfold sw at hne1 hne2 ⊢; split_ifs at hne1 hne2 ⊢ <;> omega
        rw [hie, this]
  · intro p
    simp only
    by_cases hpa : p = a
    · subst hpa
      rw [List.getElem?_set_self (by simpa using hal), hea]
      simp only [Option.map_some', Option.some.injEq]
      exact hd1
    · rw [List.getElem?_set_ne (Ne.symm hpa)]
      by_cases hpb : p = b
      · subst hpb
        rw [List.getElem?_set_self hbl, heb]; rfl
      · rw [List.getElem?_set_ne (Ne.symm hpb)]

theorem Swap_W {V : Type} {q q2 : queue V} {i j : Nat} (hs : Same q q2)
    (hp : ∀ k, q2.ptrs[k]? = q.ptrs[sw i j k]?) (k : Nat) : q2.W k = q.W (sw i j k) :=
  W_congr hs (hp k)

end LFU

namespace LFU

/-! ## Heap order under an exchange of two positions -/

theorem up_exchange {w w2 : Nat → Int} {n i j : Nat} (hW : ∀ k, w2 k = w (sw i j k))
    (hij : i = (j - 1) / 2) (hj : 0 < j) (hlt : w j < w i) (h : UpAt w n j) : UpAt w2 n i := by
  have hwi : w2 i = w j := by rw [hW]; simp [sw]
  have hwj : w2 j = w i := by rw [hW]; unfold sw; split_ifs <;> first | rfl | omega
  have hwk : ∀ k, k ≠ i → k ≠ j → w2 k = w k := by
    intro k h1 h2; rw [hW]; simp [sw, h1, h2]
  constructor
  · intro k hk0 hkn hki
    by_cases hkj : k = j
    · subst hkj; rw [← hij, hwi, hwj]; omega
    · rw [hwk k hki hkj]
      by_cases hp : (k - 1) / 2 = i
      · rw [hp, hwi]
        have := h.edge k hk0 hkn hkj
        rw [hp] at this; omega
      · by_cases hp2 : (k - 1) / 2 = j
        · rw [hp2, hwj]
          have := h.grand k hk0 hkn hp2 hj
          rw [← hij] at this; exact this
        · rw [hwk _ hp hp2]; exact h.edge k hk0 hkn hkj
  · intro k hk0 hkn hp hi0
    have hg : w2 ((i - 1) / 2) = w ((i - 1) / 2) := hwk _ (by omega) (by omega)
    have hin : i < n := by omega
    have hei := h.edge i hi0 hin (by omega)
    rw [hg]
    by_cases hkj : k = j
    · subst hkj; rw [hwj]; exact hei
    · rw [hwk k (by omega) hkj]
      have := h.edge k hk0 hkn hkj
      rw [hp] at this; omega

theorem UpAt.heap {w : Nat → Int} {n j : Nat} (h : UpAt w n j)
    (hle : 0 < j → j < n → w ((j - 1) / 2) ≤ w j) : HeapOrd w n := by
  intro k hk0 hkn
  by_cases hkj : k = j
  · subst hkj; exact hle hk0 hkn
  · exact h.edge k hk0 hkn hkj

theorem down_exchange {w w2 : Nat → Int} {n i j : Nat} (hW : ∀ k, w2 k = w (sw i j k))
    (hij : (j - 1) / 2 = i) (hj : 0 < j) (hjn : j < n) (hlt : w j < w i)
    (hmin : ∀ k, 0 < k → k < n → (k - 1) / 2 = i → w j ≤ w k)
    (h : ExcAt w n i) : ExcAt w2 n j ∧ w2 ((j - 1) / 2) ≤ w2 j := by
  have hwi : w2 i = w j := by rw [hW]; simp [sw]
  have hwj : w2 j = w i := by rw [hW]; unfold sw; split_ifs <;> first | rfl | omega
  have hwk : ∀ k, k ≠ i → k ≠ j → w2 k = w k := by
    intro k h1 h2; rw [hW]; simp [sw, h1, h2]
  refine ⟨⟨?_, ?_⟩, ?_⟩
  · intro k hk0 hkn hkj hpj
    by_cases hki : k = i
    · subst hki
      rw [hwi, hwk _ (by omega) hpj]
      exact h.grand j hj hjn hij hk0
    · rw [hwk k hki hkj]
      by_cases hp : (k - 1) / 2 = i
      · rw [hp, hwi]; exact hmin k hk0 hkn hp
      · rw [hwk _ hp hpj]; exact h.edge k hk0 hkn hki hp
  · intro k hk0 hkn hp _
    rw [hij, hwi, hwk k (by omega) (by omega)]
    have := h.edge k hk0 hkn (by omega) (by omega)
    rw [hp] at this
    exact this
  · rw [hij, hwi, hwj]; omega

end LFU

namespace LFU

/-! ## The loops of `container/heap` -/

theorem Step.id {V : Type} {q : queue V} (hv : Valid q) (lo hi : Nat) : Step q q lo hi :=
  ⟨hv, Same.refl q, List.Perm.refl _, fun _ _ => rfl⟩

theorem Step.widen {V : Type} {q1 q2 : queue V} {lo hi lo2 hi2 : Nat} (h : Step q1 q2 lo hi)
    (hlo : lo2 ≤ lo) (hhi : hi ≤ hi2) : Step q1 q2 lo2 hi2 :=
  ⟨h.valid, h.same, h.perm, fun k hk => h.out k (by omega)⟩

theorem Step.comp {V : Type} {q1 q2 q3 : queue V} {lo hi : Nat} (h12 : Step q1 q2 lo hi)
    (h23 : Step q2 q3 lo hi) : Step q1 q3 lo hi :=
  ⟨h23.valid, h12.same.trans h23.same, h23.perm.trans h12.perm,
    fun k hk => (h23.out k hk).trans (h12.out k hk)⟩

theorem Step.length {V : Type} {q1 q2 : queue V} {lo hi : Nat} (h : Step q1 q2 lo hi) :
    q2.ptrs.length = q1.ptrs.length := h.perm.length_eq

theorem Step.W_out {V : Type} {q1 q2 : queue V} {lo hi : Nat} (h : Step q1 q2 lo hi) {k : Nat}
    (hk : k < lo ∨ hi ≤ k) : q2.W k = q1.W k := W_congr h.same (h.out k hk)

theorem Swap_step {V : Type} {q : queue V} (hv : Valid q) {i j a b : Nat}
    (hi1 : i < q.ptrs.length) (hj1 : j < q.ptrs.length)
    (hi2 : a ≤ i ∧ i < b) (hj2 : a ≤ j ∧ j < b) :
    ∃ q2, q.Swap i j = some q2 ∧ Step q q2 a b ∧ (∀ k, q2.W k = q.W (sw i j k)) ∧
      ∀ k, q2.ptrs[k]? = q.ptrs[sw i j k]? := by
  obtain ⟨q2, h1, h2, h3, h4⟩ := Swap_spec hv hi1 hj1
  refine ⟨q2, h1, ⟨h2, h3, perm_of_getElem?_sw hi1 hj1 h4 hv.nodup, ?_⟩, Swap_W h3 h4, h4⟩
  intro k hk
  rw [h4]
  have : sw i j k = k := by unfold sw; split_ifs <;> omega
  rw [this]

theorem upLoop_spec {V : Type} (fuel : Nat) : ∀ (q : queue V) (j : Nat), Valid q →
    j < q.ptrs.length → j < fuel →
    ∃ q2, upLoop fuel q j = some q2 ∧ Step q q2 0 (j + 1) ∧
      ∀ n, UpAt q.W n j → HeapOrd q2.W n := by
  induction fuel with
  | zero => intro q j _ _ h; omega
  | succ fuel ih =>
    intro q j hv hj hf
    unfold upLoop
    by_cases h0 : (j - 1) / 2 = j
    · rw [if_pos h0]
      exact ⟨q, rfl, Step.id hv _ _, fun n h => h.heap (by omega)⟩
    · rw [if_neg h0]
      have hi : (j - 1) / 2 < q.ptrs.length := by omega
      rw [Less_eq hv hj hi]
      by_cases hlt : q.W j < q.W ((j - 1) / 2)
      · simp only [hlt, decide_True]
        obtain ⟨q1, hs, hstep, hW, _⟩ :=
          Swap_step (a := 0) (b := j + 1) hv hi hj (by omega) (by omega)
        rw [hs]
        simp only
        obtain ⟨q2, hu, hstep2, hheap⟩ := ih q1 ((j - 1) / 2) hstep.valid
          (by rw [hstep.length]; exact hi) (by omega)
        refine ⟨q2, hu, hstep.comp (hstep2.widen (le_refl _) (by omega)), ?_⟩
        intro n hn
        exact hheap n (up_exchange hW rfl (by omega) hlt hn)
      · simp only [hlt, decide_False]
        exact ⟨q, rfl, Step.id hv _ _, fun n h => h.heap (fun _ _ => by omega)⟩

/-- The loop of `up` never moves the root when no weight is below the root's. -/
theorem upLoop_root {V : Type} (fuel : Nat) : ∀ (q : queue V) (j : Nat), Valid q →
    j < q.ptrs.length → j < fuel → (∀ k, k < q.ptrs.length → q.W 0 ≤ q.W k) →
    ∀ q2, upLoop fuel q j = some q2 → q2.ptrs[0]? = q.ptrs[0]? := by
  induction fuel with
  | zero => intro q j _ _ h; omega
  | succ fuel ih =>
    intro q j hv hj hf hmin q2 hup
    unfold upLoop at hup
    by_cases h0 : (j - 1) / 2 = j
    · rw [if_pos h0] at hup
      cases hup; rfl
    · rw [if_neg h0] at hup
      have hi : (j - 1) / 2 < q.ptrs.length := by omega
      rw [Less_eq hv hj hi] at hup
      by_cases hlt : q.W j < q.W ((j - 1) / 2)
      · simp only [hlt, decide_True] at hup
        obtain ⟨q1, hs, hstep, hW, hptr⟩ :=
          Swap_step (a := 0) (b := j + 1) hv hi hj (by omega) (by omega)
        rw [hs] at hup
        simp only at hup
        have hi0 : (j - 1) / 2 ≠ 0 := by
          intro e
          have := hmin j hj
          rw [e] at hlt
          omega
        have hs0 : sw ((j - 1) / 2) j 0 = 0 := by
          unfold sw; split_ifs <;> omega
        have hmin1 : ∀ k, k < q1.ptrs.length → q1.W 0 ≤ q1.W k := by
          intro k hk
          rw [hW 0, hW k, hs0]
          rw [hstep.length] at hk
          exact hmin _ ((sw_lt hi hj).2 hk)
        rw [ih q1 ((j - 1) / 2) hstep.valid (by rw [hstep.length]; exact hi) (by omega) hmin1 q2
          hup, hptr 0, hs0]
      · simp only [hlt, decide_False] at hup
        cases hup; rfl

theorem up_spec {V : Type} {q : queue V} {j : Nat} (hv : Valid q) (hj : j < q.ptrs.length) :
    ∃ q2, up q j = some q2 ∧ Step q q2 0 (j + 1) ∧ ∀ n, UpAt q.W n j → HeapOrd q2.W n :=
  upLoop_spec (j + 1) q j hv hj (by omega)

theorem ExcAt.heap_of_le {w : Nat → Int} {n i : Nat} (h : ExcAt w n i)
    (hup : 0 < i → i < n → w ((i - 1) / 2) ≤ w i)
    (hdown : ∀ k, 0 < k → k < n → (k - 1) / 2 = i → w i ≤ w k) : HeapOrd w n := by
  intro k hk0 hkn
  by_cases hki : k = i
  · subst hki; exact hup hk0 hkn
  · by_cases hp : (k - 1) / 2 = i
    · rw [hp]; exact hdown k hk0 hkn hp
    · exact h.edge k hk0 hkn hki hp

theorem ExcAt.upAt {w : Nat → Int} {n i : Nat} (h : ExcAt w n i)
    (hdown : ∀ k, 0 < k → k < n → (k - 1) / 2 = i → w i ≤ w k) : UpAt w n i := by
  refine ⟨?_, h.grand⟩
  intro k hk0 hkn hki
  by_cases hp : (k - 1) / 2 = i
  · rw [hp]; exact hdown k hk0 hkn hp
  · exact h.edge k hk0 hkn hki hp

theorem down_child {V : Type} {q : queue V} {i n : Nat} (hv : Valid q)
    (hn : n ≤ q.ptrs.length) (h0 : ¬ 2 * i + 1 ≥ n) :
    ∃ c : Bool, (if 2 * i + 2 < n then q.Less (2 * i + 2) (2 * i + 1) else some false) = some c ∧
      (if c then 2 * i + 2 else 2 * i + 1) < n ∧
      ((if c then 2 * i + 2 else 2 * i + 1) - 1) / 2 = i ∧
      ∀ k, 0 < k → k < n → (k - 1) / 2 = i → q.W (if c then 2 * i + 2 else 2 * i + 1) ≤ q.W k := by
  by_cases h2 : 2 * i + 2 < n
  · rw [if_pos h2, Less_eq hv (by omega) (by omega)]
    by_cases hlt : q.W (2 * i + 2) < q.W (2 * i + 1)
    · refine ⟨true, by simp [hlt], by simpa using h2, by simp; omega, ?_⟩
      intro k hk0 hkn hp
      have : k = 2 * i + 1 ∨ k = 2 * i + 2 := by omega
      rcases this with h | h <;> subst h <;> simp only [if_true, Bool.false_eq_true, if_false] <;> omega
    · refine ⟨false, by simp [hlt], by simp; omega, by simp, ?_⟩
      intro k hk0 hkn hp
      have : k = 2 * i + 1 ∨ k = 2 * i + 2 := by omega
      rcases this with h | h <;> subst h <;> simp only [if_true, Bool.false_eq_true, if_false] <;> omega
  · rw [if_neg h2]
    refine ⟨false, rfl, by simp; omega, by simp, ?_⟩
    intro k hk0 hkn hp
    have : k = 2 * i + 1 := by omega
    subst this; simp

theorem downLoop_spec {V : Type} (fuel : Nat) : ∀ (q : queue V) (i n : Nat), Valid q →
    n ≤ q.ptrs.length → 0 < fuel → n < i + fuel →
    ∃ q2 f, downLoop fuel q i n = some (q2, f) ∧ i ≤ f ∧ Step q q2 i n ∧
      (f = i → q2 = q ∧ ∀ k, 0 < k → k < n → (k - 1) / 2 = i → q.W i ≤ q.W k) ∧
      (ExcAt q.W n i → (i < f ∨ (0 < i → i < n → q.W ((i - 1) / 2) ≤ q.W i)) →
        HeapOrd q2.W n) := by
  induction fuel with
  | zero => intro q i n _ _ h; omega
  | succ fuel ih =>
    intro q i n hv hn _ hf
    unfold downLoop
    by_cases h0 : 2 * i + 1 ≥ n
    · rw [if_pos h0]
      refine ⟨q, i, rfl, le_refl _, Step.id hv _ _, fun _ => ⟨rfl, ?_⟩, ?_⟩
      · intro k hk0 hkn hp; omega
      · intro hex hor
        refine hex.heap_of_le ?_ ?_
        · rcases hor with h | h
          · omega
          · exact h
        · intro k hk0 hkn hp; omega
    · rw [if_neg h0]
      obtain ⟨c, hc, hjn, hpj, hmin⟩ := down_child hv hn h0
      rw [hc]
      simp only
      generalize hjdef : (if c = true then 2 * i + 2 else 2 * i + 1) = j at hjn hpj hmin ⊢
      have hij : i < j := by rw [← hjdef]; split_ifs <;> omega
      rw [Less_eq hv (by omega) (by omega)]
      by_cases hlt : q.W j < q.W i
      · simp only [hlt, decide_True]
        obtain ⟨q1, hs, hstep, hW, _⟩ :=
          Swap_step (a := i) (b := n) (i := i) (j := j) hv (by omega) (by omega)
            (by omega) (by omega)
        rw [hs]
        simp only
        obtain ⟨q2, f, hd, hjf, hstep2, _, hheap⟩ := ih q1 j n hstep.valid
          (by rw [hstep.length]; exact hn) (by omega) (by omega)
        refine ⟨q2, f, hd, by omega, hstep.comp (hstep2.widen (by omega) (le_refl _)),
          fun h => by omega, ?_⟩
        intro hex _
        obtain ⟨hex1, hle1⟩ := down_exchange hW hpj (by omega) hjn hlt hmin hex
        exact hheap hex1 (Or.inr fun _ _ => hle1)
      · simp only [hlt, decide_False]
        have hch : ∀ k, 0 < k → k < n → (k - 1) / 2 = i → q.W i ≤ q.W k := by
          intro k hk0 hkn hp
          have := hmin k hk0 hkn hp
          omega
        refine ⟨q, i, rfl, le_refl _, Step.id hv _ _, fun _ => ⟨rfl, hch⟩, ?_⟩
        intro hex hor
        refine hex.heap_of_le ?_ hch
        rcases hor with h | h
        · omega
        · exact h

theorem down_spec {V : Type} {q : queue V} {i n : Nat} (hv : Valid q) (hn : n ≤ q.ptrs.length) :
    ∃ q2 b, down q i n = some (q2, b) ∧ Step q q2 i n ∧
      (b = false → q2 = q ∧ ∀ k, 0 < k → k < n → (k - 1) / 2 = i → q.W i ≤ q.W k) ∧
      (ExcAt q.W n i → (b = true ∨ (0 < i → i < n → q.W ((i - 1) / 2) ≤ q.W i)) →
        HeapOrd q2.W n) := by
  obtain ⟨q2, f, hd, hif, hstep, h1, h2⟩ := downLoop_spec (n + 1) q i n hv hn (by omega) (by omega)
  refine ⟨q2, decide (f > i), by simp [down, hd], hstep, ?_, ?_⟩
  · intro hb
    have : f = i := by
      have : ¬ f > i := by simpa using hb
      omega
    exact h1 this
  · intro hex hor
    refine h2 hex ?_
    rcases hor with h | h
    · left; simpa using h
    · right; exact h

/-- The body `if !down(h, i, n) { up(h, i) }` restores heap order among the first
`n` positions when it is broken only around `i`, and leaves the others alone. -/
theorem downOrUp_spec {V : Type} {q : queue V} {i n : Nat} (hv : Valid q)
    (hi : i < n) (hn : n ≤ q.ptrs.length) :
    ∃ q2, downOrUp q i n = some q2 ∧ Step q q2 0 n ∧ (ExcAt q.W n i → HeapOrd q2.W n) := by
  obtain ⟨q1, b, hd, hstep, h1, h2⟩ := down_spec (i := i) hv hn
  unfold downOrUp
  rw [hd]
  cases b with
  | true =>
    exact ⟨q1, rfl, hstep.widen (by omega) (le_refl _), fun hex => h2 hex (Or.inl rfl)⟩
  | false =>
    obtain ⟨rfl, hch⟩ := h1 rfl
    obtain ⟨q2, hu, hstep2, hheap⟩ := up_spec (j := i) hv (by omega)
    exact ⟨q2, hu, hstep2.widen (le_refl _) (by omega), fun hex => hheap n (hex.upAt hch)⟩

end LFU

namespace LFU

/-! ## `Push`, `Pop` and the exported functions of `container/heap` -/

theorem HeapOrd.root_le {w : Nat → Int} {n : Nat} (h : HeapOrd w n) :
    ∀ k, k < n → w 0 ≤ w k := by
  intro k
  induction k using Nat.strong_induction_on with
  | _ k ih =>
    intro hk
    by_cases h0 : k = 0
    · subst h0; exact le_refl _
    · have h1 := ih ((k - 1) / 2) (by omega) (by omega)
      have h2 := h k (by omega) hk
      omega

theorem HeapOrd.congr {w w2 : Nat → Int} {n : Nat} (h : HeapOrd w n)
    (he : ∀ k, k < n → w2 k = w k) : HeapOrd w2 n := by
  intro k hk0 hkn
  rw [he k hkn, he _ (by omega)]
  exact h k hk0 hkn

theorem HeapOrd.shrink {w : Nat → Int} {n m : Nat} (h : HeapOrd w n) (hm : m ≤ n) :
    HeapOrd w m := fun k hk0 hkm => h k hk0 (by omega)

theorem Push_spec {V : Type} {q : queue V} {x : Nat} {en : entry V} (hv : Valid q)
    (hx : q.objs[x]? = some en) (hnew : x ∉ q.ptrs) :
    ∃ q2, q.Push x = some q2 ∧ Valid q2 ∧ Same q q2 ∧ q2.ptrs = q.ptrs ++ [x] := by
  have hxl : x < q.objs.length := (List.getElem?_eq_some.1 hx).1
  refine ⟨⟨q.objs.set x { en with index := (q.ptrs.length : Int) }, q.ptrs ++ [x]⟩,
    by simp only [queue.Push, hx], ⟨?_, ?_⟩, ?_, rfl⟩
  · simp only
    rw [List.nodup_append]
    refine ⟨hv.nodup, List.nodup_singleton x, ?_⟩
    intro a ha hb
    simp only [List.mem_singleton] at hb
    subst hb; exact hnew ha
  · intro i p hp
    simp only at hp ⊢
    rw [List.getElem?_append] at hp
    split_ifs at hp with hlt
    · have hpx : p ≠ x := fun h => hnew (h ▸ List.mem_iff_getElem?.2 ⟨i, hp⟩)
      rw [List.getElem?_set_ne (Ne.symm hpx)]
      exact hv.index i p hp
    · have hil : i - q.ptrs.length = 0 := by
        by_contra hne
        rw [List.getElem?_eq_none (by simp; omega)] at hp
        cases hp
      rw [hil] at hp
      simp only [List.getElem?_cons_zero, Option.some.injEq] at hp
      subst hp
      refine ⟨_, List.getElem?_set_self hxl, ?_⟩
      simp only [Nat.cast_inj]
      omega
  · intro p
    simp only
    by_cases hpx : p = x
    · subst hpx
      rw [List.getElem?_set_self hxl, hx]; rfl
    · rw [List.getElem?_set_ne (Ne.symm hpx)]

theorem Pop_spec {V : Type} {q : queue V} (hv : Valid q) (hlen : 0 < q.ptrs.length) :
    ∃ q2 x, q.Pop = some (q2, x) ∧ Valid q2 ∧ Same q q2 ∧
      q.ptrs[q.ptrs.length - 1]? = some x ∧ q2.ptrs = q.ptrs.take (q.ptrs.length - 1) ∧
      q.ptrs = q2.ptrs ++ [x] := by
  obtain ⟨x, en, hx, hen, _⟩ := hv.ptr (i := q.ptrs.length - 1) (by omega)
  have hxl : x < q.objs.length := (List.getElem?_eq_some.1 hen).1
  have hsplit : q.ptrs = q.ptrs.take (q.ptrs.length - 1) ++ [x] := by
    have hne : q.ptrs ≠ [] := by
      intro h; rw [h] at hlen; simp at hlen
    have h1 := List.dropLast_append_getLast hne
    rw [List.getLast_eq_getElem, List.dropLast_eq_take] at h1
    have h2 : q.ptrs[q.ptrs.length - 1] = x := by
      have := List.getElem?_eq_getElem (l := q.ptrs) (n := q.ptrs.length - 1) (by omega)
      rw [hx] at this
      exact (Option.some.inj this).symm
    rw [h2] at h1
    exact h1.symm
  have hnd : (q.ptrs.take (q.ptrs.length - 1) ++ [x]).Nodup := by rw [← hsplit]; exact hv.nodup
  rw [List.nodup_append] at hnd
  refine ⟨⟨q.objs.set x { en with index := -1 }, q.ptrs.take (q.ptrs.length - 1)⟩, x,
    by simp only [queue.Pop, hx, hen]; rw [if_neg (by omega)], ⟨hnd.1, ?_⟩, ?_,
    hx, rfl, hsplit⟩
  · intro i p hp
    simp only at hp ⊢
    have hmem : p ∈ q.ptrs.take (q.ptrs.length - 1) := List.mem_iff_getElem?.2 ⟨i, hp⟩
    have hpx : p ≠ x := fun h => hnd.2.2 hmem (by simp [h])
    rw [List.getElem?_set_ne (Ne.symm hpx)]
    rw [List.getElem?_take] at hp
    split_ifs at hp
    exact hv.index i p hp
  · intro p
    simp only
    by_cases hpx : p = x
    · subst hpx
      rw [List.getElem?_set_self hxl, hen]; rfl
    · rw [List.getElem?_set_ne (Ne.symm hpx)]

theorem W_of_prefix {V : Type} {q q2 : queue V} (hs : Same q q2) {n : Nat}
    (hp : ∀ k, k < n → q2.ptrs[k]? = q.ptrs[k]?) : ∀ k, k < n → q2.W k = q.W k :=
  fun k hk => W_congr hs (hp k hk)

theorem heapPush_spec {V : Type} {q : queue V} {x : Nat} {en : entry V} (hv : Valid q)
    (hx : q.objs[x]? = some en) (hnew : x ∉ q.ptrs) :
    ∃ q2, heapPush q x = some q2 ∧ Valid q2 ∧ Same q q2 ∧ q2.ptrs.Perm (x :: q.ptrs) ∧
      (IsHeap q → IsHeap q2) := by
  obtain ⟨q1, hpush, hv1, hs1, hp1⟩ := Push_spec hv hx hnew
  have hlen1 : q1.ptrs.length = q.ptrs.length + 1 := by rw [hp1]; simp
  obtain ⟨q2, hu, hstep, hheap⟩ := up_spec (j := q1.ptrs.length - 1) hv1 (by omega)
  refine ⟨q2, by simp only [heapPush, hpush, queue.Len]; exact hu, hstep.valid,
    hs1.trans hstep.same, ?_, ?_⟩
  · refine hstep.perm.trans ?_
    rw [hp1]; exact List.perm_append_singleton x q.ptrs
  · intro hq
    unfold IsHeap
    rw [hstep.length]
    apply hheap
    have hW : ∀ k, k < q.ptrs.length → q1.W k = q.W k :=
      W_of_prefix hs1 (fun k hk => by rw [hp1, List.getElem?_append_left hk])
    constructor
    · intro k hk0 hkn hkne
      rw [hW k (by omega), hW _ (by omega)]
      exact hq k hk0 (by omega)
    · intro k hk0 hkn hp _
      omega

/-- The call `heap.Push` leaves the root in place when the pushed weight is not below it. -/
theorem heapPush_root {V : Type} {q q2 : queue V} {x : Nat} {en : entry V} (hv : Valid q)
    (hx : q.objs[x]? = some en) (hnew : x ∉ q.ptrs) (hlen : 0 < q.ptrs.length)
    (hmin : ∀ k, k < q.ptrs.length → q.W 0 ≤ q.W k) (hle : q.W 0 ≤ en.weight)
    (hpush : heapPush q x = some q2) : q2.ptrs[0]? = q.ptrs[0]? := by
  obtain ⟨q1, hp, hv1, hs1, hp1⟩ := Push_spec hv hx hnew
  have hlen1 : q1.ptrs.length = q.ptrs.length + 1 := by rw [hp1]; simp
  simp only [heapPush, hp, queue.Len] at hpush
  have hW : ∀ k, k < q.ptrs.length → q1.W k = q.W k :=
    W_of_prefix hs1 (fun k hk => by rw [hp1, List.getElem?_append_left hk])
  have hlast : q1.W q.ptrs.length = en.weight := by
    obtain ⟨e2, he2, _, _, hw⟩ := hs1.some hx
    have : q1.ptrs[q.ptrs.length]? = some x := by rw [hp1]; exact List.getElem?_concat_length _ _
    simp [queue.W, queue.deref, this, he2, hw]
  have hmin1 : ∀ k, k < q1.ptrs.length → q1.W 0 ≤ q1.W k := by
    intro k hk
    rw [hW 0 hlen]
    by_cases hkl : k < q.ptrs.length
    · rw [hW k hkl]; exact hmin k hkl
    · have : k = q.ptrs.length := by omega
      rw [this, hlast]; exact hle
  rw [upLoop_root _ q1 (q1.ptrs.length - 1) hv1 (by omega) (by omega) hmin1 q2 hpush, hp1,
    List.getElem?_append_left hlen]

theorem heapPop_spec {V : Type} {q : queue V} (hv : Valid q) (hlen : 0 < q.ptrs.length) :
    ∃ q2 x, heapPop q = some (q2, x) ∧ Valid q2 ∧ Same q q2 ∧ q.ptrs[0]? = some x ∧
      q.ptrs.Perm (x :: q2.ptrs) ∧ (IsHeap q → IsHeap q2) := by
  obtain ⟨q1, hs, hstep1, hW1, hptr1⟩ := Swap_step (a := 0) (b := q.ptrs.length) (i := 0)
    (j := q.ptrs.length - 1) hv hlen (by omega) (by omega) (by omega)
  have hl1 := hstep1.length
  obtain ⟨q2, b, hd, hstep2, _, hheap2⟩ := down_spec (i := 0) (n := q.ptrs.length - 1)
    hstep1.valid (by omega)
  have hl2 := hstep2.length
  obtain ⟨q3, x, hpop, hv3, hs3, hx3, htake, hsplit⟩ := Pop_spec hstep2.valid (by omega)
  have hx : q.ptrs[0]? = some x := by
    rw [hl2, hl1, hstep2.out _ (Or.inr (le_refl _)), hptr1] at hx3
    have : sw 0 (q.ptrs.length - 1) (q.ptrs.length - 1) = 0 := by
      unfold sw; split_ifs <;> omega
    rw [this] at hx3; exact hx3
  refine ⟨q3, x, ?_, hv3, (hstep1.same.trans hstep2.same).trans hs3, hx, ?_, ?_⟩
  · simp only [heapPop, queue.Len, hs, hd, hpop]
    rw [if_neg (by omega)]
  · refine (hstep1.perm.symm.trans hstep2.perm.symm).trans ?_
    rw [hsplit]; exact List.perm_append_singleton x q3.ptrs
  · intro hq
    have hlen3 : q3.ptrs.length = q.ptrs.length - 1 := by
      rw [htake, List.length_take, hl2, hl1]; omega
    unfold IsHeap
    rw [hlen3]
    have hh2 : HeapOrd q2.W (q.ptrs.length - 1) := by
      apply hheap2 _ (Or.inr (fun h _ => absurd h (lt_irrefl 0)))
      constructor
      · intro k hk0 hkn hk1 hk2
        have e1 : sw 0 (q.ptrs.length - 1) k = k := by unfold sw; split_ifs <;> omega
        have e2 : sw 0 (q.ptrs.length - 1) ((k - 1) / 2) = (k - 1) / 2 := by
          unfold sw; split_ifs <;> omega
        rw [hW1, hW1, e1, e2]
        exact hq k hk0 (by omega)
      · intro k _ _ _ h; omega
    refine hh2.congr ?_
    exact W_of_prefix hs3 (fun k hk => by
      rw [htake, List.getElem?_take, if_pos (by rw [hl2, hl1]; exact hk)])

end LFU

namespace LFU

theorem heapFix_spec {V : Type} {q : queue V} {i : Nat} (hv : Valid q)
    (hi : i < q.ptrs.length) :
    ∃ q2, heapFix q (i : Int) = some q2 ∧ Step q q2 0 q.ptrs.length ∧
      (ExcAt q.W q.ptrs.length i → IsHeap q2) := by
  obtain ⟨q2, hd, hstep, hheap⟩ := downOrUp_spec (i := i) (n := q.ptrs.length) hv hi (le_refl _)
  refine ⟨q2, ?_, hstep, ?_⟩
  · unfold heapFix
    rw [if_neg (by omega)]
    simpa [queue.Len] using hd
  · intro hex
    unfold IsHeap
    rw [hstep.length]
    exact hheap hex

theorem heapRemove_spec {V : Type} {q : queue V} {i : Nat} (hv : Valid q)
    (hi : i < q.ptrs.length) :
    ∃ q2 x, heapRemove q (i : Int) = some (q2, x) ∧ Valid q2 ∧ Same q q2 ∧
      q.ptrs[i]? = some x ∧ q.ptrs.Perm (x :: q2.ptrs) ∧ (IsHeap q → IsHeap q2) := by
  by_cases hlast : q.ptrs.length - 1 = i
  · obtain ⟨q3, x, hpop, hv3, hs3, hx3, htake, hsplit⟩ := Pop_spec hv (by omega)
    refine ⟨q3, x, ?_, hv3, hs3, by rw [← hlast]; exact hx3, ?_, ?_⟩
    · unfold heapRemove
      rw [if_neg (by omega), if_neg (by unfold queue.Len; omega), if_neg (by unfold queue.Len; simp [hlast])]
      exact hpop
    · rw [hsplit]; exact List.perm_append_singleton x q3.ptrs
    · intro hq
      have hlen3 : q3.ptrs.length = q.ptrs.length - 1 := by
        rw [htake, List.length_take]; omega
      unfold IsHeap
      rw [hlen3]
      refine (HeapOrd.shrink hq (by omega)).congr ?_
      exact W_of_prefix hs3 (fun k hk => by rw [htake, List.getElem?_take, if_pos hk])
  · obtain ⟨q1, hs, hstep1, hW1, hptr1⟩ := Swap_step (a := 0) (b := q.ptrs.length) (i := i)
      (j := q.ptrs.length - 1) hv hi (by omega) (by omega) (by omega)
    have hl1 := hstep1.length
    obtain ⟨q2, hd, hstep2, hheap2⟩ := downOrUp_spec (i := i) (n := q.ptrs.length - 1)
      hstep1.valid (by omega) (by omega)
    have hl2 := hstep2.length
    obtain ⟨q3, x, hpop, hv3, hs3, hx3, htake, hsplit⟩ := Pop_spec hstep2.valid (by omega)
    have hx : q.ptrs[i]? = some x := by
      rw [hl2, hl1, hstep2.out _ (Or.inr (le_refl _)), hptr1] at hx3
      have : sw i (q.ptrs.length - 1) (q.ptrs.length - 1) = i := by
        unfold sw; split_ifs <;> omega
      rw [this] at hx3; exact hx3
    refine ⟨q3, x, ?_, hv3, (hstep1.same.trans hstep2.same).trans hs3, hx, ?_, ?_⟩
    · unfold heapRemove
      rw [if_neg (by omega), if_neg (by unfold queue.Len; omega),
        if_pos (by unfold queue.Len; simp; omega)]
      simp only [queue.Len, Int.toNat_ofNat, hs, hd, hpop]
    · refine (hstep1.perm.symm.trans hstep2.perm.symm).trans ?_
      rw [hsplit]; exact List.perm_append_singleton x q3.ptrs
    · intro hq
      have hlen3 : q3.ptrs.length = q.ptrs.length - 1 := by
        rw [htake, List.length_take, hl2, hl1]; omega
      unfold IsHeap
      rw [hlen3]
      have hh2 : HeapOrd q2.W (q.ptrs.length - 1) := by
        apply hheap2
        have hWk : ∀ k, k < q.ptrs.length - 1 → k ≠ i → q1.W k = q.W k := by
          intro k hk hki
          rw [hW1]
          have : sw i (q.ptrs.length - 1) k = k := by unfold sw; split_ifs <;> omega
          rw [this]
        constructor
        · intro k hk0 hkn hk1 hk2
          rw [hWk k hkn hk1, hWk _ (by omega) hk2]
          exact hq k hk0 (by omega)
        · intro k hk0 hkn hp hi0
          rw [hWk k hkn (by omega), hWk _ (by omega) (by omega)]
          have h1 := hq i hi0 hi
          have h2 := hq k hk0 (by omega)
          rw [hp] at h2
          omega
      refine hh2.congr ?_
      exact W_of_prefix hs3 (fun k hk => by
        rw [htake, List.getElem?_take, if_pos (by rw [hl2, hl1]; exact hk)])

theorem update_spec {V : Type} {q : queue V} {i p : Nat} (hv : Valid q)
    (hp : q.ptrs[i]? = some p) (value : Option V) (weight : Int) :
    ∃ q2 e, q.objs[p]? = some e ∧ q.update p value weight = some q2 ∧ Valid q2 ∧
      q2.ptrs.Perm q.ptrs ∧
      (∃ e2, q2.objs[p]? = some e2 ∧ e2.key = e.key ∧ e2.value = value ∧ e2.weight = weight) ∧
      (∀ p2, p2 ≠ p → (q2.objs[p2]?).map entry.data = (q.objs[p2]?).map entry.data) ∧
      (IsHeap q → IsHeap q2) := by
  obtain ⟨e, he, hidx⟩ := hv.index i p hp
  have hpl : p < q.objs.length := (List.getElem?_eq_some.1 he).1
  have hil : i < q.ptrs.length := (List.getElem?_eq_some.1 hp).1
  have hv0 : Valid ({ q with objs := q.objs.set p { e with value := value, weight := weight } } :
      queue V) := by
    refine ⟨hv.nodup, ?_⟩
    intro k p2 hk
    simp only at hk ⊢
    by_cases hpp : p2 = p
    · subst hpp
      have : k = i := getElem?_inj_of_nodup hv.nodup hk hp
      exact ⟨_, List.getElem?_set_self hpl, by simp [this, hidx]⟩
    · rw [List.getElem?_set_ne (Ne.symm hpp)]
      exact hv.index k p2 hk
  obtain ⟨q2, hfix, hstep, hheap⟩ := heapFix_spec (i := i) hv0 hil
  have hobj0 : ∀ p2, p2 ≠ p →
      (q.objs.set p { e with value := value, weight := weight })[p2]? = q.objs[p2]? :=
    fun p2 h => List.getElem?_set_ne (Ne.symm h)
  refine ⟨q2, e, he, ?_, hstep.valid, hstep.perm, ?_, ?_, ?_⟩
  · simp only [queue.update, he]
    exact (congrArg _ hidx).trans hfix
  · obtain ⟨e2, h1, h2, h3, h4⟩ := hstep.same.some (p := p) (List.getElem?_set_self hpl)
    exact ⟨e2, h1, h2, h3, h4⟩
  · intro p2 hne
    rw [hstep.same p2]
    simp only
    rw [hobj0 p2 hne]
  · intro hq
    apply hheap
    have hWk : ∀ k, k ≠ i →
        ({ q with objs := q.objs.set p { e with value := value, weight := weight } } :
          queue V).W k = q.W k := by
      intro k hki
      unfold queue.W queue.deref
      simp only
      cases hk : q.ptrs[k]? with
      | none => rfl
      | some p2 =>
        simp only
        have : p2 ≠ p := fun h => hki (getElem?_inj_of_nodup hv.nodup (h ▸ hk) hp)
        rw [hobj0 p2 this]
    constructor
    · intro k hk0 hkn hk1 hk2
      rw [hWk k hk1, hWk _ hk2]
      exact hq k hk0 hkn
    · intro k hk0 hkn hpk hi0
      rw [hWk k (by omega), hWk _ (by omega)]
      have h1 := hq i hi0 hil
      have h2 := hq k hk0 hkn
      rw [hpk] at h2
      omega

end LFU

namespace LFU

/-! ## The map -/

theorem mapGet_mem {m : List (String × Nat)} {k : String} {p : Nat}
    (h : mapGet m k = some p) : (k, p) ∈ m := by
  induction m with
  | nil => simp [mapGet] at h
  | cons kp t ih =>
    unfold mapGet at h
    split_ifs at h with hk
    · cases h; subst hk; exact List.mem_cons_self _ _
    · exact List.mem_cons_of_mem _ (ih h)

theorem mapGet_none_iff {m : List (String × Nat)} {k : String} :
    mapGet m k = none ↔ k ∉ m.map Prod.fst := by
  induction m with
  | nil => simp [mapGet]
  | cons kp t ih =>
    unfold mapGet
    split_ifs with hk
    · simp [hk]
    · simp only [List.map_cons, List.mem_cons, not_or]
      rw [ih]
      exact ⟨fun h => ⟨fun e => hk e.symm, h⟩, fun h => h.2⟩

theorem mapGet_of_mem {m : List (String × Nat)} (hn : (m.map Prod.fst).Nodup) {k : String}
    {p : Nat} (h : (k, p) ∈ m) : mapGet m k = some p := by
  induction m with
  | nil => simp at h
  | cons kp t ih =>
    simp only [List.map_cons, List.nodup_cons] at hn
    unfold mapGet
    rcases List.mem_cons.1 h with h1 | h1
    · subst h1; simp
    · have : kp.1 ≠ k := by
        intro e
        apply hn.1
        rw [e]
        exact List.mem_map.2 ⟨(k, p), h1, rfl⟩
      rw [if_neg this]
      exact ih hn.2 h1

theorem mapDelete_of_absent {m : List (String × Nat)} {k : String} (h : mapGet m k = none) :
    mapDelete m k = m := by
  rw [mapGet_none_iff] at h
  unfold mapDelete
  rw [List.filter_eq_self]
  intro kp hkp
  simp only [ne_eq, decide_not, Bool.not_eq_true', decide_eq_false_iff_not]
  intro e
  exact h (List.mem_map.2 ⟨kp, hkp, e⟩)

theorem mapGet_mapDelete (m : List (String × Nat)) (k k2 : String) :
    mapGet (mapDelete m k) k2 = if k2 = k then none else mapGet m k2 := by
  induction m with
  | nil => simp [mapDelete, mapGet]
  | cons kp t ih =>
    unfold mapDelete at ih ⊢
    by_cases hk : kp.1 = k
    · rw [List.filter_cons_of_neg (by simp [hk]), ih]
      by_cases h2 : k2 = k
      · simp [h2]
      · have h3 : ¬ kp.1 = k2 := by rw [hk]; exact fun e => h2 e.symm
        simp only [if_neg h2]
        conv_rhs => unfold mapGet
        rw [if_neg h3]
    · rw [List.filter_cons_of_pos (by simp [hk])]
      conv_lhs => unfold mapGet
      conv_rhs => unfold mapGet
      by_cases h3 : kp.1 = k2
      · simp only [h3, if_true]
        rw [if_neg (by rw [← h3]; exact hk)]
      · simp only [h3, if_false]
        exact ih

theorem mapDelete_keys_nodup {m : List (String × Nat)} (hn : (m.map Prod.fst).Nodup)
    (k : String) : ((mapDelete m k).map Prod.fst).Nodup :=
  hn.sublist ((List.filter_sublist m).map Prod.fst)

theorem mapDelete_mem {m : List (String × Nat)} {k : String} {kp : String × Nat}
    (h : kp ∈ mapDelete m k) : kp ∈ m ∧ kp.1 ≠ k := by
  unfold mapDelete at h
  rw [List.mem_filter] at h
  exact ⟨h.1, by simpa using h.2⟩

theorem mapDelete_perm {m : List (String × Nat)} (hn : (m.map Prod.fst).Nodup) {k : String}
    {p : Nat} (h : (k, p) ∈ m) :
    (m.map Prod.snd).Perm (p :: (mapDelete m k).map Prod.snd) := by
  induction m with
  | nil => simp at h
  | cons kp t ih =>
    simp only [List.map_cons, List.nodup_cons] at hn
    rcases List.mem_cons.1 h with h1 | h1
    · subst h1
      have habs : mapGet t k = none := mapGet_none_iff.2 hn.1
      have : mapDelete ((k, p) :: t) k = t := by
        have h2 := mapDelete_of_absent habs
        unfold mapDelete at h2 ⊢
        rw [List.filter_cons_of_neg (by simp), h2]
      rw [this]
      exact List.Perm.refl _
    · have hne : kp.1 ≠ k := by
        intro e
        apply hn.1
        rw [e]
        exact List.mem_map.2 ⟨(k, p), h1, rfl⟩
      have : mapDelete (kp :: t) k = kp :: mapDelete t k := by
        unfold mapDelete
        rw [List.filter_cons_of_pos (by simp [hne])]
      rw [this]
      simp only [List.map_cons]
      exact ((ih hn.2 h1).cons kp.2).trans (List.Perm.swap _ _ _)

/-! ## Accounted sizes -/

theorem acct_same {V : Type} (size : Option V → Int) {q q2 : queue V} (hs : Same q q2)
    (p : Nat) : q2.acct size p = q.acct size p := by
  unfold queue.acct
  cases h : q.objs[p]? with
  | none =>
    have := hs p
    rw [h] at this
    cases h2 : q2.objs[p]? with
    | none => rfl
    | some e => rw [h2] at this; simp at this
  | some e =>
    obtain ⟨e2, he2, _, hv, _⟩ := hs.some h
    simp [he2, entry.Len, hv]

theorem sum_acct_congr {V : Type} (size : Option V → Int) {q r : queue V} (l : List Nat)
    (h : ∀ p ∈ l, r.acct size p = q.acct size p) :
    (l.map (r.acct size)).sum = (l.map (q.acct size)).sum := by
  rw [List.map_congr_left h]

end LFU

namespace LFU

/-! ## The invariant -/

theorem Inv.new {V : Type} (size : Option V → Int) (maxBytes : Int) (onEvicated : Bool) :
    Inv size (New maxBytes onEvicated : lfu V) := by
  refine ⟨⟨List.nodup_nil, ?_⟩, ?_, List.nodup_nil, List.Perm.refl _, ?_, rfl⟩
  · intro i p h; simp [New] at h
  · intro k _ hk; simp [New] at hk
  · intro k p h; simp [New] at h

theorem Inv.of_get {V : Type} {size : Option V → Int} {l : lfu V} (hinv : Inv size l)
    {k : String} {p : Nat} (h : mapGet l.cache k = some p) :
    ∃ (e : entry V) (i : Nat), l.queue.objs[p]? = some e ∧ e.key = k ∧
      l.queue.ptrs[i]? = some p ∧
      e.index = (i : Int) := by
  have hmem := mapGet_mem h
  obtain ⟨e, he, hk⟩ := hinv.key k p hmem
  have hp : p ∈ l.queue.ptrs :=
    hinv.ptrs.subset (List.mem_map.2 ⟨(k, p), hmem, rfl⟩)
  obtain ⟨i, hi⟩ := List.mem_iff_getElem?.1 hp
  obtain ⟨e2, he2, hidx⟩ := hinv.valid.index i p hi
  rw [he] at he2; cases he2
  exact ⟨e, i, he, hk, hi, hidx⟩

theorem Inv.of_ptr {V : Type} {size : Option V → Int} {l : lfu V} (hinv : Inv size l)
    {p : Nat} (hp : p ∈ l.queue.ptrs) :
    ∃ e, l.queue.objs[p]? = some e ∧ mapGet l.cache e.key = some p := by
  have := hinv.ptrs.symm.subset hp
  obtain ⟨kp, hkp, rfl⟩ := List.mem_map.1 this
  obtain ⟨e, he, hk⟩ := hinv.key kp.1 kp.2 hkp
  exact ⟨e, he, mapGet_of_mem hinv.keys (by rw [hk]; exact hkp)⟩

theorem Inv.ptr_lt {V : Type} {size : Option V → Int} {l : lfu V} (hinv : Inv size l)
    {p : Nat} (hp : p ∈ l.queue.ptrs) : p < l.queue.objs.length := by
  obtain ⟨e, he, _⟩ := hinv.of_ptr hp
  exact (List.getElem?_eq_some.1 he).1

theorem Inv.len_eq {V : Type} {size : Option V → Int} {l : lfu V} (hinv : Inv size l) :
    l.Len = l.cache.length := by
  have := hinv.ptrs.length_eq
  simp only [List.length_map] at this
  simp [lfu.Len, queue.Len, this]

theorem view_of_get {V : Type} {l : lfu V} {k : String} {p : Nat}
    (h : mapGet l.cache k = some p) :
    l.view k = (l.queue.objs[p]?).map (fun e => (e.value, e.weight)) := by
  simp [lfu.view, lfu.find, h]

theorem view_of_absent {V : Type} {l : lfu V} {k : String}
    (h : mapGet l.cache k = none) : l.view k = none := by
  simp [lfu.view, lfu.find, h]

/-- In a state satisfying the invariant `usedBytes` is a Go `int`. -/
theorem Inv.fits {V : Type} {size : Option V → Int} {l : lfu V} (hinv : Inv size l) :
    fitsInt l.usedBytes := by
  rw [hinv.used]; exact wrap_fits _

theorem Same.view {V : Type} {q q2 : queue V} (hs : Same q q2) (p : Nat) :
    (q2.objs[p]?).map (fun e => (e.value, e.weight)) =
      (q.objs[p]?).map (fun e => (e.value, e.weight)) := by
  have := congrArg (Option.map (fun d : String × Option V × Int => d.2)) (hs p)
  simpa [Option.map_map, Function.comp_def, entry.data] using this

/-- Removing the object `y` that a heap routine has taken out of the slice. -/
theorem remove_spec {V : Type} {size : Option V → Int} {l : lfu V} (hinv : Inv size l)
    {q2 : queue V} {y : Nat} (hv2 : Valid q2) (hs : Same l.queue q2)
    (hperm : l.queue.ptrs.Perm (y :: q2.ptrs)) (hheap : IsHeap q2) :
    ∃ en, l.queue.objs[y]? = some en ∧ mapGet l.cache en.key = some y ∧
      lfu.removeElement size { l with queue := q2 } (some y) =
        some { l with queue := q2, cache := mapDelete l.cache en.key,
                      usedBytes := wrap (l.usedBytes - en.Len size),
                      evicted := if l.onEvicated then l.evicted ++ [(en.key, en.value)]
                                 else l.evicted } ∧
      Inv size { l with queue := q2, cache := mapDelete l.cache en.key,
                        usedBytes := wrap (l.usedBytes - en.Len size),
                        evicted := if l.onEvicated then l.evicted ++ [(en.key, en.value)]
                                   else l.evicted } := by
  have hy : y ∈ l.queue.ptrs := hperm.symm.subset (List.mem_cons_self _ _)
  obtain ⟨en, hen, hget⟩ := hinv.of_ptr hy
  obtain ⟨en2, hen2, hk2, hval2, _⟩ := hs.some hen
  refine ⟨en, hen, hget, ?_, ?_⟩
  · simp only [lfu.removeElement, hen2, hk2, hval2, entry.Len]
  · refine ⟨hv2, hheap, mapDelete_keys_nodup hinv.keys _, ?_, ?_, ?_⟩
    · have h1 := mapDelete_perm hinv.keys (mapGet_mem hget)
      exact List.Perm.cons_inv ((h1.symm.trans hinv.ptrs).trans hperm)
    · intro k p hkp
      obtain ⟨hmem, _⟩ := mapDelete_mem hkp
      obtain ⟨e, he, hk⟩ := hinv.key k p hmem
      obtain ⟨e2, he2, hk2, _, _⟩ := hs.some he
      exact ⟨e2, he2, hk2.trans hk⟩
    · simp only
      rw [hinv.used, (hperm.map _).sum_eq, List.map_cons, List.sum_cons,
        sum_acct_congr size q2.ptrs (fun p _ => acct_same size hs p)]
      have : l.queue.acct size y = en.Len size := by simp [queue.acct, hen]
      rw [this]; unfold wrap; omega

end LFU

namespace LFU

/-! ## The cache operations on a state satisfying the invariant -/

theorem acct_of_data {V : Type} (size : Option V → Int) {q q2 : queue V} {p : Nat}
    (h : (q2.objs[p]?).map entry.data = (q.objs[p]?).map entry.data) :
    q2.acct size p = q.acct size p := by
  unfold queue.acct
  cases h1 : q.objs[p]? with
  | none =>
    rw [h1] at h
    cases h2 : q2.objs[p]? with
    | none => rfl
    | some e => rw [h2] at h; simp at h
  | some e =>
    rw [h1] at h
    cases h2 : q2.objs[p]? with
    | none => rw [h2] at h; simp at h
    | some e2 =>
      rw [h2] at h
      simp only [Option.map_some', Option.some.injEq, entry.data, Prod.mk.injEq] at h
      simp [entry.Len, h.2.1]

theorem view_of_data {V : Type} {q q2 : queue V} {p : Nat}
    (h : (q2.objs[p]?).map entry.data = (q.objs[p]?).map entry.data) :
    (q2.objs[p]?).map (fun e => (e.value, e.weight)) =
      (q.objs[p]?).map (fun e => (e.value, e.weight)) := by
  have := congrArg (Option.map (fun d : String × Option V × Int => d.2)) h
  simpa [Option.map_map, Function.comp_def, entry.data] using this

theorem remove_removed {V : Type} {size : Option V → Int} {l : lfu V} (hinv : Inv size l)
    {q2 : queue V} {y : Nat} (hv2 : Valid q2) (hs : Same l.queue q2)
    (hperm : l.queue.ptrs.Perm (y :: q2.ptrs)) (hheap : IsHeap q2) :
    ∃ en l2, l.queue.objs[y]? = some en ∧ mapGet l.cache en.key = some y ∧
      lfu.removeElement size { l with queue := q2 } (some y) = some l2 ∧ l2.queue = q2 ∧
      Removed size l l2 en := by
  obtain ⟨en, hen, hget, hrem, hinv2⟩ := remove_spec hinv hv2 hs hperm hheap
  refine ⟨en, _, hen, hget, hrem, rfl, ⟨hinv2, ?_, rfl, rfl, rfl, rfl, ?_, rfl, ?_, ?_⟩⟩
  · simp [lfu.find, hget, hen]
  · have := hperm.length_eq
    simp only [List.length_cons] at this
    simp [lfu.Len, queue.Len, this]
  · apply view_of_absent
    simp only
    rw [mapGet_mapDelete, if_pos rfl]
  · intro k hk
    cases hg : mapGet l.cache k with
    | none =>
      rw [view_of_absent hg]
      apply view_of_absent
      simp only
      rw [mapGet_mapDelete, if_neg hk, hg]
    | some p =>
      rw [view_of_get hg]
      refine (view_of_get (p := p) ?_).trans (hs.view p)
      simp only
      rw [mapGet_mapDelete, if_neg hk, hg]

/-- The call of `queue.update` on a present key. -/
theorem touch_spec {V : Type} {size : Option V → Int} {l : lfu V} (hinv : Inv size l)
    {k : String} {p : Nat} (h : mapGet l.cache k = some p) (v : Option V) :
    ∃ e q2, l.queue.objs[p]? = some e ∧
      l.queue.update p v (e.weight + 1) = some q2 ∧
      (∃ e2, q2.objs[p]? = some e2 ∧ e2.value = v) ∧
      Touched size l
        { l with queue := q2,
                 usedBytes := wrap (wrap (l.usedBytes - CalcLen size e.value) + CalcLen size v) }
        k v e ∧
      ({ l with queue := q2,
                usedBytes := wrap (wrap (l.usedBytes - CalcLen size e.value) + CalcLen size v) }
          : lfu V).usedBytes
        = wrap (wrap (l.usedBytes - CalcLen size e.value) + CalcLen size v) := by
  obtain ⟨e, i, he, hek, hi, hidx⟩ := hinv.of_get h
  obtain ⟨q2, e', he', hupd, hv2, hperm, ⟨e2, he2, hk2, hval2, hw2⟩, hoth, hheap⟩ :=
    update_spec hinv.valid hi v (e.weight + 1)
  rw [he] at he'; cases he'
  have hview : ∀ k2, k2 ≠ k →
      ({ l with queue := q2,
                usedBytes := wrap (wrap (l.usedBytes - CalcLen size e.value) + CalcLen size v) }
          : lfu V).view k2 = l.view k2 := by
    intro k2 hk2
    cases hg : mapGet l.cache k2 with
    | none => rw [view_of_absent hg, view_of_absent (by simpa using hg)]
    | some p2 =>
      rw [view_of_get hg]
      refine (view_of_get (p := p2) ?_).trans ?_
      · exact hg
      have hne : p2 ≠ p := by
        intro hp
        subst hp
        obtain ⟨e3, _, he3, hk3, _, _⟩ := hinv.of_get hg
        rw [he] at he3; cases he3
        exact hk2 (hk3.symm.trans hek)
      exact view_of_data (hoth p2 hne)
  refine ⟨e, q2, he, hupd, ⟨e2, he2, hval2⟩, ⟨⟨hv2, hheap hinv.heap, hinv.keys,
    hinv.ptrs.trans hperm.symm, ?_, ?_⟩, ?_, rfl, rfl, rfl, ?_, rfl, ?_, hview⟩, rfl⟩
  · intro k2 p2 hkp
    obtain ⟨e3, he3, hk3⟩ := hinv.key k2 p2 hkp
    by_cases hp : p2 = p
    · subst hp
      rw [he] at he3; cases he3
      exact ⟨e2, he2, hk2.trans hk3⟩
    · have := hoth p2 hp
      rw [he3] at this
      cases h4 : q2.objs[p2]? with
      | none => rw [h4] at this; simp at this
      | some e4 =>
        rw [h4] at this
        simp only [Option.map_some', Option.some.injEq, entry.data, Prod.mk.injEq] at this
        exact ⟨e4, rfl, this.1.trans hk3⟩
  · simp only
    have hp : p ∈ l.queue.ptrs := List.mem_iff_getElem?.2 ⟨i, hi⟩
    have hpe := List.perm_cons_erase hp
    have hnd : (p :: l.queue.ptrs.erase p).Nodup := hpe.nodup_iff.1 hinv.valid.nodup
    rw [List.nodup_cons] at hnd
    rw [(hperm.map _).sum_eq, (hpe.map _).sum_eq, hinv.used, (hpe.map _).sum_eq]
    simp only [List.map_cons, List.sum_cons]
    rw [sum_acct_congr size (q := l.queue) (r := q2) (l.queue.ptrs.erase p) (fun p2 hp2 =>
      acct_of_data size (hoth p2 (fun e => hnd.1 (e ▸ hp2))))]
    have h1 : q2.acct size p = wrap (wrap (CalcLen size v + 4) + 4) := by
      simp [queue.acct, he2, entry.Len, hval2]
    have h2 : l.queue.acct size p = wrap (wrap (CalcLen size e.value + 4) + 4) := by
      simp [queue.acct, he, entry.Len]
    rw [h1, h2]; unfold wrap; omega
  · simp [lfu.find, h, he]
  · have := hperm.length_eq
    simp [lfu.Len, queue.Len, this]
  · refine (view_of_get (p := p) ?_).trans ?_
    · exact h
    simp [he2, hval2, hw2]

end LFU

namespace LFU

/-- The insertion lines of `Set` (`heap.Push`, `l.cache[key] = en`,
`l.usedBytes += en.Len()`) on an absent key. -/
theorem insert_spec {V : Type} {size : Option V → Int} {l : lfu V} (hinv : Inv size l)
    {k : String} (h : mapGet l.cache k = none) (v : Option V) :
    ∃ q1 en, heapPush { l.queue with objs := l.queue.objs ++ [⟨k, v, 0, 0⟩] }
        l.queue.objs.length = some q1 ∧
      q1.objs[l.queue.objs.length]? = some en ∧ en.key = k ∧ en.value = v ∧ en.weight = 0 ∧
      q1.ptrs.Perm (l.queue.objs.length :: l.queue.ptrs) ∧
      (∀ p, p ≠ l.queue.objs.length →
        (q1.objs[p]?).map entry.data = (l.queue.objs[p]?).map entry.data) ∧
      Inserted size l { l with queue := q1, cache := mapSet l.cache k l.queue.objs.length,
                               usedBytes := wrap (l.usedBytes + accounted size v) } k v := by
  have hobj : ∀ p, p ≠ l.queue.objs.length →
      (l.queue.objs ++ [(⟨k, v, 0, 0⟩ : entry V)])[p]? = l.queue.objs[p]? := by
    intro p hp
    by_cases hlt : p < l.queue.objs.length
    · exact List.getElem?_append_left hlt
    · rw [List.getElem?_eq_none (by simp; omega), List.getElem?_eq_none (by omega)]
  have hx : (l.queue.objs ++ [(⟨k, v, 0, 0⟩ : entry V)])[l.queue.objs.length]? =
      some ⟨k, v, 0, 0⟩ := List.getElem?_concat_length _ _
  have hnew : l.queue.objs.length ∉ l.queue.ptrs := fun hm => by
    have := hinv.ptr_lt hm; omega
  have hne : ∀ p ∈ l.queue.ptrs, p ≠ l.queue.objs.length := fun p hp e => hnew (e ▸ hp)
  have hv0 : Valid ({ l.queue with objs := l.queue.objs ++ [⟨k, v, 0, 0⟩] } : queue V) := by
    refine ⟨hinv.valid.nodup, ?_⟩
    intro i p hp
    simp only at hp ⊢
    rw [hobj p (hne p (List.mem_iff_getElem?.2 ⟨i, hp⟩))]
    exact hinv.valid.index i p hp
  have hW : ∀ i, ({ l.queue with objs := l.queue.objs ++ [⟨k, v, 0, 0⟩] } : queue V).W i =
      l.queue.W i := by
    intro i
    unfold queue.W queue.deref
    simp only
    cases hp : l.queue.ptrs[i]? with
    | none => rfl
    | some p =>
      simp only
      rw [hobj p (hne p (List.mem_iff_getElem?.2 ⟨i, hp⟩))]
  have hh0 : IsHeap ({ l.queue with objs := l.queue.objs ++ [⟨k, v, 0, 0⟩] } : queue V) :=
    HeapOrd.congr hinv.heap (fun i _ => hW i)
  obtain ⟨q1, hpush, hv1, hs1, hperm1, hheap1⟩ := heapPush_spec hv0 hx hnew
  obtain ⟨en, hen, hk, hval, hw⟩ := hs1.some hx
  simp only at hk hval hw hperm1
  have hdata : ∀ p, p ≠ l.queue.objs.length →
      (q1.objs[p]?).map entry.data = (l.queue.objs[p]?).map entry.data := by
    intro p hp
    rw [hs1 p]
    simp only
    rw [hobj p hp]
  have hcache : mapSet l.cache k l.queue.objs.length = (k, l.queue.objs.length) :: l.cache := by
    unfold mapSet; rw [mapDelete_of_absent h]
  refine ⟨q1, en, hpush, hen, hk, hval, hw, hperm1, hdata,
    ⟨⟨hv1, hheap1 hh0, ?_, ?_, ?_, ?_⟩, rfl, rfl, rfl, rfl, ?_, rfl, ?_, ?_, ?_⟩⟩
  · simp only
    rw [hcache, List.map_cons, List.nodup_cons]
    exact ⟨mapGet_none_iff.1 h, hinv.keys⟩
  · simp only
    rw [hcache, List.map_cons]
    exact (hinv.ptrs.cons _).trans hperm1.symm
  · intro k2 p2 hkp
    simp only at hkp ⊢
    rw [hcache] at hkp
    rcases List.mem_cons.1 hkp with h1 | h1
    · cases h1; exact ⟨en, hen, hk⟩
    · obtain ⟨e, he, hke⟩ := hinv.key k2 p2 h1
      have hp2 : p2 ≠ l.queue.objs.length := by
        have := (List.getElem?_eq_some.1 he).1; omega
      have := hdata p2 hp2
      rw [he] at this
      cases h4 : q1.objs[p2]? with
      | none => rw [h4] at this; simp at this
      | some e4 =>
        rw [h4] at this
        simp only [Option.map_some', Option.some.injEq, entry.data, Prod.mk.injEq] at this
        exact ⟨e4, rfl, this.1.trans hke⟩
  · simp only
    rw [(hperm1.map _).sum_eq, List.map_cons, List.sum_cons, hinv.used,
      sum_acct_congr size (q := l.queue) (r := q1) l.queue.ptrs
        (fun p hp => acct_of_data size (hdata p (hne p hp)))]
    have : q1.acct size l.queue.objs.length = accounted size v := by
      simp [queue.acct, hen, entry.Len, accounted, hval]
    rw [this]; unfold wrap; omega
  · have := hperm1.length_eq
    simp only [List.length_cons] at this
    simp [lfu.Len, queue.Len, this]
  · refine (view_of_get (p := l.queue.objs.length) ?_).trans ?_
    · simp only; rw [hcache]; simp [mapGet]
    · simp [hen, hval, hw]
  · intro k2 hk2
    have hg2 : mapGet (mapSet l.cache k l.queue.objs.length) k2 = mapGet l.cache k2 := by
      rw [hcache]
      conv_lhs => unfold mapGet
      rw [if_neg (fun e => hk2 e.symm)]
    cases hg : mapGet l.cache k2 with
    | none =>
      rw [view_of_absent hg]
      exact view_of_absent (by simp only; rw [hg2, hg])
    | some p =>
      rw [view_of_get hg]
      refine (view_of_get (p := p) ?_).trans ?_
      · simp only; rw [hg2, hg]
      · obtain ⟨e, _, he, _⟩ := hinv.of_get hg
        have hp2 : p ≠ l.queue.objs.length := by
          have := (List.getElem?_eq_some.1 he).1; omega
        exact view_of_data (hdata p hp2)
  · intro y e hy he hw0
    simp only
    have hyl : 0 < l.queue.ptrs.length := (List.getElem?_eq_some.1 hy).1
    have hw : l.queue.W 0 = e.weight := W_of_ptr hy he
    have hroot := heapPush_root hv0 hx hnew hyl
      (fun i hi => by rw [hW 0, hW i]; exact hinv.heap.root_le i hi)
      (by rw [hW 0, hw]; exact hw0) hpush
    simp only at hroot
    have hy2 : y ≠ l.queue.objs.length := by
      have := (List.getElem?_eq_some.1 he).1; omega
    have hd := hdata y hy2
    rw [he] at hd
    cases h4 : q1.objs[y]? with
    | none => rw [h4] at hd; simp at hd
    | some e4 =>
      rw [h4] at hd
      simp only [Option.map_some', Option.some.injEq, entry.data, Prod.mk.injEq] at hd
      exact ⟨e4, by rw [hroot, hy], rfl, hd.1, hd.2.1, hd.2.2⟩

end LFU

namespace LFU

/-- In a state satisfying the invariant the object at the root of the heap has
the least weight of all entries. -/
theorem root_min {V : Type} {size : Option V → Int} {l : lfu V} (hinv : Inv size l)
    {y : Nat} {en : entry V} (hy : l.queue.ptrs[0]? = some y)
    (hen : l.queue.objs[y]? = some en) :
    ∀ k e, l.find k = some e → en.weight ≤ e.weight := by
  intro k e hf
  unfold lfu.find at hf
  cases hg : mapGet l.cache k with
  | none => rw [hg] at hf; cases hf
  | some p =>
    rw [hg] at hf
    simp only at hf
    obtain ⟨e2, i, he2, _, hi, _⟩ := hinv.of_get hg
    rw [hf] at he2; cases he2
    have := hinv.heap.root_le i (List.getElem?_eq_some.1 hi).1
    rw [W_of_ptr hy hen, W_of_ptr hi hf] at this
    exact this

/-- The lines `l.removeElement(heap.Pop(l.queue))` on a non-empty cache. -/
theorem evict_spec {V : Type} {size : Option V → Int} {l : lfu V} (hinv : Inv size l)
    (hlen : 0 < l.queue.ptrs.length) :
    ∃ q2 y l2 en, heapPop l.queue = some (q2, y) ∧ l.queue.ptrs[0]? = some y ∧
      l.queue.objs[y]? = some en ∧
      lfu.removeElement size { l with queue := q2 } (some y) = some l2 ∧
      Removed size l l2 en ∧ ∀ k e, l.find k = some e → en.weight ≤ e.weight := by
  obtain ⟨q2, y, hpop, hv2, hs, hy, hperm, hheap⟩ := heapPop_spec hinv.valid hlen
  obtain ⟨en, l2, hen, _, hrem, _, hR⟩ := remove_removed hinv hv2 hs hperm (hheap hinv.heap)
  exact ⟨q2, y, l2, en, hpop, hy, hen, hrem, hR, root_min hinv hy hen⟩

theorem DelOldest_empty {V : Type} (size : Option V → Int) {l : lfu V} (h : l.Len = 0) :
    l.DelOldest size = some l := by
  unfold lfu.DelOldest
  rw [if_pos (show l.queue.Len = 0 from h)]

theorem DelOldest_spec {V : Type} {size : Option V → Int} {l : lfu V} (hinv : Inv size l)
    (hlen : l.Len ≠ 0) :
    ∃ l2 en, l.DelOldest size = some l2 ∧ Removed size l l2 en ∧
      (∀ k e, l.find k = some e → en.weight ≤ e.weight) ∧
      ∃ y, l.queue.ptrs[0]? = some y ∧ l.queue.objs[y]? = some en := by
  have hpos : 0 < l.queue.ptrs.length := Nat.pos_of_ne_zero hlen
  obtain ⟨q2, y, l2, en, hpop, hy, hen, hrem, hR, hmin⟩ := evict_spec hinv hpos
  refine ⟨l2, en, ?_, hR, hmin, y, hy, hen⟩
  unfold lfu.DelOldest
  rw [if_neg (show ¬ l.queue.Len = 0 from hlen), hpop]
  exact hrem

theorem Del_absent {V : Type} (size : Option V → Int) {l : lfu V} {k : String}
    (h : mapGet l.cache k = none) : l.Del size k = some l := by
  unfold lfu.Del
  rw [h]

theorem Del_spec {V : Type} {size : Option V → Int} {l : lfu V} (hinv : Inv size l)
    {k : String} {p : Nat} (h : mapGet l.cache k = some p) :
    ∃ l2 e, l.Del size k = some l2 ∧ e.key = k ∧ l.queue.objs[p]? = some e ∧
      Removed size l l2 e := by
  obtain ⟨e, i, he, hek, hi, hidx⟩ := hinv.of_get h
  obtain ⟨q2, x, hrm, hv2, hs, hx, hperm, hheap⟩ :=
    heapRemove_spec (i := i) hinv.valid (List.getElem?_eq_some.1 hi).1
  rw [hi] at hx; cases hx
  obtain ⟨en, l2, hen, _, hrem, _, hR⟩ := remove_removed hinv hv2 hs hperm (hheap hinv.heap)
  rw [he] at hen; cases hen
  refine ⟨l2, e, ?_, hek, he, hR⟩
  unfold lfu.Del
  rw [h]
  simp only [he, hidx, hrm]
  exact hrem

theorem Get_absent {V : Type} {l : lfu V} {k : String} (h : mapGet l.cache k = none) :
    l.Get k = some (l, none) := by
  unfold lfu.Get
  rw [h]

theorem Get_spec {V : Type} {size : Option V → Int} {l : lfu V} (hinv : Inv size l)
    {k : String} {p : Nat} (h : mapGet l.cache k = some p) :
    ∃ l2 e, l.Get k = some (l2, e.value) ∧ Touched size l l2 k e.value e ∧
      l2.usedBytes = l.usedBytes := by
  obtain ⟨e, _, he0, _, _, _⟩ := hinv.of_get h
  obtain ⟨e1, q2, he, hupd, ⟨e2, he2, hval2⟩, hT, _⟩ := touch_spec hinv h e.value
  rw [he0] at he; cases he
  have he : l.queue.objs[p]? = some e := he0
  have hu : wrap (wrap (l.usedBytes - CalcLen size e.value) + CalcLen size e.value)
      = l.usedBytes := by
    rw [hinv.used]; unfold wrap; omega
  rw [hu] at hT
  refine ⟨{ l with queue := q2 }, e, ?_, hT, rfl⟩
  unfold lfu.Get
  rw [h]
  simp only [he, hupd, he2, hval2]

theorem Set_present {V : Type} {size : Option V → Int} {l : lfu V} (hinv : Inv size l)
    {k : String} {p : Nat} (h : mapGet l.cache k = some p) (v : Option V) :
    ∃ l2 e, l.Set size k v = some l2 ∧ Touched size l l2 k v e ∧
      l2.usedBytes = wrap (wrap (l.usedBytes - CalcLen size e.value) + CalcLen size v) := by
  obtain ⟨e, q2, he, hupd, _, hT, hu⟩ := touch_spec hinv h v
  refine ⟨_, e, ?_, hT, hu⟩
  unfold lfu.Set
  rw [h]
  simp only [he, hupd]

theorem Set_absent {V : Type} {size : Option V → Int} {l : lfu V} (hinv : Inv size l)
    {k : String} (h : mapGet l.cache k = none) (v : Option V) :
    ∃ l1, Inserted size l l1 k v ∧
      (¬ (l.maxBytes > 0 ∧ wrap (l.usedBytes + accounted size v) > l.maxBytes) →
        l.Set size k v = some l1) ∧
      ((l.maxBytes > 0 ∧ wrap (l.usedBytes + accounted size v) > l.maxBytes) →
        ∃ l2 en, l.Set size k v = some l2 ∧ Removed size l1 l2 en ∧
          (∀ k2 e, l1.find k2 = some e → en.weight ≤ e.weight) ∧
          ∃ y, l1.queue.ptrs[0]? = some y ∧ l1.queue.objs[y]? = some en) := by
  obtain ⟨q1, en, hpush, hen, _, hval, _, hperm, _, hI⟩ := insert_spec hinv h v
  have hLen : en.Len size = accounted size v := by simp [entry.Len, accounted, hval]
  refine ⟨_, hI, ?_, ?_⟩
  · intro hno
    unfold lfu.Set
    rw [h]
    simp only [hpush, hen, hLen]
    rw [if_neg hno]
  · intro hover
    have hpos : 0 < q1.ptrs.length := by
      rw [hperm.length_eq]; simp
    obtain ⟨q2, y, l2, en2, hpop, hy, hen2, hrem, hR, hmin⟩ := evict_spec hI.inv hpos
    refine ⟨l2, en2, ?_, hR, hmin, y, hy, hen2⟩
    unfold lfu.Set
    rw [h]
    simp only [hpush, hen, hLen]
    rw [if_pos hover]
    simp only at hpop
    rw [hpop]
    exact hrem

end LFU

namespace LFU

/-! ## Every call returns and keeps the invariant -/

theorem Get_total {V : Type} {size : Option V → Int} {l : lfu V} (hinv : Inv size l)
    (k : String) : ∃ l2 r, l.Get k = some (l2, r) ∧ Inv size l2 := by
  cases h : mapGet l.cache k with
  | none => exact ⟨l, none, Get_absent h, hinv⟩
  | some p =>
    obtain ⟨l2, e, hg, hT, _⟩ := Get_spec hinv h
    exact ⟨l2, e.value, hg, hT.inv⟩

theorem Set_total {V : Type} {size : Option V → Int} {l : lfu V} (hinv : Inv size l)
    (k : String) (v : Option V) : ∃ l2, l.Set size k v = some l2 ∧ Inv size l2 := by
  cases h : mapGet l.cache k with
  | some p =>
    obtain ⟨l2, e, hs, hT, _⟩ := Set_present hinv h v
    exact ⟨l2, hs, hT.inv⟩
  | none =>
    obtain ⟨l1, hI, hno, hover⟩ := Set_absent hinv h v
    by_cases hc : l.maxBytes > 0 ∧ wrap (l.usedBytes + accounted size v) > l.maxBytes
    · obtain ⟨l2, en, hs, hR, _⟩ := hover hc
      exact ⟨l2, hs, hR.inv⟩
    · exact ⟨l1, hno hc, hI.inv⟩

theorem Del_total {V : Type} {size : Option V → Int} {l : lfu V} (hinv : Inv size l)
    (k : String) : ∃ l2, l.Del size k = some l2 ∧ Inv size l2 := by
  cases h : mapGet l.cache k with
  | none => exact ⟨l, Del_absent size h, hinv⟩
  | some p =>
    obtain ⟨l2, e, hd, _, _, hR⟩ := Del_spec hinv h
    exact ⟨l2, hd, hR.inv⟩

theorem DelOldest_total {V : Type} {size : Option V → Int} {l : lfu V} (hinv : Inv size l) :
    ∃ l2, l.DelOldest size = some l2 ∧ Inv size l2 := by
  by_cases h : l.Len = 0
  · exact ⟨l, DelOldest_empty size h, hinv⟩
  · obtain ⟨l2, en, hd, hR, _⟩ := DelOldest_spec hinv h
    exact ⟨l2, hd, hR.inv⟩

theorem step_total {V : Type} {size : Option V → Int} {l : lfu V} (hinv : Inv size l)
    (op : Op V) : ∃ l2, step size l op = some l2 ∧ Inv size l2 := by
  cases op with
  | get k =>
    obtain ⟨l2, r, hg, hi⟩ := Get_total hinv k
    exact ⟨l2, by simp [step, hg], hi⟩
  | set k v => exact Set_total hinv k v
  | del k => exact Del_total hinv k
  | delOldest => exact DelOldest_total hinv

theorem step_inv {V : Type} {size : Option V → Int} {l l2 : lfu V} (hinv : Inv size l)
    {op : Op V} (h : step size l op = some l2) : Inv size l2 := by
  obtain ⟨l3, h3, hi⟩ := step_total hinv op
  rw [h] at h3; cases h3; exact hi

theorem run_cons {V : Type} (size : Option V → Int) (l : lfu V) (op : Op V)
    (ops : List (Op V)) :
    run size l (op :: ops) = (step size l op).bind (fun l1 => run size l1 ops) := by
  conv_lhs => unfold run
  cases step size l op <;> rfl

theorem run_append {V : Type} (size : Option V → Int) (ops1 ops2 : List (Op V)) :
    ∀ l : lfu V, run size l (ops1 ++ ops2) = (run size l ops1).bind (fun l1 => run size l1 ops2) := by
  induction ops1 with
  | nil => intro l; simp [run]
  | cons op ops ih =>
    intro l
    rw [List.cons_append, run_cons, run_cons]
    cases step size l op with
    | none => rfl
    | some l1 => simp only [Option.some_bind]; exact ih l1

theorem run_total {V : Type} {size : Option V → Int} (ops : List (Op V)) :
    ∀ {l : lfu V}, Inv size l → ∃ l2, run size l ops = some l2 ∧ Inv size l2 := by
  induction ops with
  | nil => intro l hinv; exact ⟨l, rfl, hinv⟩
  | cons op ops ih =>
    intro l hinv
    obtain ⟨l1, h1, hi1⟩ := step_total hinv op
    obtain ⟨l2, h2, hi2⟩ := ih hi1
    exact ⟨l2, by rw [run_cons, h1]; exact h2, hi2⟩

theorem run_inv {V : Type} {size : Option V → Int} {ops : List (Op V)} {l l2 : lfu V}
    (hinv : Inv size l) (h : run size l ops = some l2) : Inv size l2 := by
  obtain ⟨l3, h3, hi⟩ := run_total ops hinv
  rw [h] at h3; cases h3; exact hi

theorem Reachable.inv {V : Type} {size : Option V → Int} {l : lfu V}
    (h : Reachable size l) : Inv size l := by
  obtain ⟨mb, cb, ops, hrun⟩ := h
  exact run_inv (Inv.new size mb cb) hrun

theorem Reachable.after {V : Type} {size : Option V → Int} {l l2 : lfu V}
    (h : Reachable size l) {op : Op V} (hs : step size l op = some l2) :
    Reachable size l2 := by
  obtain ⟨mb, cb, ops, hrun⟩ := h
  refine ⟨mb, cb, ops ++ [op], ?_⟩
  rw [run_append, hrun]
  simp [run, hs]

end LFU

namespace LFU

/-! ## The claims -/

theorem sum_acct_entries {V : Type} (size : Option V → Int) (q : queue V) (l : List Nat) :
    wrap ((l.map (q.acct size)).sum) =
      wrap (((l.filterMap (fun p => q.objs[p]?)).map (fun e => CalcLen size e.value + 8)).sum) := by
  induction l with
  | nil => rfl
  | cons p t ih =>
    rw [List.map_cons, List.sum_cons]
    cases h : q.objs[p]? with
    | none =>
      simp only [List.filterMap_cons, h, queue.acct, zero_add]
      exact ih
    | some e =>
      simp only [List.filterMap_cons, h, queue.acct, entry.Len, List.map_cons, List.sum_cons]
      unfold wrap at ih ⊢
      omega

theorem entries_length {V : Type} {q : queue V} (hv : Valid q) :
    q.entries.length = q.ptrs.length := by
  unfold queue.entries
  have : ∀ l : List Nat, (∀ p ∈ l, ∃ e, q.objs[p]? = some e) →
      (l.filterMap (fun p => q.objs[p]?)).length = l.length := by
    intro l
    induction l with
    | nil => intro _; rfl
    | cons p t ih =>
      intro h
      obtain ⟨e, he⟩ := h p (List.mem_cons_self _ _)
      simp only [List.filterMap_cons, he, List.length_cons]
      rw [ih (fun p2 hp2 => h p2 (List.mem_cons_of_mem _ hp2))]
  apply this
  intro p hp
  obtain ⟨i, hi⟩ := List.mem_iff_getElem?.1 hp
  obtain ⟨e, he, _⟩ := hv.index i p hi
  exact ⟨e, he⟩

/-- C2: in every state reachable from `New`, the keys of the table and the nodes
of the queue are in bijection: a mapped key `k` has exactly one queue position
whose entry carries `k`, and that position holds the pointer the table maps `k`
to; the key of every queue node is mapped to that node; no key is mapped twice;
hence `Len()` is the number of mapped keys and the length of the queue. -/
theorem C2_table_queue_bijection {V : Type} (size : Option V → Int) (l : lfu V)
    (h : Reachable size l) :
    (∀ k p, mapGet l.cache k = some p →
      ∃ i e, l.queue.ptrs[i]? = some p ∧ l.queue.objs[p]? = some e ∧ e.key = k ∧
        ∀ j e2, l.queue.deref j = some e2 → e2.key = k → j = i) ∧
    (∀ j e, l.queue.deref j = some e →
      ∃ p, l.queue.ptrs[j]? = some p ∧ mapGet l.cache e.key = some p) ∧
    (l.cache.map Prod.fst).Nodup ∧
    l.Len = (l.cache.map Prod.fst).length ∧ l.Len = l.queue.ptrs.length := by
  have hinv := h.inv
  have hnode : ∀ j e, l.queue.deref j = some e →
      ∃ p, l.queue.ptrs[j]? = some p ∧ mapGet l.cache e.key = some p := by
    intro j e hj
    unfold queue.deref at hj
    cases hp : l.queue.ptrs[j]? with
    | none => rw [hp] at hj; cases hj
    | some p =>
      rw [hp] at hj
      simp only at hj
      obtain ⟨e2, he2, hg⟩ := hinv.of_ptr (List.mem_iff_getElem?.2 ⟨j, hp⟩)
      rw [hj] at he2; cases he2
      exact ⟨p, rfl, hg⟩
  refine ⟨?_, hnode, hinv.keys, ?_, rfl⟩
  · intro k p hg
    obtain ⟨e, i, he, hk, hi, _⟩ := hinv.of_get hg
    refine ⟨i, e, hi, he, hk, ?_⟩
    intro j e2 hj hk2
    obtain ⟨p2, hp2, hg2⟩ := hnode j e2 hj
    rw [hk2, hg] at hg2
    cases hg2
    exact getElem?_inj_of_nodup hinv.valid.nodup hp2 hi
  · rw [hinv.len_eq, List.length_map]

/-- C2 at the state `ex1`, reached by `Set("k1", 1); Set("k2", 2); Get("k1")`. -/
theorem C2_table_queue_bijection_witness :
    Reachable size8 ex1 ∧ ex1.Len = (ex1.cache.map Prod.fst).length ∧
      ex1.Len = ex1.queue.ptrs.length :=
  ⟨⟨0, false, ex1Ops, rfl⟩, (C2_table_queue_bijection size8 ex1 ⟨0, false, ex1Ops, rfl⟩).2.2.2⟩

/-- C3: in every state reachable from `New` the queue is a min-heap: for every
position `0 < i < Len()` the entries at the parent position `(i - 1) / 2` and at
`i` exist and the parent's weight is at most the weight at `i`. -/
theorem C3_min_heap {V : Type} (size : Option V → Int) (l : lfu V) (h : Reachable size l) :
    ∀ i, 0 < i → i < l.Len →
      ∃ a b, l.queue.deref ((i - 1) / 2) = some a ∧ l.queue.deref i = some b ∧
        a.weight ≤ b.weight := by
  intro i hi0 hil
  have hinv := h.inv
  have hil2 : i < l.queue.ptrs.length := hil
  obtain ⟨pa, a, hpa, ha, _⟩ := hinv.valid.ptr (i := (i - 1) / 2) (by omega)
  obtain ⟨pb, b, hpb, hb, _⟩ := hinv.valid.ptr hil2
  refine ⟨a, b, by rw [deref_eq hpa]; exact ha, by rw [deref_eq hpb]; exact hb, ?_⟩
  have := hinv.heap i hi0 hil2
  rw [W_of_ptr hpa ha, W_of_ptr hpb hb] at this
  exact this

/-- C3 at the state `ex1`: position 1 and its parent 0. -/
theorem C3_min_heap_witness :
    Reachable size8 ex1 ∧ ∃ a b, ex1.queue.deref ((1 - 1) / 2) = some a ∧
      ex1.queue.deref 1 = some b ∧ a.weight ≤ b.weight :=
  ⟨⟨0, false, ex1Ops, rfl⟩,
    C3_min_heap size8 ex1 ⟨0, false, ex1Ops, rfl⟩ 1 (by decide) (by decide)⟩

/-- C4, as the code has it: in every state reachable from `New`, `usedBytes` is
the sum over the live entries (one per queue position) of `size(value) + 8`
computed in the wrapping arithmetic of a Go `int`, that is, the Go `int`
congruent to that sum modulo `2^64`; it is the sum itself whenever the sum is a
Go `int`; in particular it is `0` when the cache is empty. -/
theorem C4_usedBytes_is_wrapped_sum {V : Type} (size : Option V → Int) (l : lfu V)
    (h : Reachable size l) :
    l.queue.entries.length = l.Len ∧
    l.usedBytes = wrap ((l.queue.entries.map (fun e => CalcLen size e.value + 8)).sum) ∧
    (fitsInt ((l.queue.entries.map (fun e => CalcLen size e.value + 8)).sum) →
      l.usedBytes = (l.queue.entries.map (fun e => CalcLen size e.value + 8)).sum) ∧
    (l.Len = 0 → l.usedBytes = 0) := by
  have hinv := h.inv
  have hsum : l.usedBytes =
      wrap ((l.queue.entries.map (fun e => CalcLen size e.value + 8)).sum) := by
    rw [hinv.used, sum_acct_entries]; rfl
  refine ⟨entries_length hinv.valid, hsum, ?_, ?_⟩
  · intro hf
    rw [hsum, wrap_of_fitsInt hf]
  · intro h0
    have : l.queue.ptrs = [] := List.length_eq_zero.1 h0
    rw [hsum]
    simp [queue.entries, this, wrap]

/-- C4 at the state `ex1`: two entries of 8 + 8 bytes each, 32 bytes in all. -/
theorem C4_usedBytes_is_wrapped_sum_witness :
    Reachable size8 ex1 ∧
      fitsInt ((ex1.queue.entries.map (fun e => CalcLen size8 e.value + 8)).sum) ∧
      ex1.usedBytes = (ex1.queue.entries.map (fun e => CalcLen size8 e.value + 8)).sum ∧
      ex1.usedBytes = 32 :=
  ⟨⟨0, false, ex1Ops, rfl⟩, by decide,
    (C4_usedBytes_is_wrapped_sum size8 ex1 ⟨0, false, ex1Ops, rfl⟩).2.2.1 (by decide), rfl⟩

/-- C4 as stated fails: after `Set("a", x); Set("b", x)` on `New(2^63 - 1, cb)`,
with `x` of size `2^62`, both entries are live, the sum of `size(value) + 8`
over them is `2^63 + 16`, and `usedBytes` is `-2^63 + 16`. -/
theorem C4_overflow_counterexample :
    run sizeOwn (New maxInt true) ex7Ops = some ex7 ∧ ex7.Len = 2 ∧ ex7.evicted = [] ∧
      (ex7.queue.entries.map (fun e => sizeOwn e.value + 8)).sum = 9223372036854775824 ∧
      ex7.usedBytes = -9223372036854775792 ∧
      ex7.usedBytes ≠ (ex7.queue.entries.map (fun e => sizeOwn e.value + 8)).sum :=
  ⟨rfl, rfl, rfl, by decide, rfl, by decide⟩

end LFU

namespace LFU

theorem view_some_iff {V : Type} {l : lfu V} {k : String} {v : Option V} {w : Int} :
    l.view k = some (v, w) ↔ ∃ e, l.find k = some e ∧ e.value = v ∧ e.weight = w := by
  unfold lfu.view
  cases l.find k with
  | none => simp
  | some e => simp

theorem Inv.absent_iff {V : Type} {size : Option V → Int} {l : lfu V} (hinv : Inv size l)
    (k : String) : mapGet l.cache k = none ↔ l.view k = none := by
  constructor
  · exact view_of_absent
  · intro hv
    cases hg : mapGet l.cache k with
    | none => rfl
    | some p =>
      obtain ⟨e, _, he, _⟩ := hinv.of_get hg
      rw [view_of_get hg, he] at hv
      simp at hv

theorem Removed.view_was {V : Type} {size : Option V → Int} {l l2 : lfu V} {en : entry V}
    (h : Removed size l l2 en) : l.view en.key = some (en.value, en.weight) :=
  view_some_iff.2 ⟨en, h.was, rfl, rfl⟩

/-- C5, as the code has it: in a reachable state with `maxBytes > 0`, `Set(k, v)`
of an absent key, where `usedBytes + size(v) + 8` is computed in the wrapping
arithmetic of a Go `int` (`wrap (usedBytes + accounted size v)`).
If that Go `int` exceeds `maxBytes`, the call returns with `Len()` unchanged,
having removed exactly one entry `(ek, ev)` of weight `ew`: the callback (when
one is configured) is invoked once, with `(ek, ev)`; `usedBytes` has grown by
`size(v) + 8` and shrunk by `size(ev) + 8`, in the same arithmetic; the removed
entry is either the entry just inserted or an entry of the state before; its
weight is at most the weight `0` of the new entry and at most the weight of every
entry of the state before; afterwards `ek` is absent and every other key is as
it was just before the eviction.  If it does not exceed `maxBytes`, nothing is
removed and the callback is not invoked.  Whenever the exact sum
`usedBytes + size(v) + 8` is a Go `int`, the Go `int` compared with `maxBytes`
is that sum. -/
theorem C5_set_absent_key_evicts_one_minimum {V : Type} (size : Option V → Int) (l : lfu V)
    (h : Reachable size l) (hmax : l.maxBytes > 0) (k : String) (v : Option V)
    (habs : mapGet l.cache k = none) :
    (wrap (l.usedBytes + accounted size v) > l.maxBytes →
      ∃ l2 ek ev ew, l.Set size k v = some l2 ∧ l2.Len = l.Len ∧
        l2.evicted = (if l.onEvicated then l.evicted ++ [(ek, ev)] else l.evicted) ∧
        l2.usedBytes = wrap (wrap (l.usedBytes + accounted size v) - accounted size ev) ∧
        ((ek = k ∧ ev = v ∧ ew = 0) ∨ (ek ≠ k ∧ l.view ek = some (ev, ew))) ∧
        ew ≤ 0 ∧ (∀ k2 v2 w2, l.view k2 = some (v2, w2) → ew ≤ w2) ∧
        l2.view ek = none ∧
        (∀ k2, k2 ≠ ek → l2.view k2 = if k2 = k then some (v, 0) else l.view k2)) ∧
    (wrap (l.usedBytes + accounted size v) ≤ l.maxBytes →
      ∃ l2, l.Set size k v = some l2 ∧ l2.Len = l.Len + 1 ∧ l2.evicted = l.evicted ∧
        l2.usedBytes = wrap (l.usedBytes + accounted size v) ∧ l2.view k = some (v, 0) ∧
        ∀ k2, k2 ≠ k → l2.view k2 = l.view k2) ∧
    (fitsInt (l.usedBytes + CalcLen size v + 8) →
      wrap (l.usedBytes + accounted size v) = l.usedBytes + CalcLen size v + 8) := by
  have hinv := h.inv
  obtain ⟨l1, hI, hno, hover⟩ := Set_absent hinv habs v
  refine ⟨?_, ?_, ?_⟩
  · intro hc
    obtain ⟨l2, en, hs, hR, hmin, _⟩ := hover ⟨hmax, hc⟩
    have hwas := hR.view_was
    refine ⟨l2, en.key, en.value, en.weight, hs, ?_, ?_, ?_, ?_, ?_, ?_, hR.gone, ?_⟩
    · have h1 := hR.len
      have h2 := hI.len
      omega
    · rw [hR.evicted, hI.onEvicated, hI.evicted]
    · rw [hR.usedBytes, hI.usedBytes]
      rfl
    · by_cases hk : en.key = k
      · left
        rw [hk, hI.now] at hwas
        simp only [Option.some.injEq, Prod.mk.injEq] at hwas
        exact ⟨hk, hwas.1.symm, hwas.2.symm⟩
      · right
        rw [hI.others _ hk] at hwas
        exact ⟨hk, hwas⟩
    · obtain ⟨e, he, _, hw⟩ := view_some_iff.1 hI.now
      have := hmin k e he
      omega
    · intro k2 v2 w2 hv2
      have hk2 : k2 ≠ k := by
        intro e
        rw [e, view_of_absent habs] at hv2
        cases hv2
      rw [← hI.others k2 hk2] at hv2
      obtain ⟨e, he, _, hw⟩ := view_some_iff.1 hv2
      have := hmin k2 e he
      omega
    · intro k2 hk2
      rw [hR.others k2 hk2]
      by_cases hk : k2 = k
      · rw [if_pos hk, hk, hI.now]
      · rw [if_neg hk, hI.others k2 hk]
  · intro hc
    exact ⟨l1, hno (fun hh => by omega), hI.len, hI.evicted, hI.usedBytes, hI.now, hI.others⟩
  · intro hf
    unfold fitsInt at hf
    unfold accounted wrap
    omega

/-- C5 at `ex2` (budget 16, `"k1"` present, 16 bytes used) and `Set("k2", 2)`:
the sum 32 is a Go `int` and exceeds the budget. -/
theorem C5_set_absent_key_evicts_one_minimum_witness :
    Reachable size8 ex2 ∧ ex2.maxBytes > 0 ∧ mapGet ex2.cache "k2" = none ∧
      wrap (ex2.usedBytes + accounted size8 (some 2)) = 32 ∧
      ∃ l2 ek ev ew, ex2.Set size8 "k2" (some 2) = some l2 ∧ l2.Len = ex2.Len ∧
        l2.evicted = (if ex2.onEvicated then ex2.evicted ++ [(ek, ev)] else ex2.evicted) ∧
        l2.usedBytes = wrap (wrap (ex2.usedBytes + accounted size8 (some 2)) - accounted size8 ev) ∧
        ((ek = "k2" ∧ ev = some 2 ∧ ew = 0) ∨ (ek ≠ "k2" ∧ ex2.view ek = some (ev, ew))) ∧
        ew ≤ 0 ∧ (∀ k2 v2 w2, ex2.view k2 = some (v2, w2) → ew ≤ w2) ∧
        l2.view ek = none ∧
        (∀ k2, k2 ≠ ek → l2.view k2 = if k2 = "k2" then some (some 2, 0) else ex2.view k2) :=
  ⟨⟨16, true, ex2Ops, rfl⟩, by decide, by decide, by decide,
    (C5_set_absent_key_evicts_one_minimum size8 ex2 ⟨16, true, ex2Ops, rfl⟩ (by decide) "k2"
      (some 2) (by decide)).1 (by decide)⟩

/-- C5 as stated fails: in the state reached by `Set("a", x)` on
`New(2^63 - 1, cb)`, with `x` of size `2^62`, the key `"b"` is absent and
`usedBytes + size(x) + 8 = 2^63 + 16 > maxBytes`, yet `Set("b", x)` removes
nothing: `Len()` grows to 2, the callback is not invoked and `usedBytes` is
`-2^63 + 16`. -/
theorem C5_overflow_counterexample :
    run sizeOwn (New maxInt true) ex5Ops = some ex5 ∧ ex5.maxBytes > 0 ∧
      mapGet ex5.cache "b" = none ∧
      ex5.usedBytes + sizeOwn (some big) + 8 > ex5.maxBytes ∧
      ∃ l2, ex5.Set sizeOwn "b" (some big) = some l2 ∧ l2.Len = ex5.Len + 1 ∧
        l2.evicted = [] ∧ l2.view "a" = some (some big, 0) ∧
        l2.view "b" = some (some big, 0) ∧ l2.usedBytes = -9223372036854775792 :=
  ⟨rfl, by decide, by decide, by decide, ex7, rfl, rfl, rfl, by decide, by decide, rfl⟩

/-- C8, as the code has it: in a reachable state where `k` is present with value
`v`, `Del(k)` returns; afterwards `k` is absent (`Get(k)` returns nil and changes
nothing), `Len()` is one less, `usedBytes` is `size(v) + 8` less in the wrapping
arithmetic of a Go `int` (exactly `size(v) + 8` less whenever that difference is
a Go `int`), the callback (when one is configured) has been invoked exactly once
more, with `(k, v)`, and every other key is present or absent as before with the
same value and weight. -/
theorem C8_del_present_key {V : Type} (size : Option V → Int) (l : lfu V)
    (h : Reachable size l) (k : String) (v : Option V) (w : Int)
    (hp : l.view k = some (v, w)) :
    ∃ l2, l.Del size k = some l2 ∧ mapGet l2.cache k = none ∧ l2.Get k = some (l2, none) ∧
      l2.Len + 1 = l.Len ∧ l2.usedBytes = wrap (l.usedBytes - (CalcLen size v + 8)) ∧
      (fitsInt (l.usedBytes - (CalcLen size v + 8)) →
        l2.usedBytes = l.usedBytes - (CalcLen size v + 8)) ∧
      l2.evicted = (if l.onEvicated then l.evicted ++ [(k, v)] else l.evicted) ∧
      ∀ k2, k2 ≠ k → l2.view k2 = l.view k2 := by
  have hinv := h.inv
  cases hg : mapGet l.cache k with
  | none => rw [view_of_absent hg] at hp; cases hp
  | some p =>
    obtain ⟨l2, e, hd, hk, he, hR⟩ := Del_spec hinv hg
    have hwas := hR.view_was
    rw [hk, hp] at hwas
    simp only [Option.some.injEq, Prod.mk.injEq] at hwas
    have hgone : mapGet l2.cache k = none := by
      rw [hR.cache, hk, mapGet_mapDelete, if_pos rfl]
    have hu : l2.usedBytes = wrap (l.usedBytes - (CalcLen size v + 8)) := by
      rw [hR.usedBytes]; simp only [entry.Len, ← hwas.1]; unfold wrap; omega
    refine ⟨l2, hd, hgone, Get_absent hgone, hR.len, hu, ?_, ?_, ?_⟩
    · intro hf
      rw [hu, wrap_of_fitsInt hf]
    · rw [hR.evicted, hk, ← hwas.1]
    · intro k2 hk2
      exact hR.others k2 (by rw [hk]; exact hk2)

/-- C8 at `ex1` and the key `"k1"`, whose node is the last of the heap: `usedBytes`
goes from 32 to 16. -/
theorem C8_del_present_key_witness :
    Reachable size8 ex1 ∧ ex1.view "k1" = some (some 1, 1) ∧
      fitsInt (ex1.usedBytes - (CalcLen size8 (some 1) + 8)) ∧
      ∃ l2, ex1.Del size8 "k1" = some l2 ∧ mapGet l2.cache "k1" = none ∧
        l2.Get "k1" = some (l2, none) ∧ l2.Len + 1 = ex1.Len ∧
        l2.usedBytes = wrap (ex1.usedBytes - (CalcLen size8 (some 1) + 8)) ∧
        (fitsInt (ex1.usedBytes - (CalcLen size8 (some 1) + 8)) →
          l2.usedBytes = ex1.usedBytes - (CalcLen size8 (some 1) + 8)) ∧
        l2.evicted = (if ex1.onEvicated then ex1.evicted ++ [("k1", some 1)] else ex1.evicted) ∧
        ∀ k2, k2 ≠ "k1" → l2.view k2 = ex1.view k2 :=
  ⟨⟨0, false, ex1Ops, rfl⟩, by decide, by decide,
    C8_del_present_key size8 ex1 ⟨0, false, ex1Ops, rfl⟩ "k1" (some 1) 1 (by decide)⟩

/-- C8 as stated fails: in the state reached by `Set("a", x); Set("b", x)` on
`New(2^63 - 1, cb)`, with `x` of size `2^62`, the key `"a"` is present with value
`x` and `usedBytes` is `-2^63 + 16`; after `Del("a")`, `usedBytes` is `2^62 + 8`:
it has not decreased by `size(x) + 8`. -/
theorem C8_overflow_counterexample :
    run sizeOwn (New maxInt true) ex7Ops = some ex7 ∧ ex7.view "a" = some (some big, 0) ∧
      ex7.usedBytes = -9223372036854775792 ∧
      ∃ l2, ex7.Del sizeOwn "a" = some l2 ∧ l2.evicted = [("a", some big)] ∧
        l2.usedBytes = 4611686018427387912 ∧
        l2.usedBytes ≠ ex7.usedBytes - (sizeOwn (some big) + 8) :=
  ⟨rfl, by decide, rfl, _, rfl, rfl, rfl, by decide⟩

/-- C9: in a reachable state, `Del(k)` of a key that is not in the table returns
the very same state (table, queue contents and order, `usedBytes`, `Len()` and
the list of callback invocations); and for every key, present or not, a second
`Del(k)` changes nothing after the first. -/
theorem C9_del_absent_key_is_noop {V : Type} (size : Option V → Int) (l : lfu V)
    (h : Reachable size l) (k : String) :
    (mapGet l.cache k = none → l.Del size k = some l) ∧
    ∃ l1, l.Del size k = some l1 ∧ l1.Del size k = some l1 := by
  refine ⟨Del_absent size, ?_⟩
  cases hg : mapGet l.cache k with
  | none => exact ⟨l, Del_absent size hg, Del_absent size hg⟩
  | some p =>
    obtain ⟨l2, e, hd, hk, _, hR⟩ := Del_spec h.inv hg
    refine ⟨l2, hd, Del_absent size ?_⟩
    rw [hR.cache, hk, mapGet_mapDelete, if_pos rfl]

/-- C9 at `ex1` and the absent key `"k3"`. -/
theorem C9_del_absent_key_is_noop_witness :
    Reachable size8 ex1 ∧ mapGet ex1.cache "k3" = none ∧ ex1.Del size8 "k3" = some ex1 :=
  ⟨⟨0, false, ex1Ops, rfl⟩, by decide,
    (C9_del_absent_key_is_noop size8 ex1 ⟨0, false, ex1Ops, rfl⟩ "k3").1 (by decide)⟩

/-- C10, as the code has it: in a reachable non-empty state `DelOldest()`
returns, having removed exactly one entry `(ek, ev)` of weight `ew`, which was
present and whose weight is at most the weight of every entry present before the
call; `ek` is deleted from the table, `Len()` is one less, `usedBytes` is
`size(ev) + 8` less in the wrapping arithmetic of a Go `int` (exactly
`size(ev) + 8` less whenever that difference is a Go `int`), the callback (when
one is configured) has been invoked exactly once more, with `(ek, ev)`, and every
other key keeps its value and weight. -/
theorem C10_delOldest_removes_a_minimum {V : Type} (size : Option V → Int) (l : lfu V)
    (h : Reachable size l) (hne : l.Len ≠ 0) :
    ∃ l2 ek ev ew, l.DelOldest size = some l2 ∧ l.view ek = some (ev, ew) ∧
      (∀ k2 v2 w2, l.view k2 = some (v2, w2) → ew ≤ w2) ∧
      mapGet l2.cache ek = none ∧ l2.view ek = none ∧ l2.Len + 1 = l.Len ∧
      l2.usedBytes = wrap (l.usedBytes - (CalcLen size ev + 8)) ∧
      (fitsInt (l.usedBytes - (CalcLen size ev + 8)) →
        l2.usedBytes = l.usedBytes - (CalcLen size ev + 8)) ∧
      l2.evicted = (if l.onEvicated then l.evicted ++ [(ek, ev)] else l.evicted) ∧
      ∀ k2, k2 ≠ ek → l2.view k2 = l.view k2 := by
  obtain ⟨l2, en, hd, hR, hmin, _⟩ := DelOldest_spec h.inv hne
  have hu : l2.usedBytes = wrap (l.usedBytes - (CalcLen size en.value + 8)) := by
    rw [hR.usedBytes]; simp only [entry.Len]; unfold wrap; omega
  refine ⟨l2, en.key, en.value, en.weight, hd, hR.view_was, ?_, ?_, hR.gone, hR.len, hu, ?_,
    hR.evicted, hR.others⟩
  · intro k2 v2 w2 hv2
    obtain ⟨e, he, _, hw⟩ := view_some_iff.1 hv2
    have := hmin k2 e he
    omega
  · rw [hR.cache, mapGet_mapDelete, if_pos rfl]
  · intro hf
    rw [hu, wrap_of_fitsInt hf]

/-- C10 at `ex1`, whose two entries have the weights 0 and 1. -/
theorem C10_delOldest_removes_a_minimum_witness :
    Reachable size8 ex1 ∧ ex1.Len ≠ 0 ∧
      ∃ l2 ek ev ew, ex1.DelOldest size8 = some l2 ∧ ex1.view ek = some (ev, ew) ∧
        (∀ k2 v2 w2, ex1.view k2 = some (v2, w2) → ew ≤ w2) ∧
        mapGet l2.cache ek = none ∧ l2.view ek = none ∧ l2.Len + 1 = ex1.Len ∧
        l2.usedBytes = wrap (ex1.usedBytes - (CalcLen size8 ev + 8)) ∧
        (fitsInt (ex1.usedBytes - (CalcLen size8 ev + 8)) →
          l2.usedBytes = ex1.usedBytes - (CalcLen size8 ev + 8)) ∧
        l2.evicted = (if ex1.onEvicated then ex1.evicted ++ [(ek, ev)] else ex1.evicted) ∧
        ∀ k2, k2 ≠ ek → l2.view k2 = ex1.view k2 :=
  ⟨⟨0, false, ex1Ops, rfl⟩, by decide,
    C10_delOldest_removes_a_minimum size8 ex1 ⟨0, false, ex1Ops, rfl⟩ (by decide)⟩

/-- C10 as stated fails: in the state reached by `Set("a", x); Set("b", x)` on
`New(2^63 - 1, cb)`, with `x` of size `2^62`, `usedBytes` is `-2^63 + 16`;
`DelOldest()` removes `("a", x)` and leaves `usedBytes` at `2^62 + 8`: it has not
decreased by the accounted size `size(x) + 8` of the removed entry. -/
theorem C10_overflow_counterexample :
    run sizeOwn (New maxInt true) ex7Ops = some ex7 ∧ ex7.Len ≠ 0 ∧
      ex7.usedBytes = -9223372036854775792 ∧
      ∃ l2, ex7.DelOldest sizeOwn = some l2 ∧ l2.evicted = [("a", some big)] ∧
        l2.Len = 1 ∧ l2.usedBytes = 4611686018427387912 ∧
        l2.usedBytes ≠ ex7.usedBytes - (sizeOwn (some big) + 8) :=
  ⟨rfl, by decide, rfl, _, rfl, rfl, rfl, rfl, by decide⟩

end LFU

namespace LFU

/-! ## The effect of one call on the log and on the view of a key -/

theorem Touched.view_before {V : Type} {size : Option V → Int} {l l2 : lfu V} {k : String}
    {v : Option V} {e : entry V} (h : Touched size l l2 k v e) :
    l.view k = some (e.value, e.weight) :=
  view_some_iff.2 ⟨e, h.was, rfl, rfl⟩

theorem Effect.noop {V : Type} {size : Option V → Int} {l : lfu V} (hinv : Inv size l)
    (op : Op V) (hop : ∀ k v, op ≠ .set k v) : Effect size l l op [] := by
  refine ⟨hinv, rfl, rfl, by simp, ?_, Or.inl rfl, ?_, ?_⟩
  · cases op with
    | set k v => exact absurd rfl (hop k v)
    | _ => simp [inserting]
  · intro k
    right
    cases op with
    | set k2 v => exact absurd rfl (hop k2 v)
    | _ => rfl
  · cases op <;> simp

theorem Touched.touch_effect {V : Type} {size : Option V → Int} {l l2 : lfu V} {k : String}
    {v : Option V} {e : entry V} (h : Touched size l l2 k v e) (op : Op V)
    (hop : op = .set k v ∨ (op = .get k ∧ v = e.value)) : Effect size l l2 op [] := by
  have hpres : mapGet l.cache k ≠ none := by
    intro hn
    have := h.view_before
    rw [view_of_absent hn] at this
    cases this
  refine ⟨h.inv, h.onEvicated, h.maxBytes, by simp [h.evicted], ?_, Or.inl rfl, ?_, ?_⟩
  · rcases hop with rfl | ⟨rfl, _⟩
    · simp [inserting, hpres, h.len]
    · simp [inserting, h.len]
  · intro k2
    right
    rcases hop with rfl | ⟨rfl, hv⟩
    · simp only
      split_ifs with hk
      · subst hk; rw [h.now]; rfl
      · rw [h.others k2 (fun e => hk e.symm)]
    · simp only
      by_cases hk : k2 = k
      · subst hk; rw [h.now, h.view_before, hv]; rfl
      · rw [h.others k2 hk]
  · rcases hop with rfl | ⟨rfl, _⟩ <;> simp

theorem Removed.remove_effect {V : Type} {size : Option V → Int} {l l2 : lfu V} {en : entry V}
    (h : Removed size l l2 en) (op : Op V)
    (hop : (op = .del en.key ∧ mapGet l.cache en.key ≠ none) ∨ (op = .delOldest ∧ l.Len ≠ 0)) :
    Effect size l l2 op [(en.key, en.value)] := by
  refine ⟨h.inv, h.onEvicated, h.maxBytes, h.evicted, ?_, ?_, ?_, ?_⟩
  · have := h.len
    rcases hop with ⟨rfl, _⟩ | ⟨rfl, _⟩ <;> simp [inserting] <;> omega
  · exact Or.inr ⟨en.key, en.value, rfl, h.gone, Or.inl ⟨en.weight, h.view_was⟩⟩
  · intro k
    by_cases hk : k = en.key
    · left; rw [hk]; exact h.gone
    · right
      rcases hop with ⟨rfl, _⟩ | ⟨rfl, _⟩ <;> simp only <;> rw [h.others k hk]
  · rcases hop with ⟨rfl, hp⟩ | ⟨rfl, hp⟩
    · simp only; intro hn; exact absurd hn hp
    · simp only; intro hn; exact absurd hn hp

theorem Inserted.insert_effect {V : Type} {size : Option V → Int} {l l2 : lfu V} {k : String}
    {v : Option V} (h : Inserted size l l2 k v) (habs : mapGet l.cache k = none) :
    Effect size l l2 (.set k v) [] := by
  refine ⟨h.inv, h.onEvicated, h.maxBytes, by simp [h.evicted], ?_, Or.inl rfl, ?_, ?_⟩
  · simp [inserting, habs, h.len]
  · intro k2
    right
    simp only
    split_ifs with hk
    · subst hk; rw [h.now]; rfl
    · rw [h.others k2 (fun e => hk e.symm)]
  · simp only; intro hn; exact absurd habs hn

theorem Inserted.effect_evict {V : Type} {size : Option V → Int} {l l1 l2 : lfu V}
    {k : String} {v : Option V} {en : entry V} (h : Inserted size l l1 k v)
    (hR : Removed size l1 l2 en) (habs : mapGet l.cache k = none) :
    Effect size l l2 (.set k v) [(en.key, en.value)] := by
  refine ⟨hR.inv, hR.onEvicated.trans h.onEvicated, hR.maxBytes.trans h.maxBytes, ?_, ?_, ?_, ?_,
    ?_⟩
  · rw [hR.evicted, h.onEvicated, h.evicted]
  · have h1 := hR.len
    have h2 := h.len
    simp [inserting, habs]
    omega
  · refine Or.inr ⟨en.key, en.value, rfl, hR.gone, ?_⟩
    have hwas := hR.view_was
    by_cases hk : en.key = k
    · right
      rw [hk, h.now] at hwas
      simp only [Option.some.injEq, Prod.mk.injEq] at hwas
      rw [hk, ← hwas.1]
      exact ⟨rfl, habs⟩
    · left
      rw [h.others _ hk] at hwas
      exact ⟨en.weight, hwas⟩
  · intro k2
    by_cases hk2 : k2 = en.key
    · left; rw [hk2]; exact hR.gone
    · right
      simp only
      rw [hR.others k2 hk2]
      split_ifs with hk
      · subst hk; rw [h.now]; rfl
      · rw [h.others k2 (fun e => hk e.symm)]
  · simp only; intro hn; exact absurd habs hn

/-- Every call on a state satisfying the invariant returns, and its effect. -/
theorem step_effect {V : Type} {size : Option V → Int} {l : lfu V} (hinv : Inv size l)
    (op : Op V) : ∃ l1 rem, step size l op = some l1 ∧ Effect size l l1 op rem := by
  cases op with
  | get k =>
    cases hg : mapGet l.cache k with
    | none =>
      exact ⟨l, [], by simp [step, Get_absent hg], Effect.noop hinv _ (fun _ _ => by simp)⟩
    | some p =>
      obtain ⟨l2, e, hget, hT, _⟩ := Get_spec hinv hg
      exact ⟨l2, [], by simp [step, hget], hT.touch_effect _ (Or.inr ⟨rfl, rfl⟩)⟩
  | set k v =>
    cases hg : mapGet l.cache k with
    | some p =>
      obtain ⟨l2, e, hs, hT, _⟩ := Set_present hinv hg v
      exact ⟨l2, [], hs, hT.touch_effect _ (Or.inl rfl)⟩
    | none =>
      obtain ⟨l1, hI, hno, hover⟩ := Set_absent hinv hg v
      by_cases hc : l.maxBytes > 0 ∧ wrap (l.usedBytes + accounted size v) > l.maxBytes
      · obtain ⟨l2, en, hs, hR, _⟩ := hover hc
        exact ⟨l2, [(en.key, en.value)], hs, hI.effect_evict hR hg⟩
      · exact ⟨l1, [], hno hc, hI.insert_effect hg⟩
  | del k =>
    cases hg : mapGet l.cache k with
    | none =>
      exact ⟨l, [], Del_absent size hg, Effect.noop hinv _ (fun _ _ => by simp)⟩
    | some p =>
      obtain ⟨l2, e, hd, hk, _, hR⟩ := Del_spec hinv hg
      refine ⟨l2, [(e.key, e.value)], hd, hR.remove_effect _ (Or.inl ⟨by rw [hk], ?_⟩)⟩
      rw [hk, hg]; simp
  | delOldest =>
    by_cases h0 : l.Len = 0
    · exact ⟨l, [], DelOldest_empty size h0, Effect.noop hinv _ (fun _ _ => by simp)⟩
    · obtain ⟨l2, en, hd, hR, _⟩ := DelOldest_spec hinv h0
      exact ⟨l2, [(en.key, en.value)], hd, hR.remove_effect _ (Or.inr ⟨rfl, h0⟩)⟩

end LFU

namespace LFU

/-! ## The callback -/

theorem count_run {V : Type} (size : Option V → Int) (ops : List (Op V)) :
    ∀ l : lfu V, Inv size l → l.onEvicated = true →
      ∃ l2, run size l ops = some l2 ∧ Inv size l2 ∧ l2.onEvicated = true ∧
        l2.evicted.length + l2.Len = l.evicted.length + l.Len + inserts size l ops := by
  induction ops with
  | nil => intro l hinv hcb; exact ⟨l, rfl, hinv, hcb, by simp [inserts]⟩
  | cons op ops ih =>
    intro l hinv hcb
    obtain ⟨l1, rem, hs, hE⟩ := step_effect hinv op
    obtain ⟨l2, hr, hi2, hcb2, hcount⟩ := ih l1 hE.inv (hE.onEvicated.trans hcb)
    refine ⟨l2, by rw [run_cons, hs]; exact hr, hi2, hcb2, ?_⟩
    have h1 := hE.evicted
    rw [hcb, if_pos rfl] at h1
    have h2 := hE.len
    have h3 : l1.evicted.length = l.evicted.length + rem.length := by
      rw [h1, List.length_append]
    unfold inserts
    rw [hs]
    simp only
    omega

/-- C7, as the code has it: on a cache created by `New` with a callback every
sequence of calls returns; the number of callback invocations so far plus `Len()`
is the number of `Set` calls that inserted a key not then present; a further call
returns and invokes the callback at most once, with the key and value of an entry
that was present immediately before the call or of the entry this very call, a
`Set` of an absent key, has just inserted; and `Get`, `Set` of a present key,
`Del` of an absent key and `DelOldest` on an empty cache do not invoke it. -/
theorem C7_callback_once_per_removal {V : Type} (size : Option V → Int) (maxBytes : Int)
    (ops : List (Op V)) :
    ∃ l, run size (New maxBytes true) ops = some l ∧
      l.evicted.length + l.Len = inserts size (New maxBytes true) ops ∧
      ∀ op, ∃ l2, step size l op = some l2 ∧
        (l2.evicted = l.evicted ∨ ∃ key value, l2.evicted = l.evicted ++ [(key, value)] ∧
          ((∃ w, l.view key = some (value, w)) ∨
            (op = .set key value ∧ mapGet l.cache key = none))) ∧
        (match op with
          | .get _ => l2.evicted = l.evicted
          | .set k _ => mapGet l.cache k ≠ none → l2.evicted = l.evicted
          | .del k => mapGet l.cache k = none → l2.evicted = l.evicted
          | .delOldest => l.Len = 0 → l2.evicted = l.evicted) := by
  obtain ⟨l, hrun, hinv, hcb, hcount⟩ := count_run size ops (New maxBytes true)
    (Inv.new size maxBytes true) rfl
  refine ⟨l, hrun, ?_, ?_⟩
  · simpa [New, lfu.Len, queue.Len] using hcount
  · intro op
    obtain ⟨l2, rem, hs, hE⟩ := step_effect hinv op
    have hev := hE.evicted
    rw [hcb, if_pos rfl] at hev
    refine ⟨l2, hs, ?_, ?_⟩
    · rcases hE.removed with h0 | ⟨key, value, hrem, _, hfrom⟩
      · left; rw [hev, h0, List.append_nil]
      · right; exact ⟨key, value, by rw [hev, hrem], hfrom⟩
    · have hq := hE.quiet
      cases op with
      | get k => simp only at hq ⊢; rw [hev, hq, List.append_nil]
      | set k v => simp only at hq ⊢; intro h; rw [hev, hq h, List.append_nil]
      | del k => simp only at hq ⊢; intro h; rw [hev, hq h, List.append_nil]
      | delOldest => simp only at hq ⊢; intro h; rw [hev, hq h, List.append_nil]

/-- C7 as stated fails on `New(16, cb)` after `Set("k1", 1); Get("k1")`: the call
`Set("k2", 2)` invokes the callback with `("k2", 2)`, an entry that was not
present immediately before the call. -/
theorem C7_callback_fresh_entry_counterexample :
    ∃ l l2, run size8 (New 16 true) [.set "k1" (some 1), .get "k1"] = some l ∧
      step size8 l (.set "k2" (some 2)) = some l2 ∧
      l2.evicted = l.evicted ++ [("k2", some 2)] ∧
      mapGet l.cache "k2" = none ∧ l.view "k2" = none :=
  ⟨_, _, rfl, rfl, rfl, rfl, rfl⟩

end LFU

namespace LFU

/-! ## Frequency protection -/

theorem RootIs.view_root {V : Type} {size : Option V → Int} {l : lfu V} (hinv : Inv size l)
    {B : String} {vb : Option V} (h : RootIs l B vb) : l.view B = some (vb, 0) := by
  obtain ⟨y, e, hy, he, hk, hv, hw⟩ := h
  obtain ⟨e2, he2, hg⟩ := hinv.of_ptr (List.mem_iff_getElem?.2 ⟨0, hy⟩)
  rw [he] at he2; cases he2
  rw [hk] at hg
  rw [view_of_get hg, he]
  simp [hv, hw]

/-- With only `A` (weight at least 1) and `B` (weight 0) present, the heap order
puts `B` at the root. -/
theorem TwoKeys.rootKept {V : Type} {size : Option V → Int} {l : lfu V} (hinv : Inv size l)
    {A B : String} {va vb : Option V} {n : Int} (h : TwoKeys l A B va vb n) (hn : 1 ≤ n) :
    RootKept l A B va vb n [] := by
  refine ⟨h.log, h.viewA, ?_, ?_⟩
  · have hB : mapGet l.cache B ≠ none := by
      intro hh
      have := h.viewB
      rw [view_of_absent hh] at this; cases this
    cases hg : mapGet l.cache B with
    | none => exact absurd hg hB
    | some p =>
      obtain ⟨eB, i, heB, _, hi, _⟩ := hinv.of_get hg
      have hlen : 0 < l.queue.ptrs.length := by
        have := (List.getElem?_eq_some.1 hi).1; omega
      obtain ⟨y, e, hy, he, _⟩ := hinv.valid.ptr hlen
      obtain ⟨e2, he2, hgy⟩ := hinv.of_ptr (List.mem_iff_getElem?.2 ⟨0, hy⟩)
      rw [he] at he2; cases he2
      have hview : l.view e.key = some (e.value, e.weight) := by
        rw [view_of_get hgy, he]; rfl
      have hfB : l.find B = some eB := by simp [lfu.find, hg, heB]
      have hwB : eB.weight = 0 := by
        have := h.viewB
        rw [view_of_get hg, heB] at this
        simp only [Option.map_some', Option.some.injEq, Prod.mk.injEq] at this
        exact this.2
      have hmin := root_min hinv hy he B eB hfB
      by_cases hkB : e.key = B
      · rw [hkB, h.viewB] at hview
        simp only [Option.some.injEq, Prod.mk.injEq] at hview
        exact ⟨y, e, hy, he, hkB, hview.1.symm, hview.2.symm⟩
      · by_cases hkA : e.key = A
        · rw [hkA, h.viewA] at hview
          simp only [Option.some.injEq, Prod.mk.injEq] at hview
          omega
        · rw [h.only _ hkA hkB] at hview
          cases hview
  · intro k hk
    by_cases hkA : k = A
    · exact Or.inl hkA
    · by_cases hkB : k = B
      · exact Or.inr (Or.inl hkB)
      · exact absurd (h.only k hkA hkB) hk

theorem RootKept.enlarge {V : Type} {l : lfu V} {A B : String} {va vb : Option V} {n : Int}
    {S T : List String} (h : RootKept l A B va vb n S) (hST : ∀ k ∈ S, k ∈ T) :
    RootKept l A B va vb n T :=
  ⟨h.log, h.viewA, h.root, fun k hk => by
    rcases h.only k hk with h1 | h1 | h1
    · exact Or.inl h1
    · exact Or.inr (Or.inl h1)
    · exact Or.inr (Or.inr (hST k h1))⟩

/-- A `Set` of an absent key with a callback either evicts, which the log
records, or only inserts. -/
theorem Set_fresh {V : Type} {size : Option V → Int} {l : lfu V} (hinv : Inv size l)
    (hcb : l.onEvicated = true) {k : String} (habs : mapGet l.cache k = none) (v : Option V) :
    ∃ l1, Inserted size l l1 k v ∧
      (l.Set size k v = some l1 ∨
        ∃ l2 en, l.Set size k v = some l2 ∧ Removed size l1 l2 en ∧
          l2.evicted = l.evicted ++ [(en.key, en.value)] ∧
          ∃ y, l1.queue.ptrs[0]? = some y ∧ l1.queue.objs[y]? = some en) := by
  obtain ⟨l1, hI, hno, hover⟩ := Set_absent hinv habs v
  refine ⟨l1, hI, ?_⟩
  by_cases hc : l.maxBytes > 0 ∧ wrap (l.usedBytes + accounted size v) > l.maxBytes
  · obtain ⟨l2, en, hs, hR, _, hroot⟩ := hover hc
    refine Or.inr ⟨l2, en, hs, hR, ?_, hroot⟩
    rw [hR.evicted, hI.onEvicated, hcb, if_pos rfl, hI.evicted]
  · exact Or.inl (hno hc)

/-- The two first inserts. -/
theorem two_sets {V : Type} (size : Option V → Int) (maxBytes : Int) {A B : String}
    (hAB : A ≠ B) (va vb : Option V) :
    ∃ l, run size (New maxBytes true) [.set A va, .set B vb] = some l ∧ Inv size l ∧
      l.onEvicated = true ∧ (l.evicted ≠ [] ∨ TwoKeys l A B va vb 0) := by
  have hinv0 := Inv.new size maxBytes true (V := V)
  have hv0 : ∀ k, (New maxBytes true : lfu V).view k = none := fun k => rfl
  obtain ⟨l1, hI1, hcase1⟩ := Set_fresh hinv0 rfl (k := A) rfl va
  have hsecond : ∀ l1 : lfu V, Inv size l1 → l1.onEvicated = true →
      (l1.evicted ≠ [] ∨ (l1.evicted = [] ∧ l1.view A = some (va, 0) ∧
        ∀ k, k ≠ A → l1.view k = none)) →
      ∃ l, l1.Set size B vb = some l ∧ Inv size l ∧ l.onEvicated = true ∧
        (l.evicted ≠ [] ∨ TwoKeys l A B va vb 0) := by
    intro l1 hinv1 hcb1 hst
    obtain ⟨l2, rem, hs, hE⟩ := step_effect hinv1 (.set B vb)
    refine ⟨l2, hs, hE.inv, hE.onEvicated.trans hcb1, ?_⟩
    have hev := hE.evicted
    rw [hcb1, if_pos rfl] at hev
    rcases hst with hne | ⟨hlog, hvA, honly⟩
    · left; rw [hev]; simp [hne]
    · have habsB : mapGet l1.cache B = none :=
        (hinv1.absent_iff B).2 (honly B (fun e => hAB e.symm))
      obtain ⟨l1b, hIb, hcaseb⟩ := Set_fresh hinv1 hcb1 habsB vb
      rcases hcaseb with hsb | ⟨l3, en, hsb, _, hlog3, _⟩
      · have : l2 = l1b := by
          have h1 : step size l1 (.set B vb) = l1.Set size B vb := rfl
          rw [h1, hsb] at hs; exact (Option.some.inj hs).symm
        subst this
        right
        refine ⟨by rw [hIb.evicted, hlog], ?_, hIb.now, ?_⟩
        · rw [hIb.others A hAB, hvA]
        · intro k hkA hkB
          rw [hIb.others k hkB, honly k hkA]
      · have : l2 = l3 := by
          have h1 : step size l1 (.set B vb) = l1.Set size B vb := rfl
          rw [h1, hsb] at hs; exact (Option.some.inj hs).symm
        subst this
        left; rw [hlog3]; simp
  rcases hcase1 with hs1 | ⟨l2, en, hs1, hR, hlog2, _⟩
  · obtain ⟨l, hsB, hinv, hcb, hres⟩ := hsecond l1 hI1.inv (hI1.onEvicated.trans rfl)
      (Or.inr ⟨by rw [hI1.evicted]; rfl, hI1.now, fun k hk => by rw [hI1.others k hk, hv0]⟩)
    refine ⟨l, ?_, hinv, hcb, hres⟩
    rw [run_cons]
    have h1 : step size (New maxBytes true) (.set A va) = (New maxBytes true).Set size A va := rfl
    rw [h1, hs1]
    simp only [Option.some_bind]
    rw [run_cons]
    have h2 : step size l1 (.set B vb) = l1.Set size B vb := rfl
    rw [h2, hsB]
    rfl
  · obtain ⟨l, hsB, hinv, hcb, hres⟩ := hsecond l2 hR.inv
      ((hR.onEvicated.trans hI1.onEvicated).trans rfl) (Or.inl (by rw [hlog2]; simp))
    refine ⟨l, ?_, hinv, hcb, hres⟩
    rw [run_cons]
    have h1 : step size (New maxBytes true) (.set A va) = (New maxBytes true).Set size A va := rfl
    rw [h1, hs1]
    simp only [Option.some_bind]
    rw [run_cons]
    have h2 : step size l2 (.set B vb) = l2.Set size B vb := rfl
    rw [h2, hsB]
    rfl

/-- The reads of `A`. -/
theorem gets_of_A {V : Type} (size : Option V → Int) {A B : String} (hAB : A ≠ B)
    (va vb : Option V) (N : Nat) :
    ∀ (l : lfu V) (n : Int), Inv size l → l.onEvicated = true →
      (l.evicted ≠ [] ∨ TwoKeys l A B va vb n) →
      ∃ l2, run size l (List.replicate N (.get A)) = some l2 ∧ Inv size l2 ∧
        l2.onEvicated = true ∧ (l2.evicted ≠ [] ∨ TwoKeys l2 A B va vb (n + N)) := by
  induction N with
  | zero =>
    intro l n hinv hcb hst
    exact ⟨l, rfl, hinv, hcb, by simpa using hst⟩
  | succ N ih =>
    intro l n hinv hcb hst
    obtain ⟨l1, rem, hs, hE⟩ := step_effect hinv (.get A)
    have hq : rem = [] := hE.quiet
    have hev : l1.evicted = l.evicted := by
      rw [hE.evicted, hcb, if_pos rfl, hq, List.append_nil]
    have hst1 : l1.evicted ≠ [] ∨ TwoKeys l1 A B va vb (n + 1) := by
      rcases hst with hne | hT
      · left; rw [hev]; exact hne
      · right
        have hpres : mapGet l.cache A ≠ none := by
          intro hh
          have := hT.viewA
          rw [view_of_absent hh] at this; cases this
        cases hg : mapGet l.cache A with
        | none => exact absurd hg hpres
        | some p =>
          obtain ⟨l2, e, hget, hTo, _⟩ := Get_spec hinv hg
          have : l1 = l2 := by
            have h1 : step size l (.get A) = (l.Get A).map Prod.fst := rfl
            rw [h1, hget] at hs
            exact (Option.some.inj hs).symm
          subst this
          have hwas := hTo.view_before
          rw [hT.viewA] at hwas
          simp only [Option.some.injEq, Prod.mk.injEq] at hwas
          refine ⟨by rw [hev, hT.log], ?_, ?_, ?_⟩
          · rw [hTo.now, ← hwas.1, ← hwas.2]
          · rw [hTo.others B (fun e => hAB e.symm), hT.viewB]
          · intro k hkA hkB
            rw [hTo.others k hkA, hT.only k hkA hkB]
    obtain ⟨l2, hr, hinv2, hcb2, hres⟩ := ih l1 (n + 1) hE.inv (hE.onEvicated.trans hcb) hst1
    refine ⟨l2, ?_, hinv2, hcb2, ?_⟩
    · rw [List.replicate_succ, run_cons, hs]; exact hr
    · rcases hres with h | h
      · exact Or.inl h
      · right
        have : n + 1 + (N : Int) = n + ((N + 1 : Nat) : Int) := by push_cast; ring
        rw [← this]; exact h

/-- One insert of a fresh key while `B` is at the root: either `B` stays at the
root and nothing is evicted, or `B` is the entry evicted and `A` stays. -/
theorem fresh_insert {V : Type} {size : Option V → Int} {l : lfu V} (hinv : Inv size l)
    (hcb : l.onEvicated = true) {A B : String} (hAB : A ≠ B) {va vb : Option V} {n : Int}
    {S : List String} (hP : RootKept l A B va vb n S) {k : String} (hkA : k ≠ A) (hkB : k ≠ B)
    (hkS : k ∉ S) (v : Option V) :
    ∃ l2, l.Set size k v = some l2 ∧ Inv size l2 ∧ l2.onEvicated = true ∧
      (RootKept l2 A B va vb n (k :: S) ∨
        (l2.evicted = [(B, vb)] ∧ l2.view A = some (va, n) ∧ l2.view B = none)) := by
  have habs : mapGet l.cache k = none := by
    rw [hinv.absent_iff]
    by_contra hne
    rcases hP.only k hne with h | h | h
    · exact hkA h
    · exact hkB h
    · exact hkS h
  obtain ⟨l1, hI, hcase⟩ := Set_fresh hinv hcb habs v
  obtain ⟨y, e, hy, he, hek, hev, hew⟩ := hP.root
  obtain ⟨e1, hy1, he1, hk1, hv1, hw1⟩ := hI.root y e hy he (by omega)
  rcases hcase with hs | ⟨l2, en, hs, hR, hlog, y2, hy2, hen⟩
  · refine ⟨l1, hs, hI.inv, hI.onEvicated.trans hcb, Or.inl ⟨?_, ?_, ?_, ?_⟩⟩
    · rw [hI.evicted, hP.log]
    · rw [hI.others A (fun e => hkA e.symm), hP.viewA]
    · exact ⟨y, e1, hy1, he1, hk1.trans hek, hv1.trans hev, hw1.trans hew⟩
    · intro k2 hk2
      by_cases hkk : k2 = k
      · exact Or.inr (Or.inr (by rw [hkk]; exact List.mem_cons_self _ _))
      · rw [hI.others k2 hkk] at hk2
        rcases hP.only k2 hk2 with h | h | h
        · exact Or.inl h
        · exact Or.inr (Or.inl h)
        · exact Or.inr (Or.inr (List.mem_cons_of_mem _ h))
  · rw [hy1] at hy2; cases hy2
    rw [he1] at hen; cases hen
    have hkey : e1.key = B := hk1.trans hek
    have hval : e1.value = vb := hv1.trans hev
    refine ⟨l2, hs, hR.inv, (hR.onEvicated.trans hI.onEvicated).trans hcb, Or.inr ⟨?_, ?_, ?_⟩⟩
    · rw [hlog, hP.log, hkey, hval]; rfl
    · rw [hR.others A (by rw [hkey]; exact hAB), hI.others A (fun e => hkA e.symm), hP.viewA]
    · rw [← hkey]; exact hR.gone

/-- The inserts of fresh distinct keys, as long as none has evicted. -/
theorem fresh_inserts {V : Type} (size : Option V → Int) {A B : String} (hAB : A ≠ B)
    (va vb : Option V) (n : Int) (fresh : List (String × Option V)) :
    ∀ (l : lfu V) (S : List String), Inv size l → l.onEvicated = true →
      (l.evicted ≠ [] ∨ RootKept l A B va vb n S) →
      (∀ kv ∈ fresh, kv.1 ≠ A ∧ kv.1 ≠ B ∧ kv.1 ∉ S) → (fresh.map Prod.fst).Nodup →
      ∃ l2, run size l (fresh.map (fun kv => Op.set kv.1 kv.2)) = some l2 ∧ Inv size l2 ∧
        l2.onEvicated = true ∧
        (l2.evicted ≠ [] ∨ RootKept l2 A B va vb n (fresh.map Prod.fst ++ S)) := by
  induction fresh with
  | nil =>
    intro l S hinv hcb hst _ _
    exact ⟨l, rfl, hinv, hcb, by simpa using hst⟩
  | cons kv rest ih =>
    intro l S hinv hcb hst hfresh hnd
    simp only [List.map_cons, List.nodup_cons] at hnd
    obtain ⟨hkA, hkB, hkS⟩ := hfresh kv (List.mem_cons_self _ _)
    have hstep : ∃ l1, l.Set size kv.1 kv.2 = some l1 ∧ Inv size l1 ∧ l1.onEvicated = true ∧
        (l1.evicted ≠ [] ∨ RootKept l1 A B va vb n (kv.1 :: S)) := by
      rcases hst with hne | hP
      · obtain ⟨l1, rem, hs, hE⟩ := step_effect hinv (.set kv.1 kv.2)
        refine ⟨l1, hs, hE.inv, hE.onEvicated.trans hcb, Or.inl ?_⟩
        rw [hE.evicted, hcb, if_pos rfl]
        simp [hne]
      · obtain ⟨l1, hs, hinv1, hcb1, hres⟩ := fresh_insert hinv hcb hAB hP hkA hkB hkS kv.2
        refine ⟨l1, hs, hinv1, hcb1, ?_⟩
        rcases hres with h | ⟨h, _, _⟩
        · exact Or.inr h
        · left; rw [h]; simp
    obtain ⟨l1, hs, hinv1, hcb1, hst1⟩ := hstep
    obtain ⟨l2, hr, hinv2, hcb2, hres⟩ := ih l1 (kv.1 :: S) hinv1 hcb1 hst1
      (fun kv2 hkv2 => by
        obtain ⟨h1, h2, h3⟩ := hfresh kv2 (List.mem_cons_of_mem _ hkv2)
        refine ⟨h1, h2, ?_⟩
        intro hmem
        rcases List.mem_cons.1 hmem with h | h
        · exact hnd.1 (h ▸ List.mem_map.2 ⟨kv2, hkv2, rfl⟩)
        · exact h3 h) hnd.2
    refine ⟨l2, ?_, hinv2, hcb2, ?_⟩
    · rw [List.map_cons, run_cons]
      have h1 : step size l (.set kv.1 kv.2) = l.Set size kv.1 kv.2 := rfl
      rw [h1, hs]; exact hr
    · rcases hres with h | h
      · exact Or.inl h
      · right
        refine h.enlarge ?_
        intro k hk
        rw [List.map_cons]
        rcases List.mem_append.1 hk with h1 | h1
        · exact List.mem_append.2 (Or.inl (List.mem_cons_of_mem _ h1))
        · rcases List.mem_cons.1 h1 with h2 | h2
          · exact List.mem_append.2 (Or.inl (h2 ▸ List.mem_cons_self _ _))
          · exact List.mem_append.2 (Or.inr h2)

/-- C6: on a cache created by `New` with a callback, after `Set(A, va)`,
`Set(B, vb)` with `A ≠ B`, `N > 0` calls of `Get(A)` and the `Set`s of any fresh
distinct keys (none equal to `A` or `B`), the run returns; when no call of it has
evicted, `A` is present with weight `N`, `B` with weight 0, and the `Set` of one
more fresh key `k` returns and either evicts nothing, or evicts exactly `B` (the
first call recorded by the callback is `(B, vb)`) while `A` is still present
with its value. -/
theorem C6_frequency_protection {V : Type} (size : Option V → Int) (maxBytes : Int)
    (A B : String) (va vb : Option V) (N : Nat) (fresh : List (String × Option V))
    (k : String) (v : Option V) (hAB : A ≠ B) (hN : 0 < N)
    (hfresh : ∀ kv ∈ fresh, kv.1 ≠ A ∧ kv.1 ≠ B) (hk : k ≠ A ∧ k ≠ B)
    (hdistinct : (k :: fresh.map Prod.fst).Nodup) :
    ∃ l, run size (New maxBytes true)
        (.set A va :: .set B vb ::
          (List.replicate N (.get A) ++ fresh.map (fun kv => Op.set kv.1 kv.2))) = some l ∧
      (l.evicted = [] →
        l.view A = some (va, (N : Int)) ∧ l.view B = some (vb, 0) ∧
        ∃ l2, l.Set size k v = some l2 ∧
          (l2.evicted = [] ∨
            (l2.evicted = [(B, vb)] ∧ l2.view A = some (va, (N : Int)) ∧ l2.view B = none))) := by
  obtain ⟨l0, hr0, hinv0, hcb0, hst0⟩ := two_sets size maxBytes hAB va vb
  obtain ⟨l1, hr1, hinv1, hcb1, hst1⟩ := gets_of_A size hAB va vb N l0 0 hinv0 hcb0 hst0
  rw [zero_add] at hst1
  have hst1b : l1.evicted ≠ [] ∨ RootKept l1 A B va vb (N : Int) [] := by
    rcases hst1 with h | h
    · exact Or.inl h
    · exact Or.inr (h.rootKept hinv1 (by exact_mod_cast hN))
  rw [List.nodup_cons] at hdistinct
  obtain ⟨l2, hr2, hinv2, hcb2, hst2⟩ := fresh_inserts size hAB va vb (N : Int) fresh l1 []
    hinv1 hcb1 hst1b (fun kv hkv => ⟨(hfresh kv hkv).1, (hfresh kv hkv).2, by simp⟩)
    hdistinct.2
  refine ⟨l2, ?_, ?_⟩
  · have : (Op.set A va :: Op.set B vb ::
        (List.replicate N (Op.get A) ++ fresh.map (fun kv => Op.set kv.1 kv.2))) =
        [Op.set A va, Op.set B vb] ++
          (List.replicate N (Op.get A) ++ fresh.map (fun kv => Op.set kv.1 kv.2)) := rfl
    rw [this, run_append, hr0]
    simp only [Option.some_bind]
    rw [run_append, hr1]
    simp only [Option.some_bind]
    exact hr2
  · intro hlog
    rcases hst2 with h | hP
    · exact absurd hlog h
    · refine ⟨hP.viewA, hP.root.view_root hinv2, ?_⟩
      obtain ⟨l3, hs, _, _, hres⟩ := fresh_insert hinv2 hcb2 hAB hP hk.1 hk.2
        (by simpa using hdistinct.1) v
      refine ⟨l3, hs, ?_⟩
      rcases hres with h | h
      · exact Or.inl h.log
      · exact Or.inr h

/-- C6 on `New(32, cb)` with 8-byte values: after `Set("a", 1); Set("b", 2);
Get("a")` nothing has been evicted, and `Set("c", 3)` evicts `"b"`. -/
theorem C6_frequency_protection_witness :
    "a" ≠ "b" ∧ 0 < 1 ∧ ("c" ≠ "a" ∧ "c" ≠ "b") ∧
    (∃ l, run size8 (New 32 true)
        (.set "a" (some 1) :: .set "b" (some 2) ::
          (List.replicate 1 (.get "a") ++
            ([] : List (String × Option Int)).map (fun kv => Op.set kv.1 kv.2))) = some l ∧
      (l.evicted = [] →
        l.view "a" = some (some 1, ((1 : Nat) : Int)) ∧ l.view "b" = some (some 2, 0) ∧
        ∃ l2, l.Set size8 "c" (some 3) = some l2 ∧
          (l2.evicted = [] ∨
            (l2.evicted = [("b", some 2)] ∧ l2.view "a" = some (some 1, ((1 : Nat) : Int)) ∧
              l2.view "b" = none)))) ∧
    ((run size8 (New 32 true) [.set "a" (some 1), .set "b" (some 2), .get "a"]).map
        (fun l => l.evicted) = some [] ∧
      (run size8 (New 32 true)
        [.set "a" (some 1), .set "b" (some 2), .get "a", .set "c" (some 3)]).map
        (fun l => l.evicted) = some [("b", some 2)]) :=
  ⟨by decide, by decide, by decide,
    C6_frequency_protection size8 32 "a" "b" (some 1) (some 2) 1 [] "c" (some 3) (by decide)
      (by decide) (by simp) (by decide) (by decide),
    rfl, rfl⟩

end LFU

namespace LFU

/-! ## The exact view of a key after one call -/

theorem Touched.touch_view {V : Type} {size : Option V → Int} {l l2 : lfu V} {k : String}
    {v : Option V} {e : entry V} (h : Touched size l l2 k v e) (op : Op V)
    (hop : op = .set k v ∨ (op = .get k ∧ v = e.value)) (k2 : String) :
    l2.view k2 = viewNext l op k2 := by
  have hb := h.view_before
  rcases hop with rfl | ⟨rfl, hv⟩
  · unfold viewNext
    simp only
    split_ifs with hk
    · subst hk; rw [h.now, hb]
    · exact h.others k2 (fun e => hk e.symm)
  · unfold viewNext
    simp only
    split_ifs with hk
    · subst hk; rw [h.now, hb, hv]; rfl
    · exact h.others k2 (fun e => hk e.symm)

theorem Inserted.insert_view {V : Type} {size : Option V → Int} {l l2 : lfu V} {k : String}
    {v : Option V} (h : Inserted size l l2 k v) (habs : mapGet l.cache k = none)
    (k2 : String) : l2.view k2 = viewNext l (.set k v) k2 := by
  unfold viewNext
  simp only
  split_ifs with hk
  · subst hk; rw [h.now, view_of_absent habs]
  · exact h.others k2 (fun e => hk e.symm)

theorem Removed.remove_view {V : Type} {size : Option V → Int} {l l2 : lfu V} {en : entry V}
    (h : Removed size l l2 en) (k2 : String) : l2.view k2 = none ∨ l2.view k2 = l.view k2 := by
  by_cases hk : k2 = en.key
  · left; rw [hk]; exact h.gone
  · right; exact h.others k2 hk

/-- Every call on a state satisfying the invariant returns, and a key it has not
removed is then seen as `viewNext` tells. -/
theorem step_view {V : Type} {size : Option V → Int} {l : lfu V} (hinv : Inv size l)
    (op : Op V) :
    ∃ l1, step size l op = some l1 ∧ ∀ k, l1.view k = none ∨ l1.view k = viewNext l op k := by
  cases op with
  | get k =>
    cases hg : mapGet l.cache k with
    | none =>
      refine ⟨l, by simp [step, Get_absent hg], fun k2 => ?_⟩
      unfold viewNext
      simp only
      split_ifs with hk
      · left; rw [← hk]; exact view_of_absent hg
      · right; rfl
    | some p =>
      obtain ⟨l2, e, hget, hT, _⟩ := Get_spec hinv hg
      exact ⟨l2, by simp [step, hget], fun k2 => Or.inr (hT.touch_view _ (Or.inr ⟨rfl, rfl⟩) k2)⟩
  | set k v =>
    cases hg : mapGet l.cache k with
    | some p =>
      obtain ⟨l2, e, hs, hT, _⟩ := Set_present hinv hg v
      exact ⟨l2, hs, fun k2 => Or.inr (hT.touch_view _ (Or.inl rfl) k2)⟩
    | none =>
      obtain ⟨l1, hI, hno, hover⟩ := Set_absent hinv hg v
      by_cases hc : l.maxBytes > 0 ∧ wrap (l.usedBytes + accounted size v) > l.maxBytes
      · obtain ⟨l2, en, hs, hR, _⟩ := hover hc
        refine ⟨l2, hs, fun k2 => ?_⟩
        rcases hR.remove_view k2 with h | h
        · exact Or.inl h
        · right; rw [h]; exact hI.insert_view hg k2
      · exact ⟨l1, hno hc, fun k2 => Or.inr (hI.insert_view hg k2)⟩
  | del k =>
    cases hg : mapGet l.cache k with
    | none => exact ⟨l, Del_absent size hg, fun k2 => Or.inr rfl⟩
    | some p =>
      obtain ⟨l2, e, hd, _, _, hR⟩ := Del_spec hinv hg
      exact ⟨l2, hd, fun k2 => hR.remove_view k2⟩
  | delOldest =>
    by_cases h0 : l.Len = 0
    · exact ⟨l, DelOldest_empty size h0, fun k2 => Or.inr rfl⟩
    · obtain ⟨l2, en, hd, hR, _⟩ := DelOldest_spec hinv h0
      exact ⟨l2, hd, fun k2 => hR.remove_view k2⟩

/-- Every call on a state satisfying the invariant returns; `rem` lists what it
handed to `removeElement`: those keys are then absent, and every other key is
seen as `viewNext` tells. -/
theorem step_exact {V : Type} {size : Option V → Int} {l : lfu V} (hinv : Inv size l)
    (op : Op V) :
    ∃ l1 rem, step size l op = some l1 ∧ Inv size l1 ∧ l1.onEvicated = l.onEvicated ∧
      l1.evicted = (if l.onEvicated then l.evicted ++ rem else l.evicted) ∧
      (∀ k, k ∈ rem.map Prod.fst → l1.view k = none) ∧
      (∀ k, k ∉ rem.map Prod.fst → l1.view k = viewNext l op k) ∧
      (match op with
        | .get _ => rem = []
        | .set k v =>
          (mapGet l.cache k ≠ none ∨
            ¬ (l.maxBytes > 0 ∧ wrap (l.usedBytes + accounted size v) > l.maxBytes)) → rem = []
        | .del k => ∀ k2, k2 ∈ rem.map Prod.fst → k2 = k
        | .delOldest => True) := by
  have removed : ∀ {l0 l2 : lfu V} {en : entry V}, Removed size l0 l2 en →
      (∀ k, k ∈ [(en.key, en.value)].map Prod.fst → l2.view k = none) ∧
      (∀ k, k ∉ [(en.key, en.value)].map Prod.fst → l2.view k = l0.view k) := by
    intro l0 l2 en hR
    constructor
    · intro k hk
      simp only [List.map_cons, List.map_nil, List.mem_singleton] at hk
      rw [hk]; exact hR.gone
    · intro k hk
      simp only [List.map_cons, List.map_nil, List.mem_singleton] at hk
      exact hR.others k hk
  cases op with
  | get k =>
    cases hg : mapGet l.cache k with
    | none =>
      refine ⟨l, [], by simp [step, Get_absent hg], hinv, rfl, by simp, by simp, fun k2 _ => ?_, rfl⟩
      unfold viewNext
      simp only
      split_ifs with hk
      · rw [← hk, view_of_absent hg]; rfl
      · rfl
    | some p =>
      obtain ⟨l2, e, hget, hT, _⟩ := Get_spec hinv hg
      exact ⟨l2, [], by simp [step, hget], hT.inv, hT.onEvicated, by simp [hT.evicted], by simp,
        fun k2 _ => hT.touch_view _ (Or.inr ⟨rfl, rfl⟩) k2, rfl⟩
  | set k v =>
    cases hg : mapGet l.cache k with
    | some p =>
      obtain ⟨l2, e, hs, hT, _⟩ := Set_present hinv hg v
      exact ⟨l2, [], hs, hT.inv, hT.onEvicated, by simp [hT.evicted], by simp,
        fun k2 _ => hT.touch_view _ (Or.inl rfl) k2, fun _ => rfl⟩
    | none =>
      obtain ⟨l1, hI, hno, hover⟩ := Set_absent hinv hg v
      by_cases hc : l.maxBytes > 0 ∧ wrap (l.usedBytes + accounted size v) > l.maxBytes
      · obtain ⟨l2, en, hs, hR, _⟩ := hover hc
        obtain ⟨h1, h2⟩ := removed hR
        refine ⟨l2, [(en.key, en.value)], hs, hR.inv, hR.onEvicated.trans hI.onEvicated, ?_, h1,
          fun k2 hk2 => ?_, fun hh => ?_⟩
        · rw [hR.evicted, hI.onEvicated, hI.evicted]
        · rw [h2 k2 hk2]; exact hI.insert_view hg k2
        · rcases hh with hh | hh
          · exact absurd hg hh
          · exact absurd hc hh
      · exact ⟨l1, [], hno hc, hI.inv, hI.onEvicated, by simp [hI.evicted], by simp,
          fun k2 _ => hI.insert_view hg k2, fun _ => rfl⟩
  | del k =>
    cases hg : mapGet l.cache k with
    | none =>
      exact ⟨l, [], Del_absent size hg, hinv, rfl, by simp, by simp, fun k2 _ => rfl, by simp⟩
    | some p =>
      obtain ⟨l2, e, hd, hk, _, hR⟩ := Del_spec hinv hg
      obtain ⟨h1, h2⟩ := removed hR
      refine ⟨l2, [(e.key, e.value)], hd, hR.inv, hR.onEvicated, hR.evicted, h1,
        fun k2 hk2 => h2 k2 hk2, ?_⟩
      intro k2 hk2
      simp only [List.map_cons, List.map_nil, List.mem_singleton] at hk2
      rw [hk2, hk]
  | delOldest =>
    by_cases h0 : l.Len = 0
    · exact ⟨l, [], DelOldest_empty size h0, hinv, rfl, by simp, by simp, fun k2 _ => rfl,
        trivial⟩
    · obtain ⟨l2, en, hd, hR, _⟩ := DelOldest_spec hinv h0
      obtain ⟨h1, h2⟩ := removed hR
      exact ⟨l2, [(en.key, en.value)], hd, hR.inv, hR.onEvicated, hR.evicted, h1,
        fun k2 hk2 => h2 k2 hk2, trivial⟩

theorem run_maxBytes {V : Type} {size : Option V → Int} (ops : List (Op V)) :
    ∀ {l l2 : lfu V}, Inv size l → run size l ops = some l2 →
      l2.maxBytes = l.maxBytes ∧ l2.onEvicated = l.onEvicated := by
  induction ops with
  | nil => intro l l2 _ h; cases h; exact ⟨rfl, rfl⟩
  | cons op ops ih =>
    intro l l2 hinv h
    obtain ⟨l1, rem, hs, hE⟩ := step_effect hinv op
    rw [run_cons, hs] at h
    obtain ⟨h1, h2⟩ := ih hE.inv h
    exact ⟨h1.trans hE.maxBytes, h2.trans hE.onEvicated⟩

theorem usedBytes_of_empty {V : Type} {size : Option V → Int} {l : lfu V} (hinv : Inv size l)
    (h0 : l.Len = 0) : l.usedBytes = 0 := by
  have : l.queue.ptrs = [] := List.length_eq_zero.1 h0
  rw [hinv.used, this]; rfl

end LFU

namespace LFU

/-- C11, as the code has it: in a reachable state (bounded or not) where `k` is
present with value `old` and weight `w`, `Set(k, v)` returns; `k` then holds `v`
with weight `w + 1`, `usedBytes` has changed by `size(v) - size(old)` in the
wrapping arithmetic of a Go `int` (by exactly `size(v) - size(old)` whenever the
result is a Go `int`), the table (hence the set of keys) and `Len()` are
unchanged, every other key keeps its value and weight, and the callback is not
invoked, whatever `usedBytes` and `maxBytes` are. -/
theorem C11_set_present_key_updates_in_place {V : Type} (size : Option V → Int) (l : lfu V)
    (h : Reachable size l) (k : String) (old : Option V) (w : Int) (v : Option V)
    (hp : l.view k = some (old, w)) :
    ∃ l2, l.Set size k v = some l2 ∧ l2.view k = some (v, w + 1) ∧
      l2.usedBytes = wrap (l.usedBytes + (CalcLen size v - CalcLen size old)) ∧
      (fitsInt (l.usedBytes + (CalcLen size v - CalcLen size old)) →
        l2.usedBytes = l.usedBytes + (CalcLen size v - CalcLen size old)) ∧
      l2.Len = l.Len ∧
      l2.cache = l.cache ∧ (∀ k2, k2 ≠ k → l2.view k2 = l.view k2) ∧
      l2.evicted = l.evicted ∧ l2.maxBytes = l.maxBytes := by
  have hinv := h.inv
  cases hg : mapGet l.cache k with
  | none => rw [view_of_absent hg] at hp; cases hp
  | some p =>
    obtain ⟨l2, e, hs, hT, hu⟩ := Set_present hinv hg v
    have hb := hT.view_before
    rw [hp] at hb
    simp only [Option.some.injEq, Prod.mk.injEq] at hb
    have hu2 : l2.usedBytes = wrap (l.usedBytes + (CalcLen size v - CalcLen size old)) := by
      rw [hu, hb.1]; unfold wrap; omega
    refine ⟨l2, hs, ?_, hu2, ?_, hT.len, hT.cache, hT.others, hT.evicted, hT.maxBytes⟩
    · rw [hT.now, hb.2]
    · intro hf
      rw [hu2, wrap_of_fitsInt hf]

/-- C11 at `ex4` (budget 16, 9 bytes used, values of their own length):
`Set("k1", x)` with `x` of length 100 brings `usedBytes` to 108 without eviction. -/
theorem C11_set_present_key_updates_in_place_witness :
    Reachable sizeOwn ex4 ∧ ex4.view "k1" = some (some 1, 0) ∧
      ex4.usedBytes + (CalcLen sizeOwn (some 100) - CalcLen sizeOwn (some 1)) = 108 ∧
      ∃ l2, ex4.Set sizeOwn "k1" (some 100) = some l2 ∧ l2.view "k1" = some (some 100, 0 + 1) ∧
        l2.usedBytes =
          wrap (ex4.usedBytes + (CalcLen sizeOwn (some 100) - CalcLen sizeOwn (some 1))) ∧
        (fitsInt (ex4.usedBytes + (CalcLen sizeOwn (some 100) - CalcLen sizeOwn (some 1))) →
          l2.usedBytes =
            ex4.usedBytes + (CalcLen sizeOwn (some 100) - CalcLen sizeOwn (some 1))) ∧
        l2.Len = ex4.Len ∧ l2.cache = ex4.cache ∧
        (∀ k2, k2 ≠ "k1" → l2.view k2 = ex4.view k2) ∧ l2.evicted = ex4.evicted ∧
        l2.maxBytes = ex4.maxBytes :=
  ⟨⟨16, true, ex2Ops, rfl⟩, by decide, by decide,
    C11_set_present_key_updates_in_place sizeOwn ex4 ⟨16, true, ex2Ops, rfl⟩ "k1" (some 1) 0
      (some 100) (by decide)⟩

/-- C11 as stated fails: in the state reached by `Set("k1", 1)` on `New(16, cb)`
(values of their own length, 9 bytes used), `Set("k1", x)` with `x` of length
`2^63 - 1` leaves `usedBytes` at `-2^63 + 7`, below the budget, where
`usedBytes + (size(x) - size(1))` is `2^63 + 7`. -/
theorem C11_overflow_counterexample :
    run sizeOwn (New 16 true) ex2Ops = some ex4 ∧ ex4.view "k1" = some (some 1, 0) ∧
      ex4.usedBytes + (sizeOwn (some maxInt) - sizeOwn (some 1)) = 9223372036854775815 ∧
      ∃ l2, ex4.Set sizeOwn "k1" (some maxInt) = some l2 ∧
        l2.usedBytes = -9223372036854775801 ∧ l2.usedBytes < l2.maxBytes ∧
        l2.usedBytes ≠ ex4.usedBytes + (sizeOwn (some maxInt) - sizeOwn (some 1)) :=
  ⟨rfl, by decide, by decide, _, rfl, rfl, by decide, by decide⟩

/-- C12: on a cache created with `maxBytes ≤ 0` every sequence of calls returns,
and in the state reached every `Set(k, v)` returns without invoking the callback;
every other key is as before; an absent `k` is then present with `v` and weight 0
and `Len()` has grown by 1; a present `k` then holds `v` with one more unit of
weight and `Len()` is unchanged.  A `Get` removes nothing either, so entries leave
such a cache only through `Del` and `DelOldest`. -/
theorem C12_unbounded_cache_never_evicts {V : Type} (size : Option V → Int) (maxBytes : Int)
    (onEvicated : Bool) (ops : List (Op V)) (hmb : maxBytes ≤ 0) :
    ∃ l, run size (New maxBytes onEvicated) ops = some l ∧
      (∀ k v, ∃ l2, l.Set size k v = some l2 ∧ l2.evicted = l.evicted ∧
        (∀ k2, k2 ≠ k → l2.view k2 = l.view k2) ∧
        (l.view k = none → l2.view k = some (v, 0) ∧ l2.Len = l.Len + 1) ∧
        (∀ old w, l.view k = some (old, w) → l2.view k = some (v, w + 1) ∧ l2.Len = l.Len)) ∧
      (∀ k, ∃ l2 r, l.Get k = some (l2, r) ∧ l2.evicted = l.evicted ∧ l2.Len = l.Len ∧
        ∀ k2, l2.view k2 = none ↔ l.view k2 = none) := by
  obtain ⟨l, hrun, hinv⟩ := run_total ops (Inv.new size maxBytes onEvicated)
  have hmax : l.maxBytes ≤ 0 := by
    rw [(run_maxBytes ops (Inv.new size maxBytes onEvicated) hrun).1]; exact hmb
  refine ⟨l, hrun, ?_, ?_⟩
  · intro k v
    cases hg : mapGet l.cache k with
    | none =>
      obtain ⟨l1, hI, hno, _⟩ := Set_absent hinv hg v
      refine ⟨l1, hno (fun hc => by omega), hI.evicted, hI.others, fun _ => ⟨hI.now, hI.len⟩, ?_⟩
      intro old w hv
      rw [view_of_absent hg] at hv; cases hv
    | some p =>
      obtain ⟨l2, e, hs, hT, _⟩ := Set_present hinv hg v
      have hb := hT.view_before
      refine ⟨l2, hs, hT.evicted, hT.others, ?_, ?_⟩
      · intro hn; rw [hn] at hb; cases hb
      · intro old w hv
        rw [hv] at hb
        simp only [Option.some.injEq, Prod.mk.injEq] at hb
        exact ⟨by rw [hT.now, hb.2], hT.len⟩
  · intro k
    cases hg : mapGet l.cache k with
    | none => exact ⟨l, none, Get_absent hg, rfl, rfl, fun _ => Iff.rfl⟩
    | some p =>
      obtain ⟨l2, e, hget, hT, _⟩ := Get_spec hinv hg
      refine ⟨l2, e.value, hget, hT.evicted, hT.len, ?_⟩
      intro k2
      by_cases hk : k2 = k
      · subst hk
        rw [hT.now, hT.view_before]; simp
      · rw [hT.others k2 hk]

/-- C12 on `New(0, nil)` after `Set("k1", 1); Set("k2", 2); Get("k1")`. -/
theorem C12_unbounded_cache_never_evicts_witness :
    (0 : Int) ≤ 0 ∧
    ∃ l, run size8 (New 0 false) ex1Ops = some l ∧
      (∀ k v, ∃ l2, l.Set size8 k v = some l2 ∧ l2.evicted = l.evicted ∧
        (∀ k2, k2 ≠ k → l2.view k2 = l.view k2) ∧
        (l.view k = none → l2.view k = some (v, 0) ∧ l2.Len = l.Len + 1) ∧
        (∀ old w, l.view k = some (old, w) → l2.view k = some (v, w + 1) ∧ l2.Len = l.Len)) ∧
      (∀ k, ∃ l2 r, l.Get k = some (l2, r) ∧ l2.evicted = l.evicted ∧ l2.Len = l.Len ∧
        ∀ k2, l2.view k2 = none ↔ l.view k2 = none) :=
  ⟨by decide, C12_unbounded_cache_never_evicts size8 0 false ex1Ops (by decide)⟩

/-- C13: on a cache just created by `New` with no callback, unbounded or with a
budget of at least `size(v) + 8`, `DelOldest()` on the still empty cache returns
the same state, then `Set(k, v)` returns, `Get(k)` returns `v`, and after `Del(k)`
both `Len()` and `usedBytes` are 0. -/
theorem C13_set_get_del_round_trip {V : Type} (size : Option V → Int) (maxBytes : Int)
    (k : String) (v : Option V) (hfit : maxBytes ≤ 0 ∨ CalcLen size v + 8 ≤ maxBytes) :
    (New maxBytes false : lfu V).DelOldest size = some (New maxBytes false) ∧
    ∃ l1 l2 l3, (New maxBytes false : lfu V).Set size k v = some l1 ∧
      l1.Get k = some (l2, v) ∧ l2.Del size k = some l3 ∧ l3.Len = 0 ∧ l3.usedBytes = 0 := by
  have hinv0 := Inv.new size maxBytes false (V := V)
  refine ⟨DelOldest_empty size rfl, ?_⟩
  obtain ⟨l1, hI, hno, _⟩ := Set_absent hinv0 (k := k) rfl v
  have hs := hno (fun hc => by
    have h1 : (New maxBytes false : lfu V).maxBytes = maxBytes := rfl
    have h2 : (New maxBytes false : lfu V).usedBytes = 0 := rfl
    rw [h1, h2] at hc
    unfold accounted CalcLen wrap at hc
    unfold CalcLen wrap at hfit
    omega)
  have hpres1 : mapGet l1.cache k ≠ none := by
    intro hn
    have := hI.now
    rw [view_of_absent hn] at this; cases this
  cases hg1 : mapGet l1.cache k with
  | none => exact absurd hg1 hpres1
  | some p =>
    obtain ⟨l2, e, hget, hT, _⟩ := Get_spec hI.inv hg1
    have hb := hT.view_before
    rw [hI.now] at hb
    simp only [Option.some.injEq, Prod.mk.injEq] at hb
    have hg2 : mapGet l2.cache k = some p := by rw [hT.cache]; exact hg1
    obtain ⟨l3, e3, hd, _, _, hR⟩ := Del_spec hT.inv hg2
    have hlen : l3.Len = 0 := by
      have h1 := hR.len
      have h2 := hT.len
      have h3 := hI.len
      have h4 : (New maxBytes false : lfu V).Len = 0 := rfl
      omega
    exact ⟨l1, l2, l3, hs, by rw [hget, ← hb.1], hd, hlen, usedBytes_of_empty hR.inv hlen⟩

/-- C13 with the values of `TestSetGet`, on `New(24, nil)` and on `New(0, nil)`. -/
theorem C13_set_get_del_round_trip_witness :
    (((24 : Int) ≤ 0 ∨ CalcLen size8 (some 1) + 8 ≤ 24) ∧
      ∃ l1 l2 l3, (New 24 false : lfu Int).Set size8 "k1" (some 1) = some l1 ∧
        l1.Get "k1" = some (l2, some 1) ∧ l2.Del size8 "k1" = some l3 ∧ l3.Len = 0 ∧
        l3.usedBytes = 0) ∧
    (((0 : Int) ≤ 0 ∨ CalcLen size8 (some 1) + 8 ≤ 0) ∧
      ∃ l1 l2 l3, (New 0 false : lfu Int).Set size8 "k1" (some 1) = some l1 ∧
        l1.Get "k1" = some (l2, some 1) ∧ l2.Del size8 "k1" = some l3 ∧ l3.Len = 0 ∧
        l3.usedBytes = 0) :=
  ⟨⟨by decide, (C13_set_get_del_round_trip size8 24 "k1" (some 1) (by decide)).2⟩,
    ⟨by decide, (C13_set_get_del_round_trip size8 0 "k1" (some 1) (by decide)).2⟩⟩

/-- C15: in every state, reachable or not, `Get(k)` of a key that is not in the
table returns nil and the very same state: no entry is created, no weight
changes, and the queue, `Len()`, `usedBytes` and the record of callback calls are
as before. -/
theorem C15_get_absent_key_is_noop {V : Type} (l : lfu V) (k : String)
    (habs : mapGet l.cache k = none) : l.Get k = some (l, none) :=
  Get_absent habs

/-- C15 at `ex1`, a reachable state, and the absent key `"k3"`. -/
theorem C15_get_absent_key_is_noop_witness :
    Reachable size8 ex1 ∧ mapGet ex1.cache "k3" = none ∧ ex1.Get "k3" = some (ex1, none) :=
  ⟨⟨0, false, ex1Ops, rfl⟩, by decide, C15_get_absent_key_is_noop ex1 "k3" (by decide)⟩

end LFU

namespace LFU

/-! ## Weights, indices and panic-freedom -/

theorem accesses_fit {V : Type} (size : Option V → Int) (k : String) (ops : List (Op V)) :
    ∀ (l : lfu V) (c : Nat), Inv size l → (∀ v w, l.view k = some (v, w) → w = (c : Int)) →
      ∃ l2, run size l ops = some l2 ∧ Inv size l2 ∧
        ∀ v w, l2.view k = some (v, w) → w = (accesses size k l ops c : Int) := by
  induction ops with
  | nil => intro l c hinv hf; exact ⟨l, rfl, hinv, hf⟩
  | cons op ops ih =>
    intro l c hinv hf
    obtain ⟨l1, hs, hview⟩ := step_view hinv op
    have hinv1 := step_inv hinv hs
    have hstep : ∀ v w, l1.view k = some (v, w) → w = (accessStep k l op c : Int) := by
      intro v w hv
      have hnext : viewNext l op k = some (v, w) := by
        rcases hview k with h | h
        · rw [h] at hv; cases hv
        · rw [← h]; exact hv
      cases op with
      | get k2 =>
        unfold viewNext at hnext
        unfold accessStep
        simp only at hnext ⊢
        by_cases hk : k2 = k
        · rw [if_pos hk] at hnext
          cases hl : l.view k with
          | none => rw [hl] at hnext; cases hnext
          | some vw =>
            rw [hl] at hnext
            simp only [Option.map_some', Option.some.injEq, Prod.mk.injEq] at hnext
            have hpres : mapGet l.cache k ≠ none := by
              intro hn; rw [view_of_absent hn] at hl; cases hl
            rw [if_pos ⟨hk, hpres⟩]
            have := hf vw.1 vw.2 hl
            push_cast
            omega
        · rw [if_neg hk] at hnext
          rw [if_neg (fun h => hk h.1)]
          exact hf v w hnext
      | set k2 v2 =>
        unfold viewNext at hnext
        unfold accessStep
        simp only at hnext ⊢
        by_cases hk : k2 = k
        · rw [if_pos hk] at hnext
          rw [if_pos hk]
          simp only [Option.some.injEq, Prod.mk.injEq] at hnext
          cases hl : l.view k with
          | none =>
            rw [hl] at hnext
            rw [if_pos ((hinv.absent_iff k).2 hl)]
            simp only at hnext
            rw [← hnext.2]; rfl
          | some vw =>
            rw [hl] at hnext
            have hpres : mapGet l.cache k ≠ none := by
              intro hn; rw [view_of_absent hn] at hl; cases hl
            rw [if_neg hpres]
            simp only at hnext
            have := hf vw.1 vw.2 hl
            push_cast
            omega
        · rw [if_neg hk] at hnext
          rw [if_neg hk]
          exact hf v w hnext
      | del k2 => exact hf v w hnext
      | delOldest => exact hf v w hnext
    obtain ⟨l2, hr, hinv2, hfit⟩ := ih l1 (accessStep k l op c) hinv1 hstep
    refine ⟨l2, by rw [run_cons, hs]; exact hr, hinv2, ?_⟩
    intro v w hv
    have := hfit v w hv
    unfold accesses
    rw [hs]
    exact this

/-- `n` calls of `Get(k)` on a present key add `n` to its weight. -/
theorem gets_count {V : Type} {size : Option V → Int} (k : String) (v : Option V) (n : Nat) :
    ∀ (l : lfu V) (w : Int), Inv size l → l.view k = some (v, w) →
      ∃ l2, run size l (List.replicate n (.get k)) = some l2 ∧ Inv size l2 ∧
        l2.view k = some (v, w + n) ∧ l2.evicted = l.evicted := by
  induction n with
  | zero => intro l w hinv hv; exact ⟨l, rfl, hinv, by simpa using hv, rfl⟩
  | succ n ih =>
    intro l w hinv hv
    obtain ⟨l1, rem, hs, hinv1, _, hlog, _, hnext, hrem⟩ := step_exact hinv (.get k)
    simp only at hrem
    subst hrem
    have hv1 : l1.view k = some (v, w + 1) := by
      rw [hnext k (by simp)]
      unfold viewNext
      simp only [if_true, hv, Option.map_some']
    obtain ⟨l2, hr, hinv2, hv2, hlog2⟩ := ih l1 (w + 1) hinv1 hv1
    refine ⟨l2, ?_, hinv2, ?_, ?_⟩
    · rw [List.replicate_succ, run_cons, hs]; exact hr
    · rw [hv2]; push_cast; congr 2; ring
    · rw [hlog2, hlog]; simp

/-- C16: on a cache created by `New` every sequence of calls returns; in the state
reached the weight of a present key `k` is non-negative and is the number of
`Get(k)` calls that found `k` plus the number of `Set(k, ·)` calls on the
already present `k` since the most recent insertion of `k`.  From that state a
`Set(k, v)` on the present `k`, or on the absent `k` when the capacity test does
not fire, followed by `n` calls of `Get(k)` returns and leaves `k` present with
the weight it had after the `Set` (0 for an insertion, one more than before for
an update) plus `n`.  A single further call returns; a `Get(k)` or a `Set(k, ·)`
on the present `k` leaves `k` present with one more unit of weight; a `Set(k, v)`
of the absent `k` leaves `k` present with weight 0 unless the capacity test
fires, and with weight 0 if present at all; a `Get`, a `Del` or a `Set` that
evicts nothing, on another key, leaves `k` exactly as it was; and any call that
is neither a `Get(k)` nor a `Set(k, ·)` and leaves `k` present leaves its
weight and value as they were. -/
theorem C16_weight_counts_accesses {V : Type} (size : Option V → Int) (maxBytes : Int)
    (onEvicated : Bool) (ops : List (Op V)) (k : String) :
    ∃ l, run size (New maxBytes onEvicated) ops = some l ∧
      (∀ v w, l.view k = some (v, w) →
        0 ≤ w ∧ w = (accesses size k (New maxBytes onEvicated) ops 0 : Int)) ∧
      (∀ (v : Option V) (n : Nat),
        (l.view k ≠ none ∨
          ¬ (l.maxBytes > 0 ∧ wrap (l.usedBytes + accounted size v) > l.maxBytes)) →
        ∃ l3, run size l (.set k v :: List.replicate n (.get k)) = some l3 ∧
          l3.view k = some (v, ((match l.view k with
            | none => 0
            | some vw => vw.2 + 1) : Int) + n)) ∧
      ∀ op, ∃ l2, step size l op = some l2 ∧
        (∀ v w, l.view k = some (v, w) → op = .get k → l2.view k = some (v, w + 1)) ∧
        (∀ v w v2, l.view k = some (v, w) → op = .set k v2 → l2.view k = some (v2, w + 1)) ∧
        (∀ v, op = .set k v → l.view k = none →
          (¬ (l.maxBytes > 0 ∧ wrap (l.usedBytes + accounted size v) > l.maxBytes) →
            l2.view k = some (v, 0)) ∧
          ∀ v2 w2, l2.view k = some (v2, w2) → w2 = 0 ∧ v2 = v) ∧
        (∀ k2, k2 ≠ k →
          (op = .get k2 ∨ op = .del k2 ∨ ∃ v, op = .set k2 v ∧
            (l.view k2 ≠ none ∨
              ¬ (l.maxBytes > 0 ∧ wrap (l.usedBytes + accounted size v) > l.maxBytes))) →
          l2.view k = l.view k) ∧
        ((∀ v, op ≠ .set k v) → op ≠ .get k → ∀ v w v2 w2, l.view k = some (v, w) →
          l2.view k = some (v2, w2) → w2 = w ∧ v2 = v) := by
  obtain ⟨l, hrun, hinv, hfit⟩ := accesses_fit size k ops (New maxBytes onEvicated) 0
    (Inv.new size maxBytes onEvicated) (fun v w hv => by cases hv)
  refine ⟨l, hrun, ?_, ?_, ?_⟩
  · intro v w hv
    have := hfit v w hv
    exact ⟨by rw [this]; exact Int.natCast_nonneg _, this⟩
  · intro v n hc
    obtain ⟨l1, rem, hs, hinv1, _, _, _, hnext, hrem⟩ := step_exact hinv (.set k v)
    simp only at hrem
    have hrem0 : rem = [] := by
      apply hrem
      rcases hc with hc | hc
      · left
        intro hn
        exact hc (view_of_absent hn)
      · exact Or.inr hc
    subst hrem0
    have hv1 : l1.view k = some (v, ((match l.view k with
        | none => 0
        | some vw => vw.2 + 1) : Int)) := by
      rw [hnext k (by simp)]
      unfold viewNext
      cases l.view k <;> simp
    obtain ⟨l3, hr, _, hv3, _⟩ := gets_count k v n l1 _ hinv1 hv1
    exact ⟨l3, by rw [run_cons]; simp only [step] at hs; simp only [step, hs]; exact hr, hv3⟩
  · intro op
    obtain ⟨l2, rem, hs, _, _, _, hgone, hnext, hrem⟩ := step_exact hinv op
    refine ⟨l2, hs, ?_, ?_, ?_, ?_, ?_⟩
    · intro v w hv hop
      subst hop
      simp only at hrem
      subst hrem
      rw [hnext k (by simp)]
      unfold viewNext
      simp only [if_true, hv, Option.map_some']
    · intro v w v2 hv hop
      subst hop
      simp only at hrem
      have hrem0 : rem = [] := by
        apply hrem
        left
        intro hn
        rw [view_of_absent hn] at hv; cases hv
      subst hrem0
      rw [hnext k (by simp)]
      unfold viewNext
      simp only [if_true, hv]
    · intro v hop habs
      subst hop
      simp only at hrem
      have h3 : viewNext l (.set k v) k = some (v, 0) := by
        unfold viewNext
        simp only [if_true, habs]
      constructor
      · intro hno
        have hrem0 : rem = [] := hrem (Or.inr hno)
        subst hrem0
        rw [hnext k (by simp), h3]
      · intro v2 w2 hv2
        by_cases hk : k ∈ rem.map Prod.fst
        · rw [hgone k hk] at hv2; cases hv2
        · rw [hnext k hk, h3] at hv2
          simp only [Option.some.injEq, Prod.mk.injEq] at hv2
          exact ⟨hv2.2.symm, hv2.1.symm⟩
    · intro k2 hk2 hop
      have hk : k ∉ rem.map Prod.fst := by
        rcases hop with hop | hop | ⟨v, hop, hc⟩
        · subst hop
          simp only at hrem
          subst hrem
          simp
        · subst hop
          simp only at hrem
          intro hmem
          exact hk2 (hrem k hmem).symm
        · subst hop
          simp only at hrem
          have hrem0 : rem = [] := by
            apply hrem
            rcases hc with hc | hc
            · left
              intro hn
              exact hc (view_of_absent hn)
            · exact Or.inr hc
          subst hrem0
          simp
      rw [hnext k hk]
      rcases hop with hop | hop | ⟨v, hop, _⟩
      · subst hop
        unfold viewNext
        simp only [if_neg hk2]
      · subst hop; rfl
      · subst hop
        unfold viewNext
        simp only [if_neg hk2]
    · intro hset hget v w v2 w2 hv hv2
      by_cases hk : k ∈ rem.map Prod.fst
      · rw [hgone k hk] at hv2; cases hv2
      · rw [hnext k hk] at hv2
        have hsame : viewNext l op k = l.view k := by
          cases op with
          | get k2 =>
            unfold viewNext
            simp only
            rw [if_neg (fun e => hget (by rw [e]))]
          | set k2 v3 =>
            unfold viewNext
            simp only
            rw [if_neg (fun e => hset v3 (by rw [e]))]
          | del k2 => rfl
          | delOldest => rfl
        rw [hsame, hv] at hv2
        simp only [Option.some.injEq, Prod.mk.injEq] at hv2
        exact ⟨hv2.2.symm, hv2.1.symm⟩

/-- C16 on `New(0, nil)` after `Set("k1", 1); Get("k1"); Set("k1", 5); Set("k2", 2);
Get("k3")`: `"k1"` is present with weight 2, the number of its accesses since its
insertion. -/
theorem C16_weight_counts_accesses_witness :
    ∃ l, run size8 (New 0 false)
        [.set "k1" (some 1), .get "k1", .set "k1" (some 5), .set "k2" (some 2), .get "k3"]
        = some l ∧
      l.view "k1" = some (some 5, 2) ∧
      accesses size8 "k1" (New 0 false)
        [.set "k1" (some 1), .get "k1", .set "k1" (some 5), .set "k2" (some 2), .get "k3"] 0
        = 2 ∧
      ∀ v w, l.view "k1" = some (v, w) →
        0 ≤ w ∧ w = (accesses size8 "k1" (New 0 false)
          [.set "k1" (some 1), .get "k1", .set "k1" (some 5), .set "k2" (some 2), .get "k3"] 0
            : Int) := by
  obtain ⟨l, hr, hw, _⟩ := C16_weight_counts_accesses size8 0 false
    [.set "k1" (some 1), .get "k1", .set "k1" (some 5), .set "k2" (some 2), .get "k3"] "k1"
  have hl : run size8 (New 0 false)
      [.set "k1" (some 1), .get "k1", .set "k1" (some 5), .set "k2" (some 2), .get "k3"]
      = some l := hr
  refine ⟨l, hr, ?_, rfl, hw⟩
  have he : run size8 (New 0 false)
      [.set "k1" (some 1), .get "k1", .set "k1" (some 5), .set "k2" (some 2), .get "k3"]
      = some
        { maxBytes := 0, onEvicated := false, usedBytes := 32,
          queue := { objs := [⟨"k1", some 5, 2, 1⟩, ⟨"k2", some 2, 0, 0⟩], ptrs := [1, 0] },
          cache := [("k2", 1), ("k1", 0)], evicted := [] } := by rfl
  rw [he] at hl
  cases hl
  decide

/-- C17: in every state reachable from `New`, every position `i` below `Len()`
holds an entry, and the entry held at position `i` has `index = i`; so for a
mapped key the `index` read through the table is in range and designates the
position that holds the very pointer the table maps the key to. -/
theorem C17_index_is_position {V : Type} (size : Option V → Int) (l : lfu V)
    (h : Reachable size l) :
    (∀ i, i < l.Len → ∃ e, l.queue.deref i = some e) ∧
    (∀ i e, l.queue.deref i = some e → e.index = (i : Int)) ∧
    (∀ k p, mapGet l.cache k = some p →
      ∃ (e : entry V) (i : Nat), l.queue.objs[p]? = some e ∧ e.index = (i : Int) ∧
        i < l.queue.Len ∧ l.queue.ptrs[i]? = some p) := by
  have hinv := h.inv
  refine ⟨?_, ?_, ?_⟩
  · intro i hi
    obtain ⟨p, e, hp, he, _⟩ := hinv.valid.ptr (i := i) hi
    exact ⟨e, by rw [deref_eq hp]; exact he⟩
  · intro i e hd
    unfold queue.deref at hd
    cases hp : l.queue.ptrs[i]? with
    | none => rw [hp] at hd; cases hd
    | some p =>
      rw [hp] at hd
      simp only at hd
      obtain ⟨e2, he2, hidx⟩ := hinv.valid.index i p hp
      rw [hd] at he2; cases he2
      exact hidx
  · intro k p hg
    obtain ⟨e, i, he, _, hi, hidx⟩ := hinv.of_get hg
    exact ⟨e, i, he, hidx, (List.getElem?_eq_some.1 hi).1, hi⟩

/-- C17 at `ex1`: the entry at position 1 of the queue. -/
theorem C17_index_is_position_witness :
    Reachable size8 ex1 ∧ ∃ e, ex1.queue.deref 1 = some e ∧ e.index = ((1 : Nat) : Int) := by
  have h := C17_index_is_position size8 ex1 ⟨0, false, ex1Ops, rfl⟩
  obtain ⟨e, he⟩ := h.1 1 (by decide)
  exact ⟨⟨0, false, ex1Ops, rfl⟩, e, he, h.2.1 1 e he⟩

/-- C18: an access out of range makes the modelled methods fail (`Less`, `Swap`
on a position beyond the slice, `Pop` and `heap.Pop` on an empty slice,
`heap.Remove` on an index outside the slice return `none`), and in every state
reachable from `New` all four operations return for every argument, so none of
them makes such an access; the index that `Get`, `Set` and `Del` pass to
`heap.Fix` and `heap.Remove` is a position of the queue; and `DelOldest()` on an
empty cache returns the very same state, the record of callback calls included. -/
theorem C18_heap_accesses_in_range {V : Type} (size : Option V → Int) (l : lfu V)
    (h : Reachable size l) :
    (∀ (q : queue V) (i j : Nat), q.Len ≤ i ∨ q.Len ≤ j → q.Less i j = none ∧ q.Swap i j = none) ∧
    (∀ q : queue V, q.Len = 0 → q.Pop = none ∧ heapPop q = none) ∧
    (∀ (q : queue V) (i : Int), i < 0 ∨ (q.Len : Int) ≤ i → heapRemove q i = none) ∧
    (∀ k, ∃ l2 r, l.Get k = some (l2, r)) ∧
    (∀ k v, ∃ l2, l.Set size k v = some l2) ∧
    (∀ k, ∃ l2, l.Del size k = some l2) ∧
    (∃ l2, l.DelOldest size = some l2) ∧
    (∀ k p, mapGet l.cache k = some p →
      ∃ e : entry V, l.queue.objs[p]? = some e ∧ 0 ≤ e.index ∧ e.index < (l.queue.Len : Int)) ∧
    (l.Len = 0 → l.DelOldest size = some l) := by
  have hinv := h.inv
  refine ⟨?_, ?_, ?_, ?_, ?_, ?_, ?_, ?_, DelOldest_empty size⟩
  · intro q i j hij
    have hnone : q.ptrs[i]? = none ∨ q.ptrs[j]? = none := by
      rcases hij with h1 | h1
      · exact Or.inl (List.getElem?_eq_none h1)
      · exact Or.inr (List.getElem?_eq_none h1)
    constructor
    · unfold queue.Less queue.deref
      rcases hnone with h1 | h1
      · rw [h1]
      · rw [h1]
        cases q.ptrs[i]? with
        | none => rfl
        | some a =>
          simp only
          cases q.objs[a]? <;> rfl
    · unfold queue.Swap
      rcases hnone with h1 | h1
      · rw [h1]
      · rw [h1]
        cases q.ptrs[i]? <;> rfl
  · intro q h0
    have h0' : q.ptrs.length = 0 := h0
    exact ⟨by unfold queue.Pop; rw [if_pos h0'], by unfold heapPop; rw [if_pos h0]⟩
  · intro q i hi
    unfold heapRemove
    rcases hi with h1 | h1
    · rw [if_pos h1]
    · by_cases hneg : i < 0
      · rw [if_pos hneg]
      · rw [if_neg hneg]
        by_cases h0 : q.Len = 0
        · rw [if_pos h0]
        · rw [if_neg h0]
          have hlen : q.ptrs.length ≤ i.toNat := by
            have : q.Len = q.ptrs.length := rfl
            omega
          rw [if_pos (by unfold queue.Len; omega)]
          have : q.Swap i.toNat (q.Len - 1) = none := by
            unfold queue.Swap
            rw [List.getElem?_eq_none hlen]
          rw [this]
  · intro k
    obtain ⟨l2, r, hg, _⟩ := Get_total hinv k
    exact ⟨l2, r, hg⟩
  · intro k v
    obtain ⟨l2, hs, _⟩ := Set_total hinv k v
    exact ⟨l2, hs⟩
  · intro k
    obtain ⟨l2, hd, _⟩ := Del_total hinv k
    exact ⟨l2, hd⟩
  · obtain ⟨l2, hd, _⟩ := DelOldest_total hinv
    exact ⟨l2, hd⟩
  · intro k p hg
    obtain ⟨e, i, he, _, hi, hidx⟩ := hinv.of_get hg
    have hlt := (List.getElem?_eq_some.1 hi).1
    refine ⟨e, he, by rw [hidx]; exact Int.natCast_nonneg _, ?_⟩
    rw [hidx]
    unfold queue.Len
    exact_mod_cast hlt

/-- C18 at the empty cache `New(16, cb)` and at `ex1`. -/
theorem C18_heap_accesses_in_range_witness :
    Reachable size8 (New 16 true : lfu Int) ∧
      (New 16 true : lfu Int).DelOldest size8 = some (New 16 true) ∧
    Reachable size8 ex1 ∧ ∃ l2, ex1.Del size8 "k1" = some l2 :=
  ⟨⟨16, true, [], rfl⟩,
    (C18_heap_accesses_in_range size8 (New 16 true) ⟨16, true, [], rfl⟩).2.2.2.2.2.2.2.2 rfl,
    ⟨0, false, ex1Ops, rfl⟩,
    (C18_heap_accesses_in_range size8 ex1 ⟨0, false, ex1Ops, rfl⟩).2.2.2.2.2.1 "k1"⟩

end LFU

namespace LFU

/-! ## Drift over the budget and self-eviction -/

theorem cache_nil_of_len {V : Type} {size : Option V → Int} {l : lfu V} (hinv : Inv size l)
    (h0 : l.Len = 0) : l.cache = [] := by
  have := hinv.len_eq
  rw [h0] at this
  exact List.length_eq_zero.1 this.symm

/-- When no value fits the budget, every insert evicts at once and the cache
stays empty. -/
theorem stays_empty {V : Type} (size : Option V → Int) (ops : List (Op V)) :
    ∀ l : lfu V, Inv size l → 0 < l.maxBytes → (∀ v, l.maxBytes < accounted size v) →
      l.Len = 0 →
      ∃ l2, run size l ops = some l2 ∧ l2.Len = 0 := by
  induction ops with
  | nil => intro l _ _ _ h0; exact ⟨l, rfl, h0⟩
  | cons op ops ih =>
    intro l hinv hmb hbig h0
    have hc := cache_nil_of_len hinv h0
    have habs : ∀ k, mapGet l.cache k = none := fun k => by rw [hc]; rfl
    have hstep : ∃ l1, step size l op = some l1 ∧ Inv size l1 ∧ l1.maxBytes = l.maxBytes ∧
        l1.Len = 0 := by
      cases op with
      | get k => exact ⟨l, by simp [step, Get_absent (habs k)], hinv, rfl, h0⟩
      | del k => exact ⟨l, Del_absent size (habs k), hinv, rfl, h0⟩
      | delOldest => exact ⟨l, DelOldest_empty size h0, hinv, rfl, h0⟩
      | set k v =>
        obtain ⟨l1, hI, _, hover⟩ := Set_absent hinv (habs k) v
        have hu := usedBytes_of_empty hinv h0
        have hb := hbig v
        have ha := wrap_of_fitsInt (wrap_fits (wrap (CalcLen size v + 4) + 4))
        obtain ⟨l2, en, hs, hR, _⟩ := hover ⟨hmb, by
          rw [hu, zero_add]; unfold accounted at hb ⊢; rw [ha]; exact hb⟩
        refine ⟨l2, hs, hR.inv, hR.maxBytes.trans hI.maxBytes, ?_⟩
        have h1 := hR.len
        have h2 := hI.len
        omega
    obtain ⟨l1, hs, hinv1, hmax1, hlen1⟩ := hstep
    obtain ⟨l2, hr, hl2⟩ := ih l1 hinv1 (by rw [hmax1]; exact hmb)
      (fun v => by rw [hmax1]; exact hbig v) hlen1
    exact ⟨l2, by rw [run_cons, hs]; exact hr, hl2⟩

/-- C19, as the code has it: for every positive `maxBytes`, every value `v0` that
fits it (`size(v0) + 8 ≤ maxBytes`) and every bound `M ≥ maxBytes` for which the
size estimator has a value `v1` with `M < size(v1) + 8 ≤ 2^63 - 1`, the calls
`Set(k, v0); Set(k, v1)` on a new cache return with
`usedBytes = size(v1) + 8 > M ≥ maxBytes`, no callback invocation and
`Len() = 1`; `v1` is larger than `v0`. -/
theorem C19_usedBytes_drifts_over_budget {V : Type} (size : Option V → Int)
    (maxBytes M : Int) (onEvicated : Bool) (k : String) (v0 v1 : Option V)
    (hmb : 0 < maxBytes) (hM : maxBytes ≤ M) (hfit : CalcLen size v0 + 8 ≤ maxBytes)
    (hv1 : M < CalcLen size v1 + 8) (hint : CalcLen size v1 + 8 ≤ 9223372036854775807) :
    ∃ l, CalcLen size v0 < CalcLen size v1 ∧
      run size (New maxBytes onEvicated) [.set k v0, .set k v1] = some l ∧
      l.usedBytes = CalcLen size v1 + 8 ∧
      l.usedBytes > M ∧ 0 < l.maxBytes ∧ l.maxBytes < l.usedBytes ∧
      l.evicted = [] ∧ l.Len = 1 ∧ l.view k = some (v1, 1) := by
  have hinv0 := Inv.new size maxBytes onEvicated (V := V)
  have hr0 : fitsInt (CalcLen size v0) := wrap_fits _
  have hr1 : fitsInt (CalcLen size v1) := wrap_fits _
  unfold fitsInt at hr0 hr1
  obtain ⟨l1, hI, hno, _⟩ := Set_absent hinv0 (k := k) rfl v0
  have h0 : (New maxBytes onEvicated : lfu V).usedBytes = 0 := rfl
  have hs1 := hno (fun hc => by
    have h1 : (New maxBytes onEvicated : lfu V).maxBytes = maxBytes := rfl
    rw [h1, h0] at hc
    unfold accounted wrap at hc
    omega)
  have hpres1 : mapGet l1.cache k ≠ none := by
    intro hn
    have := hI.now
    rw [view_of_absent hn] at this; cases this
  cases hg1 : mapGet l1.cache k with
  | none => exact absurd hg1 hpres1
  | some p =>
    obtain ⟨l2, e, hs2, hT, hu⟩ := Set_present hI.inv hg1 v1
    have hb := hT.view_before
    rw [hI.now] at hb
    simp only [Option.some.injEq, Prod.mk.injEq] at hb
    have hused : l2.usedBytes = CalcLen size v1 + 8 := by
      rw [hu, hI.usedBytes, ← hb.1, h0]
      unfold accounted wrap
      omega
    have hmax2 : l2.maxBytes = maxBytes := by rw [hT.maxBytes, hI.maxBytes]; rfl
    refine ⟨l2, by omega, ?_, hused, by omega, by omega, by omega, ?_, ?_, ?_⟩
    · rw [run_cons]
      have h1 : step size (New maxBytes onEvicated) (.set k v0) =
          (New maxBytes onEvicated).Set size k v0 := rfl
      rw [h1, hs1]
      simp only [Option.some_bind]
      rw [run_cons]
      have h2 : step size l1 (.set k v1) = l1.Set size k v1 := rfl
      rw [h2, hs2]
      rfl
    · rw [hT.evicted, hI.evicted]; rfl
    · rw [hT.len, hI.len]; rfl
    · rw [hT.now, ← hb.2]; rfl

/-- C19 with values of their own length, budget 16, bound 100, values of length 1
and then 100: `usedBytes` ends at 108. -/
theorem C19_usedBytes_drifts_over_budget_witness :
    (0 : Int) < 16 ∧ (16 : Int) ≤ 100 ∧ CalcLen sizeOwn (some 1) + 8 ≤ 16 ∧
    100 < CalcLen sizeOwn (some 100) + 8 ∧
    CalcLen sizeOwn (some 100) + 8 ≤ 9223372036854775807 ∧
    ∃ l, CalcLen sizeOwn (some 1) < CalcLen sizeOwn (some 100) ∧
      run sizeOwn (New 16 true) [.set "k1" (some 1), .set "k1" (some 100)] = some l ∧
      l.usedBytes = CalcLen sizeOwn (some 100) + 8 ∧
      l.usedBytes > 100 ∧ 0 < l.maxBytes ∧ l.maxBytes < l.usedBytes ∧
      l.evicted = [] ∧ l.Len = 1 ∧ l.view "k1" = some (some 100, 1) :=
  ⟨by decide, by decide, by decide, by decide, by decide,
    C19_usedBytes_drifts_over_budget sizeOwn 16 100 true "k1" (some 1) (some 100) (by decide)
      (by decide) (by decide) (by decide) (by decide)⟩

/-- C19 as stated fails in two ways.  For the bound `M = 2^63 - 1 ≥ maxBytes = 16`
and values of their own length (every Go `int` is the size of some value), no
sequence of calls leaves `usedBytes > M`.  For `maxBytes = 1` and the bound
`M = 100`, with an estimator that has values above `M` and none below 16, no
entry fits the budget: every inserting `Set` evicts at once, and after every
sequence of calls `Len()` is 0, never 1. -/
theorem C19_bound_and_budget_counterexample :
    ((16 : Int) ≤ maxInt ∧ (∀ B : Int, fitsInt B → ∃ v, CalcLen sizeOwn v = B) ∧
      ∀ (onEvicated : Bool) (ops : List (Op Int)),
        ∃ l, run sizeOwn (New 16 onEvicated) ops = some l ∧ ¬ l.usedBytes > maxInt) ∧
    ((0 : Int) < 1 ∧ (1 : Int) ≤ 100 ∧ (∃ v, CalcLen sizeFrom16 v > 100) ∧
      ∀ ops : List (Op Int), ∃ l, run sizeFrom16 (New 1 false) ops = some l ∧ l.Len = 0) := by
  refine ⟨⟨by decide, ?_, ?_⟩, by decide, by decide, ⟨some 1000, by decide⟩, ?_⟩
  · intro B hB
    exact ⟨some B, wrap_of_fitsInt hB⟩
  · intro onEvicated ops
    obtain ⟨l, hr, hinv⟩ := run_total ops (Inv.new sizeOwn 16 onEvicated)
    have := hinv.fits
    unfold fitsInt at this
    refine ⟨l, hr, ?_⟩
    unfold maxInt
    omega
  · intro ops
    refine stays_empty sizeFrom16 ops (New 1 false) (Inv.new sizeFrom16 1 false) (by decide)
      (fun v => ?_) rfl
    have h1 : (New 1 false : lfu Int).maxBytes = 1 := rfl
    rw [h1]
    cases v with
    | none => decide
    | some n =>
      have h2 : 0 ≤ n % 4611686018427387904 := Int.emod_nonneg _ (by decide)
      have h3 : n % 4611686018427387904 < 4611686018427387904 := Int.emod_lt_of_pos _ (by decide)
      unfold accounted CalcLen wrap
      simp only [sizeFrom16]
      omega

/-- C20, as the code has it: in a reachable state with `maxBytes > 0` all of whose
entries have weight at least 1, a `Set(k, v)` of an absent key for which
`usedBytes + size(v) + 8`, computed in the wrapping arithmetic of a Go `int`,
exceeds `maxBytes` returns having evicted the entry it has just inserted: the
callback (when one is configured) is invoked once, with `(k, v)`; `Get(k)` then
returns nil; every key is seen as before the call, and `Len()` and `usedBytes`
are as before.  Hence `Get(k)` returns nil, so it does not return a `v` that is
not nil.  Whenever the exact sum `usedBytes + size(v) + 8` is a Go `int`, the Go
`int` compared with `maxBytes` is that sum. -/
theorem C20_fresh_insert_evicts_itself {V : Type} (size : Option V → Int) (l : lfu V)
    (h : Reachable size l) (hmax : l.maxBytes > 0)
    (hw : ∀ k2 v2 w2, l.view k2 = some (v2, w2) → 1 ≤ w2) (k : String) (v : Option V)
    (habs : mapGet l.cache k = none)
    (hover : wrap (l.usedBytes + accounted size v) > l.maxBytes) :
    ∃ l2, l.Set size k v = some l2 ∧
      l2.evicted = (if l.onEvicated then l.evicted ++ [(k, v)] else l.evicted) ∧
      l2.Get k = some (l2, none) ∧ (∀ k2, l2.view k2 = l.view k2) ∧ l2.Len = l.Len ∧
      l2.usedBytes = l.usedBytes ∧
      (v ≠ none → ∀ l3 r, l2.Get k = some (l3, r) → r ≠ v) ∧
      (fitsInt (l.usedBytes + CalcLen size v + 8) →
        wrap (l.usedBytes + accounted size v) = l.usedBytes + CalcLen size v + 8) := by
  have hinv := h.inv
  obtain ⟨l1, hI, _, hov⟩ := Set_absent hinv habs v
  obtain ⟨l2, en, hs, hR, hmin, _⟩ := hov ⟨hmax, hover⟩
  have hwas := hR.view_was
  have hle : en.weight ≤ 0 := by
    obtain ⟨e, he, _, hew⟩ := view_some_iff.1 hI.now
    have := hmin k e he
    omega
  have hkey : en.key = k := by
    by_contra hne
    rw [hI.others _ hne] at hwas
    have := hw _ _ _ hwas
    omega
  rw [hkey, hI.now] at hwas
  simp only [Option.some.injEq, Prod.mk.injEq] at hwas
  have hgone : mapGet l2.cache k = none := by
    rw [hR.cache, hkey, mapGet_mapDelete, if_pos rfl]
  have hget : l2.Get k = some (l2, none) := Get_absent hgone
  refine ⟨l2, hs, ?_, hget, ?_, ?_, ?_, ?_, ?_⟩
  · rw [hR.evicted, hI.onEvicated, hI.evicted, hkey, ← hwas.1]
  · intro k2
    by_cases hk : k2 = k
    · rw [hk, view_of_absent hgone, view_of_absent habs]
    · rw [hR.others k2 (by rw [hkey]; exact hk), hI.others k2 hk]
  · have h1 := hR.len
    have h2 := hI.len
    omega
  · rw [hR.usedBytes, hI.usedBytes]
    have hf := hinv.fits
    unfold fitsInt at hf
    simp only [entry.Len, ← hwas.1]
    unfold accounted wrap
    omega
  · intro hv l3 r hg
    rw [hget] at hg
    simp only [Option.some.injEq, Prod.mk.injEq] at hg
    rw [← hg.2]
    exact fun e => hv e.symm
  · intro hf
    unfold fitsInt at hf
    unfold accounted wrap
    omega

theorem ex3_weights : ∀ (k2 : String) (v2 : Option Int) (w2 : Int),
    ex3.view k2 = some (v2, w2) → 1 ≤ w2 := by
  intro k2 v2 w2 hv
  by_cases hk : "k1" = k2
  · subst hk
    have : ex3.view "k1" = some (some 1, 1) := rfl
    rw [this] at hv
    simp only [Option.some.injEq, Prod.mk.injEq] at hv
    omega
  · have : ex3.view k2 = none := by
      simp [lfu.view, lfu.find, ex3, mapGet, hk]
    rw [this] at hv; cases hv

theorem ex6_weights : ∀ (k2 : String) (v2 : Option Int) (w2 : Int),
    ex6.view k2 = some (v2, w2) → 1 ≤ w2 := by
  intro k2 v2 w2 hv
  by_cases hk : "a" = k2
  · subst hk
    have : ex6.view "a" = some (some big, 1) := rfl
    rw [this] at hv
    simp only [Option.some.injEq, Prod.mk.injEq] at hv
    omega
  · have : ex6.view k2 = none := by
      simp [lfu.view, lfu.find, ex6, mapGet, hk]
    rw [this] at hv; cases hv

/-- C20 at `ex3` (budget 16, `"k1"` of weight 1, 16 bytes used) and `Set("k2", 2)`:
the sum 32 is a Go `int` and exceeds the budget. -/
theorem C20_fresh_insert_evicts_itself_witness :
    Reachable size8 ex3 ∧ ex3.maxBytes > 0 ∧ mapGet ex3.cache "k2" = none ∧
      wrap (ex3.usedBytes + accounted size8 (some 2)) = 32 ∧
      ∃ l2, ex3.Set size8 "k2" (some 2) = some l2 ∧
        l2.evicted = (if ex3.onEvicated then ex3.evicted ++ [("k2", some 2)] else ex3.evicted) ∧
        l2.Get "k2" = some (l2, none) ∧ (∀ k2, l2.view k2 = ex3.view k2) ∧ l2.Len = ex3.Len ∧
        l2.usedBytes = ex3.usedBytes ∧
        ((some 2 : Option Int) ≠ none → ∀ l3 r, l2.Get "k2" = some (l3, r) → r ≠ some 2) ∧
        (fitsInt (ex3.usedBytes + CalcLen size8 (some 2) + 8) →
          wrap (ex3.usedBytes + accounted size8 (some 2)) =
            ex3.usedBytes + CalcLen size8 (some 2) + 8) :=
  ⟨⟨16, true, ex3Ops, rfl⟩, by decide, by decide, by decide,
    C20_fresh_insert_evicts_itself size8 ex3 ⟨16, true, ex3Ops, rfl⟩ (by decide) ex3_weights
      "k2" (some 2) (by decide) (by decide)⟩

/-- C20 as stated fails: in the state reached by `Set("a", x); Get("a")` on
`New(2^63 - 1, cb)`, with `x` of size `2^62`, the cache is not empty, its one
entry has weight 1, `"b"` is absent and
`usedBytes + size(x) + 8 = 2^63 + 16 > maxBytes`, yet `Set("b", x)` evicts
nothing: the callback is not invoked, `Len()` grows to 2 and `Get("b")` returns
`x`. -/
theorem C20_overflow_counterexample :
    run sizeOwn (New maxInt true) ex6Ops = some ex6 ∧ ex6.Len ≠ 0 ∧ ex6.maxBytes > 0 ∧
      (∀ (k2 : String) (v2 : Option Int) (w2 : Int), ex6.view k2 = some (v2, w2) → 1 ≤ w2) ∧
      mapGet ex6.cache "b" = none ∧
      ex6.usedBytes + sizeOwn (some big) + 8 > ex6.maxBytes ∧
      ∃ l2 l3, ex6.Set sizeOwn "b" (some big) = some l2 ∧ l2.evicted = [] ∧
        l2.Len = ex6.Len + 1 ∧ l2.Get "b" = some (l3, some big) :=
  ⟨rfl, by decide, by decide, ex6_weights, by decide, by decide, _, _, rfl, rfl, rfl, rfl⟩

end LFU

namespace LFU

/-! ## `Get` against the history of a key -/

theorem reported_append {V : Type} (k : String) (log rem : List (String × Option V)) :
    reported k log.length (log ++ rem) = true ↔ k ∈ rem.map Prod.fst := by
  unfold reported
  rw [List.drop_left, List.any_eq_true]
  constructor
  · rintro ⟨kv, hmem, hk⟩
    exact List.mem_map.2 ⟨kv, hmem, of_decide_eq_true hk⟩
  · intro h
    obtain ⟨kv, hmem, hk⟩ := List.mem_map.1 h
    exact ⟨kv, hmem, decide_eq_true hk⟩

/-! ### The callback does not influence the calls -/

theorem removeElement_silent {V : Type} (size : Option V → Int) (l : lfu V) (x : Option Nat) :
    lfu.removeElement size l.silent x = (lfu.removeElement size l x).map lfu.silent := by
  cases x with
  | none => rfl
  | some p =>
    unfold lfu.removeElement
    simp only [lfu.silent]
    cases l.queue.objs[p]? with
    | none => rfl
    | some en => simp [lfu.silent]

theorem Get_silent {V : Type} (l : lfu V) (k : String) :
    l.silent.Get k = (l.Get k).map (fun p => (p.1.silent, p.2)) := by
  unfold lfu.Get
  simp only [lfu.silent]
  cases mapGet l.cache k with
  | none => rfl
  | some e =>
    simp only
    cases l.queue.objs[e]? with
    | none => rfl
    | some en =>
      simp only
      cases l.queue.update e en.value (en.weight + 1) with
      | none => rfl
      | some q =>
        simp only
        cases q.objs[e]? with
        | none => rfl
        | some en1 => rfl

theorem Set_silent {V : Type} (size : Option V → Int) (l : lfu V) (k : String) (v : Option V) :
    l.silent.Set size k v = (l.Set size k v).map lfu.silent := by
  unfold lfu.Set
  have hc : l.silent.cache = l.cache := rfl
  have hq : l.silent.queue = l.queue := rfl
  have hm : l.silent.maxBytes = l.maxBytes := rfl
  have hu : l.silent.usedBytes = l.usedBytes := rfl
  rw [hc, hq, hm, hu]
  cases mapGet l.cache k with
  | some e =>
    simp only
    cases l.queue.objs[e]? with
    | none => rfl
    | some en =>
      simp only
      cases l.queue.update e v (en.weight + 1) with
      | none => rfl
      | some q => rfl
  | none =>
    simp only
    cases heapPush { l.queue with objs := l.queue.objs ++ [⟨k, v, 0, 0⟩] }
        l.queue.objs.length with
    | none => rfl
    | some q1 =>
      simp only
      cases q1.objs[l.queue.objs.length]? with
      | none => rfl
      | some en =>
        simp only
        split_ifs with hif
        · cases heapPop q1 with
          | none => rfl
          | some qx =>
            simp only
            exact removeElement_silent size
              { l with queue := qx.1, cache := mapSet l.cache k l.queue.objs.length,
                       usedBytes := wrap (l.usedBytes + en.Len size) } (some qx.2)
        · rfl

theorem Del_silent {V : Type} (size : Option V → Int) (l : lfu V) (k : String) :
    l.silent.Del size k = (l.Del size k).map lfu.silent := by
  unfold lfu.Del
  have hc : l.silent.cache = l.cache := rfl
  have hq : l.silent.queue = l.queue := rfl
  rw [hc, hq]
  cases mapGet l.cache k with
  | none => rfl
  | some e =>
    simp only
    cases l.queue.objs[e]? with
    | none => rfl
    | some en =>
      simp only
      cases heapRemove l.queue en.index with
      | none => rfl
      | some qx => exact removeElement_silent size { l with queue := qx.1 } (some e)

theorem DelOldest_silent {V : Type} (size : Option V → Int) (l : lfu V) :
    l.silent.DelOldest size = (l.DelOldest size).map lfu.silent := by
  unfold lfu.DelOldest
  have hq : l.silent.queue = l.queue := rfl
  rw [hq]
  split_ifs with h0
  · rfl
  · cases heapPop l.queue with
    | none => rfl
    | some qx => exact removeElement_silent size { l with queue := qx.1 } (some qx.2)

theorem step_silent {V : Type} (size : Option V → Int) (l : lfu V) (op : Op V) :
    step size l.silent op = (step size l op).map lfu.silent := by
  cases op with
  | get k =>
    simp only [step, Get_silent, Option.map_map]
    rfl
  | set k v => exact Set_silent size l k v
  | del k => exact Del_silent size l k
  | delOldest => exact DelOldest_silent size l

theorem run_silent {V : Type} (size : Option V → Int) (ops : List (Op V)) :
    ∀ l : lfu V, run size l.silent ops = (run size l ops).map lfu.silent := by
  induction ops with
  | nil => intro l; rfl
  | cons op ops ih =>
    intro l
    rw [run_cons, run_cons, step_silent]
    cases step size l op with
    | none => rfl
    | some l1 => exact ih l1

/-! ### The state follows the history -/

theorem viewNext_fst {V : Type} (l : lfu V) (op : Op V) (k : String)
    (hop : ∀ v, op ≠ .set k v) :
    (viewNext l op k).map Prod.fst = (l.view k).map Prod.fst := by
  cases op with
  | get k2 =>
    unfold viewNext
    simp only
    split_ifs
    · cases l.view k <;> rfl
    · rfl
  | set k2 v =>
    unfold viewNext
    simp only
    rw [if_neg (fun e => hop v (by rw [e]))]
  | del k2 => rfl
  | delOldest => rfl

theorem historyStep_fits {V : Type} {size : Option V → Int} {l : lfu V} (hinv : Inv size l)
    (hcb : l.onEvicated = true) (op : Op V) (k : String) (h : Option (Option V × Bool × Bool))
    (hf : HistoryFits l k h) :
    ∃ l1, step size l op = some l1 ∧ Inv size l1 ∧ l1.onEvicated = true ∧
      HistoryFits l1 k (historyStep k l l1 op h) := by
  obtain ⟨l1, rem, hs, hinv1, hcb1, hlog, hgone, hnext, _⟩ := step_exact hinv op
  refine ⟨l1, hs, hinv1, hcb1.trans hcb, ?_⟩
  rw [hcb, if_pos rfl] at hlog
  have hrep : reported k l.evicted.length l1.evicted = true ↔ k ∈ rem.map Prod.fst := by
    rw [hlog]; exact reported_append k l.evicted rem
  -- the generic case: the call is not a `Set` of `k`
  have generic : (∀ v, op ≠ .set k v) →
      HistoryFits l1 k
        (h.map (fun r => (r.1, r.2.1, r.2.2 || reported k l.evicted.length l1.evicted))) := by
    intro hop
    have hfst := viewNext_fst l op k hop
    cases h with
    | none =>
      simp only [Option.map_none', HistoryFits] at hf ⊢
      by_cases hk : k ∈ rem.map Prod.fst
      · exact hgone k hk
      · have := hnext k hk
        rw [hf] at hfst
        rw [← this] at hfst
        cases hv : l1.view k with
        | none => rfl
        | some x => rw [hv] at hfst; cases hfst
    | some vda =>
      obtain ⟨v, d, a⟩ := vda
      simp only [Option.map_some', HistoryFits] at hf ⊢
      by_cases hk : k ∈ rem.map Prod.fst
      · rw [hrep.2 hk, Bool.or_true]
        simp only [or_true, if_true]
        exact hgone k hk
      · have hrf : reported k l.evicted.length l1.evicted = false := by
          cases hb : reported k l.evicted.length l1.evicted with
          | false => rfl
          | true => exact absurd (hrep.1 hb) hk
        rw [hrf, Bool.or_false]
        have hv1 := hnext k hk
        by_cases hda : d = true ∨ a = true
        · rw [if_pos hda] at hf ⊢
          rw [hf] at hfst
          rw [← hv1] at hfst
          cases hv : l1.view k with
          | none => rfl
          | some x => rw [hv] at hfst; cases hfst
        · rw [if_neg hda] at hf ⊢
          rw [hv1, hfst, hf]
  cases op with
  | set k2 v =>
    by_cases hk : k2 = k
    · subst hk
      unfold historyStep
      simp only [if_true]
      simp only [HistoryFits, Bool.false_eq_true, or_false]
      by_cases hkr : k2 ∈ rem.map Prod.fst
      · rw [if_pos (hrep.2 hkr)]
        exact hgone k2 hkr
      · have hrf : ¬ reported k2 l.evicted.length l1.evicted = true := fun hb => hkr (hrep.1 hb)
        rw [if_neg hrf, hnext k2 hkr]
        unfold viewNext
        simp only [if_true, Option.map_some']
    · have := generic (fun v2 e => hk (by cases e; rfl))
      unfold historyStep
      simp only [if_neg hk]
      exact this
  | get k2 => exact generic (fun v e => by cases e)
  | del k2 => exact generic (fun v e => by cases e)
  | delOldest => exact generic (fun v e => by cases e)

theorem history_fits {V : Type} (size : Option V → Int) (k : String) (ops : List (Op V)) :
    ∀ (l : lfu V) (h : Option (Option V × Bool × Bool)), Inv size l → l.onEvicated = true →
      HistoryFits l k h →
      ∃ l2, run size l ops = some l2 ∧ Inv size l2 ∧
        HistoryFits l2 k (history size k l ops h) := by
  induction ops with
  | nil => intro l h hinv _ hf; exact ⟨l, rfl, hinv, hf⟩
  | cons op ops ih =>
    intro l h hinv hcb hf
    obtain ⟨l1, hs, hinv1, hcb1, hf1⟩ := historyStep_fits hinv hcb op k h hf
    obtain ⟨l2, hr, hi2, hf2⟩ := ih l1 _ hinv1 hcb1 hf1
    refine ⟨l2, by rw [run_cons, hs]; exact hr, hi2, ?_⟩
    unfold history
    rw [hs]
    exact hf2

theorem Get_of_fits {V : Type} {size : Option V → Int} {l : lfu V} (hinv : Inv size l)
    (k : String) (h : Option (Option V × Bool × Bool)) (hf : HistoryFits l k h) :
    ∃ l2 r, l.Get k = some (l2, r) ∧ GetAgreesAmended r h := by
  cases hg : mapGet l.cache k with
  | none =>
    have hv := view_of_absent hg
    refine ⟨l, none, Get_absent hg, Or.inl rfl, ?_⟩
    simp only [true_iff]
    cases h with
    | none => exact Or.inl rfl
    | some vda =>
      obtain ⟨v, d, a⟩ := vda
      right
      refine ⟨v, d, a, rfl, ?_⟩
      simp only [HistoryFits] at hf
      by_cases hda : d = true ∨ a = true
      · rcases hda with hd | ha
        · exact Or.inl hd
        · exact Or.inr (Or.inl ha)
      · rw [if_neg hda, hv] at hf
        cases hf
  | some p =>
    obtain ⟨l2, e, hget, hT, _⟩ := Get_spec hinv hg
    have hv := hT.view_before
    refine ⟨l2, e.value, hget, ?_⟩
    cases h with
    | none =>
      simp only [HistoryFits] at hf
      rw [hv] at hf; cases hf
    | some vda =>
      obtain ⟨v, d, a⟩ := vda
      simp only [HistoryFits] at hf
      by_cases hda : d = true ∨ a = true
      · rw [if_pos hda, hv] at hf; cases hf
      · rw [if_neg hda, hv] at hf
        simp only [Option.map_some', Option.some.injEq] at hf
        refine ⟨Or.inr ⟨v, d, a, rfl, hf⟩, ?_⟩
        rw [hf]
        constructor
        · intro hn
          exact Or.inr ⟨v, d, a, rfl, Or.inr (Or.inr hn)⟩
        · intro hh
          rcases hh with hh | ⟨v2, d2, a2, hh, hcase⟩
          · cases hh
          · simp only [Option.some.injEq, Prod.mk.injEq] at hh
            obtain ⟨h1, h2, h3⟩ := hh
            subst h1 h2 h3
            rcases hcase with hc | hc | hc
            · exact absurd (Or.inl hc) hda
            · exact absurd (Or.inr hc) hda
            · exact hc

/-- C1, as the code has it: after any sequence of calls on a cache created by
`New` the run returns, and `Get(k)` returns, with either nil or the value passed to
the most recent `Set(k, ·)`; it returns nil exactly when `k` was never set, or
`k` has been reported to the eviction callback by the most recent `Set(k, ·)`
itself or by a call made after it, or the value passed to that `Set` was itself
nil.  What is reported to the callback is read from the same calls on the same
cache created with a recording callback, `lt`, from which the cache `l` differs
in its callback at most. -/
theorem C1_get_returns_last_set_value {V : Type} (size : Option V → Int) (maxBytes : Int)
    (onEvicated : Bool) (ops : List (Op V)) (k : String) :
    ∃ l l2 r lt, run size (New maxBytes onEvicated) ops = some l ∧ l.Get k = some (l2, r) ∧
      run size (New maxBytes true) ops = some lt ∧ l.silent = lt.silent ∧
      GetAgreesAmended r (history size k (New maxBytes true) ops none) := by
  obtain ⟨lt, hrun, hinv, hf⟩ := history_fits size k ops (New maxBytes true) none
    (Inv.new size maxBytes true) rfl (by simp [HistoryFits, lfu.view, lfu.find, New, mapGet])
  obtain ⟨l2, r, hget, hagree⟩ := Get_of_fits hinv k _ hf
  cases onEvicated with
  | true => exact ⟨lt, l2, r, lt, hrun, hget, hrun, rfl, hagree⟩
  | false =>
    have h0 : (New maxBytes false : lfu V) = (New maxBytes true : lfu V).silent := rfl
    refine ⟨lt.silent, l2.silent, r, lt, ?_, ?_, hrun, rfl, hagree⟩
    · rw [h0, run_silent, hrun]; rfl
    · rw [Get_silent, hget]; rfl

/-- C1 as stated fails after `Set("k1", 1); Get("k1"); Set("k2", 2)` on
`New(16, cb)` with 8 bytes per integer: the over-budget `Set("k2", 2)` evicts the
entry it has just inserted (`"k1"` has weight 1) and reports `("k2", 2)` to the
callback before it returns; no call is made after it, so `"k2"` was set and has
not been removed after its most recent `Set`, yet `Get("k2")` returns nil. -/
theorem C1_self_eviction_counterexample :
    ∃ l l2 r, run size8 (New 16 true) [.set "k1" (some 1), .get "k1", .set "k2" (some 2)]
        = some l ∧
      l.evicted = [("k2", some 2)] ∧ l.Get "k2" = some (l2, r) ∧ r = none ∧
      history size8 "k2" (New 16 true) [.set "k1" (some 1), .get "k1", .set "k2" (some 2)] none
        = some (some 2, true, false) ∧
      ¬ GetAgrees r
        (history size8 "k2" (New 16 true) [.set "k1" (some 1), .get "k1", .set "k2" (some 2)]
          none) := by
  refine ⟨_, _, none, rfl, rfl, rfl, rfl, rfl, ?_⟩
  intro h
  have h1 := h.2.1 rfl
  have h2 : history size8 "k2" (New 16 true)
      [.set "k1" (some 1), .get "k1", .set "k2" (some 2)] none = some (some 2, true, false) := rfl
  rw [h2] at h1
  rcases h1 with h1 | ⟨v, d, h1⟩
  · cases h1
  · cases h1

end LFU

namespace LFU

/-! ## The eviction-order scenario -/

/-- When one key has weight 0 and every other present key a weight of at least 1,
the heap order puts that key at the root. -/
theorem root_of_light {V : Type} {size : Option V → Int} {l : lfu V} (hinv : Inv size l)
    {m : String} {vm : Option V} (hm : l.view m = some (vm, 0))
    (hoth : ∀ k v w, k ≠ m → l.view k = some (v, w) → 1 ≤ w) : RootIs l m vm := by
  have hB : mapGet l.cache m ≠ none := by
    intro hh
    rw [view_of_absent hh] at hm; cases hm
  cases hg : mapGet l.cache m with
  | none => exact absurd hg hB
  | some p =>
    obtain ⟨eB, i, heB, _, hi, _⟩ := hinv.of_get hg
    have hlen : 0 < l.queue.ptrs.length := by
      have := (List.getElem?_eq_some.1 hi).1; omega
    obtain ⟨y, e, hy, he, _⟩ := hinv.valid.ptr hlen
    obtain ⟨e2, he2, hgy⟩ := hinv.of_ptr (List.mem_iff_getElem?.2 ⟨0, hy⟩)
    rw [he] at he2; cases he2
    have hview : l.view e.key = some (e.value, e.weight) := by
      rw [view_of_get hgy, he]; rfl
    have hfB : l.find m = some eB := by simp [lfu.find, hg, heB]
    have hwB : eB.weight = 0 := by
      have := hm
      rw [view_of_get hg, heB] at this
      simp only [Option.map_some', Option.some.injEq, Prod.mk.injEq] at this
      exact this.2
    have hmin := root_min hinv hy he m eB hfB
    by_cases hkB : e.key = m
    · rw [hkB, hm] at hview
      simp only [Option.some.injEq, Prod.mk.injEq] at hview
      exact ⟨y, e, hy, he, hkB, hview.1.symm, hview.2.symm⟩
    · have := hoth _ _ _ hkB hview
      omega

/-- A `Set` of an absent key that passes the capacity test only inserts. -/
theorem Set_fresh_fit {V : Type} {size : Option V → Int} {l : lfu V} (hinv : Inv size l)
    {k : String} (habs : l.view k = none) (v : Option V)
    (hfit : ¬ (l.maxBytes > 0 ∧ wrap (l.usedBytes + accounted size v) > l.maxBytes)) :
    ∃ l2, step size l (.set k v) = some l2 ∧ Inv size l2 ∧ l2.onEvicated = l.onEvicated ∧
      l2.maxBytes = l.maxBytes ∧ l2.evicted = l.evicted ∧
      l2.usedBytes = wrap (l.usedBytes + accounted size v) ∧ l2.Len = l.Len + 1 ∧
      ∀ k2, l2.view k2 = if k2 = k then some (v, 0) else l.view k2 := by
  have hg := (hinv.absent_iff k).2 habs
  obtain ⟨l1, hI, hno, _⟩ := Set_absent hinv hg v
  refine ⟨l1, hno hfit, hI.inv, hI.onEvicated, hI.maxBytes, hI.evicted, hI.usedBytes, hI.len, ?_⟩
  intro k2
  by_cases hk : k2 = k
  · rw [if_pos hk, hk]; exact hI.now
  · rw [if_neg hk]; exact hI.others k2 hk

/-- A `Set` of an absent key that fails the capacity test, in a state where the
key `m` has weight 0 and every other key a weight of at least 1, evicts `m`. -/
theorem Set_fresh_over {V : Type} {size : Option V → Int} {l : lfu V} (hinv : Inv size l)
    {k : String} (habs : l.view k = none) (v : Option V)
    (hover : l.maxBytes > 0 ∧ wrap (l.usedBytes + accounted size v) > l.maxBytes)
    {m : String} {u : Option V} (hm : l.view m = some (u, 0))
    (hoth : ∀ k2 v2 w2, k2 ≠ m → l.view k2 = some (v2, w2) → 1 ≤ w2) :
    ∃ l2, step size l (.set k v) = some l2 ∧ Inv size l2 ∧ l2.onEvicated = l.onEvicated ∧
      l2.maxBytes = l.maxBytes ∧
      l2.evicted = (if l.onEvicated then l.evicted ++ [(m, u)] else l.evicted) ∧
      l2.usedBytes = wrap (wrap (l.usedBytes + accounted size v) - accounted size u) ∧
      l2.Len = l.Len ∧
      ∀ k2, l2.view k2 = if k2 = m then none else if k2 = k then some (v, 0) else l.view k2 := by
  have hg := (hinv.absent_iff k).2 habs
  obtain ⟨y, e, hy, he, hek, hev, hew⟩ := root_of_light hinv hm hoth
  obtain ⟨l1, hI, _, hov⟩ := Set_absent hinv hg v
  obtain ⟨l2, en, hs, hR, _, y2, hy2, hen2⟩ := hov hover
  obtain ⟨e1, hy1, he1, hk1, hv1, _⟩ := hI.root y e hy he (by omega)
  rw [hy1] at hy2
  cases hy2
  rw [he1] at hen2
  cases hen2
  have hkey : en.key = m := hk1.trans hek
  have hval : en.value = u := hv1.trans hev
  refine ⟨l2, hs, hR.inv, hR.onEvicated.trans hI.onEvicated, hR.maxBytes.trans hI.maxBytes,
    ?_, ?_, ?_, ?_⟩
  · rw [hR.evicted, hI.onEvicated, hI.evicted, hkey, hval]
  · rw [hR.usedBytes, hI.usedBytes, entry_Len_eq, hval]
  · have h1 := hR.len
    have h2 := hI.len
    omega
  · intro k2
    by_cases hk2 : k2 = m
    · rw [if_pos hk2, hk2, ← hkey]; exact hR.gone
    · rw [if_neg hk2, hR.others k2 (by rw [hkey]; exact hk2)]
      by_cases hk : k2 = k
      · rw [if_pos hk, hk]; exact hI.now
      · rw [if_neg hk]; exact hI.others k2 hk

/-- A `Get` of a present key adds one to its weight and changes nothing else. -/
theorem Get_hit {V : Type} {size : Option V → Int} {l : lfu V} (hinv : Inv size l)
    {k : String} {v : Option V} {w : Int} (hv : l.view k = some (v, w)) :
    ∃ l2, step size l (.get k) = some l2 ∧ Inv size l2 ∧ l2.onEvicated = l.onEvicated ∧
      l2.maxBytes = l.maxBytes ∧ l2.evicted = l.evicted ∧ l2.usedBytes = l.usedBytes ∧
      l2.Len = l.Len ∧ ∀ k2, l2.view k2 = if k2 = k then some (v, w + 1) else l.view k2 := by
  cases hg : mapGet l.cache k with
  | none => rw [view_of_absent hg] at hv; cases hv
  | some p =>
    obtain ⟨l2, e, hget, hT, hu⟩ := Get_spec hinv hg
    have hb := hT.view_before
    rw [hv] at hb
    simp only [Option.some.injEq, Prod.mk.injEq] at hb
    refine ⟨l2, by simp [step, hget], hT.inv, hT.onEvicated, hT.maxBytes, hT.evicted, hu,
      hT.len, ?_⟩
    intro k2
    by_cases hk : k2 = k
    · rw [if_pos hk, hk, hT.now, hb.1, hb.2]
    · rw [if_neg hk]; exact hT.others k2 hk

theorem run_step {V : Type} {size : Option V → Int} {l l1 : lfu V} {op : Op V}
    (h : step size l op = some l1) (ops : List (Op V)) :
    run size l (op :: ops) = run size l1 ops := by
  rw [run_cons, h]; rfl

/-- A `Get` of an absent key changes nothing. -/
theorem Get_miss {V : Type} {size : Option V → Int} {l : lfu V} (hinv : Inv size l)
    {k : String} (hv : l.view k = none) : step size l (.get k) = some l := by
  simp [step, Get_absent ((hinv.absent_iff k).2 hv)]

/-- C14 in general form.  On a cache with a positive budget and a recording
callback, for pairwise distinct keys `k1, k2, k3, k4`, any values and any size
estimator such that the first entry fits the budget, the calls
`Set(k1, v1); Set(k2, v2); Get(k1); Set(k3, v3); Get(k1); Set(k4, v4)` return,
and (all sums being those of a Go `int`):

* when no two consecutive entries fit together (the case of a 16-byte budget
  with 8 bytes per integer, an entry being accounted `8 + 8` bytes), every
  `Set` after the first evicts the one resident entry, both `Get(k1)` miss, and
  the callback records `k1`, then `k2`, then `k3`: the first two evictions
  recorded are `k1` then `k2`;
* when two entries fit together and three do not, both `Get(k1)` hit, each of
  `Set(k3, ·)` and `Set(k4, ·)` evicts the entry of weight 0 that is not the one
  just inserted, and the callback records `k2` then `k3`, while `k1`, read twice,
  stays with weight 2. -/
theorem C14_eviction_order_scenario {V : Type} (size : Option V → Int) (maxBytes : Int)
    (k1 k2 k3 k4 : String) (v1 v2 v3 v4 : Option V) (hk : [k1, k2, k3, k4].Nodup)
    (hmb : 0 < maxBytes) (h1 : accounted size v1 ≤ maxBytes) :
    (wrap (accounted size v1 + accounted size v2) > maxBytes →
      wrap (accounted size v2 + accounted size v3) > maxBytes →
      wrap (accounted size v3 + accounted size v4) > maxBytes →
      ∃ l, run size (New maxBytes true) (scenario k1 k2 k3 k4 v1 v2 v3 v4) = some l ∧
        l.evicted = [(k1, v1), (k2, v2), (k3, v3)] ∧
        (l.evicted.map Prod.fst).take 2 = [k1, k2] ∧ l.Len = 1 ∧
        l.view k4 = some (v4, 0)) ∧
    (wrap (accounted size v1 + accounted size v2) ≤ maxBytes →
      wrap (wrap (accounted size v1 + accounted size v2) + accounted size v3) > maxBytes →
      wrap (wrap (accounted size v1 + accounted size v3) + accounted size v4) > maxBytes →
      ∃ l, run size (New maxBytes true) (scenario k1 k2 k3 k4 v1 v2 v3 v4) = some l ∧
        l.evicted = [(k2, v2), (k3, v3)] ∧
        (l.evicted.map Prod.fst).take 2 = [k2, k3] ∧ l.Len = 2 ∧
        l.view k1 = some (v1, 2) ∧ l.view k4 = some (v4, 0)) := by
  simp only [List.nodup_cons, List.mem_cons, List.mem_singleton, List.not_mem_nil, not_or,
    not_false_eq_true, List.nodup_nil, and_true] at hk
  obtain ⟨⟨h12, h13, h14⟩, ⟨h23, h24⟩, h34⟩ := hk
  have hinv0 := Inv.new size maxBytes true (V := V)
  have hview0 : ∀ k, (New maxBytes true : lfu V).view k = none := fun k => rfl
  have hr1 : fitsInt (accounted size v1) := wrap_fits _
  have hr2 : fitsInt (accounted size v2) := wrap_fits _
  have hr3 : fitsInt (accounted size v3) := wrap_fits _
  have hr4 : fitsInt (accounted size v4) := wrap_fits _
  unfold fitsInt at hr1 hr2 hr3 hr4
  -- Set(k1, v1): the first entry fits
  obtain ⟨s1, hs1, hinv1, hcb1, hmax1, hlog1, hu1, hlen1, hv1⟩ :=
    Set_fresh_fit hinv0 (hview0 k1) v1 (by
      intro hc
      have h2 : (New maxBytes true : lfu V).maxBytes = maxBytes := rfl
      have h3 : (New maxBytes true : lfu V).usedBytes = 0 := rfl
      rw [h2, h3] at hc
      unfold wrap at hc
      omega)
  have hmax1' : s1.maxBytes = maxBytes := hmax1
  have hcb1' : s1.onEvicated = true := hcb1
  have hlog1' : s1.evicted = [] := hlog1
  have hlen1' : s1.Len = 1 := hlen1
  have hu1' : s1.usedBytes = accounted size v1 := by
    rw [hu1]
    have h3 : (New maxBytes true : lfu V).usedBytes = 0 := rfl
    rw [h3]
    unfold wrap
    omega
  have hv1' : ∀ k, s1.view k = if k = k1 then some (v1, 0) else none := by
    intro k; rw [hv1 k, hview0 k]
  have hs1k1 : s1.view k1 = some (v1, 0) := by rw [hv1', if_pos rfl]
  have hs1k2 : s1.view k2 = none := by rw [hv1', if_neg (Ne.symm h12)]
  have hs1o : ∀ k v w, k ≠ k1 → s1.view k = some (v, w) → 1 ≤ w := by
    intro k v w hk hv
    rw [hv1', if_neg hk] at hv; cases hv
  constructor
  · intro ha hb hc
    -- Set(k2, v2) evicts k1
    obtain ⟨s2, hs2, hinv2, hcb2, hmax2, hlog2, hu2, hlen2, hv2⟩ :=
      Set_fresh_over hinv1 hs1k2 v2 (by rw [hmax1', hu1']; exact ⟨hmb, ha⟩) hs1k1 hs1o
    rw [hcb1', if_pos rfl, hlog1'] at hlog2
    rw [hu1'] at hu2
    have hu2' : s2.usedBytes = accounted size v2 := by
      rw [hu2]; unfold wrap; omega
    have hv2' : ∀ k, s2.view k = if k = k2 then some (v2, 0) else none := by
      intro k
      rw [hv2 k]
      by_cases hk1 : k = k1
      · rw [if_pos hk1, if_neg (by rw [hk1]; exact h12)]
      · rw [if_neg hk1, hv1', if_neg hk1]
    -- Get(k1) misses
    have hg3 : step size s2 (.get k1) = some s2 :=
      Get_miss hinv2 (by rw [hv2', if_neg h12])
    -- Set(k3, v3) evicts k2
    obtain ⟨s4, hs4, hinv4, hcb4, hmax4, hlog4, hu4, hlen4, hv4⟩ :=
      Set_fresh_over hinv2 (k := k3) (by rw [hv2', if_neg (Ne.symm h23)]) v3
        (by rw [hmax2, hmax1', hu2']; exact ⟨hmb, hb⟩)
        (m := k2) (u := v2) (by rw [hv2', if_pos rfl])
        (by
          intro k v w hk hv
          rw [hv2', if_neg hk] at hv; cases hv)
    rw [hcb2, hcb1', if_pos rfl, hlog2] at hlog4
    rw [hu2'] at hu4
    have hu4' : s4.usedBytes = accounted size v3 := by
      rw [hu4]; unfold wrap; omega
    have hv4' : ∀ k, s4.view k = if k = k3 then some (v3, 0) else none := by
      intro k
      rw [hv4 k]
      by_cases hk2 : k = k2
      · rw [if_pos hk2, if_neg (by rw [hk2]; exact h23)]
      · rw [if_neg hk2, hv2', if_neg hk2]
    -- Get(k1) misses again
    have hg5 : step size s4 (.get k1) = some s4 :=
      Get_miss hinv4 (by rw [hv4', if_neg h13])
    -- Set(k4, v4) evicts k3
    obtain ⟨s6, hs6, hinv6, hcb6, hmax6, hlog6, hu6, hlen6, hv6⟩ :=
      Set_fresh_over hinv4 (k := k4) (by rw [hv4', if_neg (Ne.symm h34)]) v4
        (by rw [hmax4, hmax2, hmax1', hu4']; exact ⟨hmb, hc⟩)
        (m := k3) (u := v3) (by rw [hv4', if_pos rfl])
        (by
          intro k v w hk hv
          rw [hv4', if_neg hk] at hv; cases hv)
    rw [hcb4, hcb2, hcb1', if_pos rfl, hlog4] at hlog6
    refine ⟨s6, ?_, by rw [hlog6]; rfl, by rw [hlog6]; rfl, by omega, ?_⟩
    · unfold scenario
      rw [run_step hs1, run_step hs2, run_step hg3, run_step hs4, run_step hg5,
        run_step hs6]
      rfl
    · rw [hv6 k4, if_neg (Ne.symm h34), if_pos rfl]
  · intro ha hb hc
    -- Set(k2, v2) fits
    obtain ⟨s2, hs2, hinv2, hcb2, hmax2, hlog2, hu2, hlen2, hv2⟩ :=
      Set_fresh_fit hinv1 hs1k2 v2 (by
        rw [hmax1', hu1']
        intro hh
        omega)
    rw [hu1'] at hu2
    have hv2' : ∀ k, s2.view k =
        if k = k2 then some (v2, 0) else if k = k1 then some (v1, 0) else none := by
      intro k; rw [hv2 k, hv1']
    -- Get(k1) hits
    obtain ⟨s3, hs3, hinv3, hcb3, hmax3, hlog3, hu3, hlen3, hv3⟩ :=
      Get_hit hinv2 (k := k1) (v := v1) (w := 0) (by rw [hv2', if_neg h12, if_pos rfl])
    have hv3' : ∀ k, s3.view k =
        if k = k1 then some (v1, 1) else if k = k2 then some (v2, 0) else none := by
      intro k
      rw [hv3 k]
      by_cases hk1 : k = k1
      · rw [if_pos hk1, if_pos hk1]; rfl
      · rw [if_neg hk1, if_neg hk1, hv2']
        by_cases hk2 : k = k2
        · rw [if_pos hk2, if_pos hk2]
        · rw [if_neg hk2, if_neg hk2, if_neg hk1]
    -- Set(k3, v3) evicts k2
    obtain ⟨s4, hs4, hinv4, hcb4, hmax4, hlog4, hu4, hlen4, hv4⟩ :=
      Set_fresh_over hinv3 (k := k3)
        (by rw [hv3', if_neg (Ne.symm h13), if_neg (Ne.symm h23)]) v3
        (by rw [hmax3, hmax2, hmax1', hu3, hu2]; exact ⟨hmb, hb⟩)
        (m := k2) (u := v2) (by rw [hv3', if_neg (Ne.symm h12), if_pos rfl])
        (by
          intro k v w hk hv
          rw [hv3'] at hv
          by_cases hk1 : k = k1
          · rw [if_pos hk1] at hv
            simp only [Option.some.injEq, Prod.mk.injEq] at hv
            omega
          · rw [if_neg hk1, if_neg hk] at hv; cases hv)
    rw [hcb3, hcb2, hcb1', if_pos rfl, hlog3, hlog2, hlog1'] at hlog4
    rw [hu3, hu2] at hu4
    have hu4' : s4.usedBytes = wrap (accounted size v1 + accounted size v3) := by
      rw [hu4]; unfold wrap; omega
    have hv4' : ∀ k, s4.view k =
        if k = k1 then some (v1, 1) else if k = k3 then some (v3, 0) else none := by
      intro k
      rw [hv4 k]
      by_cases hk2 : k = k2
      · rw [if_pos hk2, if_neg (by rw [hk2]; exact Ne.symm h12),
          if_neg (by rw [hk2]; exact h23)]
      · rw [if_neg hk2]
        by_cases hk3 : k = k3
        · rw [if_pos hk3, if_neg (by rw [hk3]; exact Ne.symm h13), if_pos hk3]
        · rw [if_neg hk3, hv3', if_neg hk2, if_neg hk3]
    -- Get(k1) hits again
    obtain ⟨s5, hs5, hinv5, hcb5, hmax5, hlog5, hu5, hlen5, hv5⟩ :=
      Get_hit hinv4 (k := k1) (v := v1) (w := 1) (by rw [hv4', if_pos rfl])
    have hv5' : ∀ k, s5.view k =
        if k = k1 then some (v1, 2) else if k = k3 then some (v3, 0) else none := by
      intro k
      rw [hv5 k]
      by_cases hk1 : k = k1
      · rw [if_pos hk1, if_pos hk1]; rfl
      · rw [if_neg hk1, if_neg hk1, hv4', if_neg hk1]
    -- Set(k4, v4) evicts k3
    obtain ⟨s6, hs6, hinv6, hcb6, hmax6, hlog6, hu6, hlen6, hv6⟩ :=
      Set_fresh_over hinv5 (k := k4)
        (by rw [hv5', if_neg (Ne.symm h14), if_neg (Ne.symm h34)]) v4
        (by rw [hmax5, hmax4, hmax3, hmax2, hmax1', hu5, hu4']; exact ⟨hmb, hc⟩)
        (m := k3) (u := v3) (by rw [hv5', if_neg (Ne.symm h13), if_pos rfl])
        (by
          intro k v w hk hv
          rw [hv5'] at hv
          by_cases hk1 : k = k1
          · rw [if_pos hk1] at hv
            simp only [Option.some.injEq, Prod.mk.injEq] at hv
            omega
          · rw [if_neg hk1, if_neg hk] at hv; cases hv)
    rw [hcb5, hcb4, hcb3, hcb2, hcb1', if_pos rfl, hlog5, hlog4] at hlog6
    refine ⟨s6, ?_, by rw [hlog6]; rfl, by rw [hlog6]; rfl, by omega, ?_, ?_⟩
    · unfold scenario
      rw [run_step hs1, run_step hs2, run_step hs3, run_step hs4, run_step hs5,
        run_step hs6]
      rfl
    · rw [hv6 k1, if_neg h13, if_neg h14, hv5', if_pos rfl]
    · rw [hv6 k4, if_neg (Ne.symm h34), if_pos rfl]

/-- C14 on the input of `TestOnEvicated` (keys `k1` to `k4`, values 1 to 4, 8 bytes
per integer): with the budget of 16 bytes the callback records `k1, k2, k3`, so
the first two evictions are `k1` then `k2`; with a budget of 32 bytes, which
holds two entries, it records `k2, k3` and `k1` stays. -/
theorem C14_eviction_order_scenario_witness :
    (["k1", "k2", "k3", "k4"].Nodup ∧ (0 : Int) < 16 ∧ accounted size8 (some 1) ≤ 16 ∧
      wrap (accounted size8 (some 1) + accounted size8 (some 2)) > 16 ∧
      wrap (accounted size8 (some 2) + accounted size8 (some 3)) > 16 ∧
      wrap (accounted size8 (some 3) + accounted size8 (some 4)) > 16 ∧
      scenario "k1" "k2" "k3" "k4" (some 1) (some 2) (some 3) (some 4) = testOps ∧
      ∃ l, run size8 (New 16 true)
          (scenario "k1" "k2" "k3" "k4" (some 1) (some 2) (some 3) (some 4)) = some l ∧
        l.evicted = [("k1", some 1), ("k2", some 2), ("k3", some 3)] ∧
        (l.evicted.map Prod.fst).take 2 = ["k1", "k2"] ∧ l.Len = 1 ∧
        l.view "k4" = some (some 4, 0)) ∧
    ((0 : Int) < 32 ∧ accounted size8 (some 1) ≤ 32 ∧
      wrap (accounted size8 (some 1) + accounted size8 (some 2)) ≤ 32 ∧
      wrap (wrap (accounted size8 (some 1) + accounted size8 (some 2))
        + accounted size8 (some 3)) > 32 ∧
      wrap (wrap (accounted size8 (some 1) + accounted size8 (some 3))
        + accounted size8 (some 4)) > 32 ∧
      ∃ l, run size8 (New 32 true)
          (scenario "k1" "k2" "k3" "k4" (some 1) (some 2) (some 3) (some 4)) = some l ∧
        l.evicted = [("k2", some 2), ("k3", some 3)] ∧
        (l.evicted.map Prod.fst).take 2 = ["k2", "k3"] ∧ l.Len = 2 ∧
        l.view "k1" = some (some 1, 2) ∧ l.view "k4" = some (some 4, 0)) :=
  ⟨⟨by decide, by decide, by decide, by decide, by decide, by decide, rfl,
      (C14_eviction_order_scenario size8 16 "k1" "k2" "k3" "k4" (some 1) (some 2) (some 3)
        (some 4) (by decide) (by decide) (by decide)).1 (by decide) (by decide) (by decide)⟩,
    ⟨by decide, by decide, by decide, by decide, by decide,
      (C14_eviction_order_scenario size8 32 "k1" "k2" "k3" "k4" (some 1) (some 2) (some 3)
        (some 4) (by decide) (by decide) (by decide)).2 (by decide) (by decide) (by decide)⟩⟩

end LFU
